import Mathlib

/-!
Verification of the e-boost extraction engine (extraction_gym_cpp).

The C++ sources are shallowly embedded here:
- tsl::ordered_map is modelled as an association list kept in insertion
  order; updating an existing key rewrites the value in place, inserting a
  fresh key appends at the end (omLookup / omSet / omInsert / bucketAdd).
- doubles used as costs are modelled as rationals; the IEEE infinity
  sentinel used by the greedy extractor is modelled by an explicit CostT
  type with an inf constructor.
- C++ exceptions (and failed asserts) are modelled with Except; recursions
  whose termination is a claim rather than a given (cycle_dfs, the
  extractor worklist, tree_cost_rec) take an explicit fuel argument.
-/

namespace EBoost

abbrev ClassId := Nat

abbrev NodeId := Nat × Nat

/-- Lookup in an insertion-ordered association list (tsl::ordered_map::find). -/
def omLookup {α β : Type} [DecidableEq α] (k : α) : List (α × β) → Option β
  | [] => none
  | (k', v) :: rest => if k = k' then some v else omLookup k rest

/-- Map-style write m[k] = v: rewrite the value in place if the key exists,
append at the end otherwise. -/
def omSet {α β : Type} [DecidableEq α] (m : List (α × β)) (k : α) (v : β) : List (α × β) :=
  match m with
  | [] => [(k, v)]
  | (k', v') :: rest => if k = k' then (k', v) :: rest else (k', v') :: omSet rest k v

/-- C++ map insert semantics: keep the existing entry if the key is present,
append otherwise.  Returns the map unchanged on a duplicate key. -/
def omInsert {α β : Type} [DecidableEq α] (m : List (α × β)) (k : α) (v : β) : List (α × β) :=
  if (omLookup k m).isSome then m else m ++ [(k, v)]

/-- Append x to the bucket of key k, creating the bucket at the end if absent. -/
def bucketAdd {α β : Type} [DecidableEq α] (m : List (α × List β)) (k : α) (x : β) :
    List (α × List β) :=
  match m with
  | [] => [(k, [x])]
  | (k', l) :: rest => if k = k' then (k', l ++ [x]) :: rest else (k', l) :: bucketAdd rest k x

def omKeys {α β : Type} (m : List (α × β)) : List α := m.map Prod.fst

/-- A node of the serialized e-graph (egraph_serialize.hpp).  Costs are
modelled as rationals. -/
structure Node where
  op : Nat
  children : List ClassId
  eclass : ClassId
  cost : ℚ
deriving DecidableEq

def Node.is_leaf (n : Node) : Bool := n.children.isEmpty

/-- The e-graph: a nested ordered map from class ids to the nodes grouped
under them, plus the root class list (egraph_serialize.hpp). -/
structure EGraph where
  nodes : List (ClassId × List (NodeId × Node))
  root_eclasses : List ClassId
deriving DecidableEq

/-- EGraph::operator[](NodeId): look up the outer map by the id's first
component, then the inner map by the full id; none models the C++ throw. -/
def EGraph.findNode (g : EGraph) (nid : NodeId) : Option Node :=
  match omLookup nid.1 g.nodes with
  | none => none
  | some inner => omLookup nid inner

/-- All (NodeId, Node) pairs in iteration order of the nested ordered maps. -/
def EGraph.allNodePairs (g : EGraph) : List (NodeId × Node) :=
  (g.nodes.map Prod.snd).flatten

/-- EGraph::classes(): bucket every node id under its declared eclass field,
in iteration order. -/
def EGraph.classes (g : EGraph) : List (ClassId × List NodeId) :=
  g.allNodePairs.foldl (fun cls p => bucketAdd cls p.2.eclass p.1) []

/-- The extraction result: ordered map from class id to chosen node id. -/
structure ExtractionResult where
  choices : List (ClassId × NodeId)
deriving DecidableEq

/-- ExtractionResult::choose uses ordered_map::insert, which keeps the
existing entry when the class already has a choice. -/
def ExtractionResult.choose (r : ExtractionResult) (class_id : ClassId) (node_id : NodeId) :
    ExtractionResult :=
  { choices := omInsert r.choices class_id node_id }

/-- Errors corresponding to the exceptions thrown by ExtractionResult
(extractor.hpp) and to exhaustion of the fuel that stands in for the
unbounded C++ recursion. -/
inductive CheckErr
  | emptyRoots
  | missingRootChoice (c : ClassId)
  | cycleDetected
  | eclassMismatch (c : ClassId) (n : NodeId)
  | missingNode (n : NodeId)
  | missingChoice (c : ClassId)
  | fuelExhausted
  | missingClassNodes (c : ClassId)
  | partitionTooFew
  | assertFailed
  | noRoot
deriving DecidableEq

/-- First loop of check: every root must have a choice. -/
def rootsChosen (R : ExtractionResult) : List ClassId → Except CheckErr Unit
  | [] => .ok ()
  | c :: rest =>
    if (omLookup c R.choices).isSome then rootsChosen R rest
    else .error (.missingRootChoice c)

inductive DfsStatus
  | Doing
  | Done
deriving DecidableEq

mutual

/-- ExtractionResult::cycle_dfs: three-state depth-first search over the
chosen-node child graph.  The status map records Doing while a class is on
the recursion stack and Done afterwards; revisiting a Doing class appends
it to the cycles list.  Fuel stands in for the unbounded C++ recursion. -/
def cycleDfs (R : ExtractionResult) (g : EGraph) :
    Nat → ClassId → List (ClassId × DfsStatus) → List ClassId →
    Except CheckErr (List (ClassId × DfsStatus) × List ClassId)
  | 0, _, _, _ => .error .fuelExhausted
  | fuel + 1, c, status, cycles =>
    match omLookup c status with
    | some .Doing => .ok (status, cycles ++ [c])
    | some .Done => .ok (status, cycles)
    | none =>
      match omLookup c R.choices with
      | none => .error (.missingChoice c)
      | some n =>
        match g.findNode n with
        | none => .error (.missingNode n)
        | some node =>
          match cycleDfsList R g fuel node.children (omSet status c .Doing) cycles with
          | .error e => .error e
          | .ok (st2, cy2) => .ok (omSet st2 c .Done, cy2)
termination_by fuel _ _ _ => (fuel, 0)

/-- The loop over the children inside cycle_dfs (and over the roots inside
find_cycles), threading the status map and cycle list. -/
def cycleDfsList (R : ExtractionResult) (g : EGraph) :
    Nat → List ClassId → List (ClassId × DfsStatus) → List ClassId →
    Except CheckErr (List (ClassId × DfsStatus) × List ClassId)
  | _, [], status, cycles => .ok (status, cycles)
  | fuel, c :: rest, status, cycles =>
    match cycleDfs R g fuel c status cycles with
    | .error e => .error e
    | .ok (st1, cy1) => cycleDfsList R g fuel rest st1 cy1
termination_by fuel cs _ _ => (fuel, cs.length + 1)

end

/-- ExtractionResult::find_cycles: run the DFS from every root with a shared
status map.  The C++ recursion is unbounded; the fuel used here is shown
sufficient below (cycleDfs enters at most one fresh chosen class per level). -/
def findCycles (R : ExtractionResult) (g : EGraph) (roots : List ClassId) :
    Except CheckErr (List ClassId) :=
  (cycleDfsList R g (R.choices.length + 1) roots [] []).map (·.2)

/-- Third phase of check: every (class, node) entry must name a node whose
declared eclass equals the class. -/
def eclassCheck (g : EGraph) : List (ClassId × NodeId) → Except CheckErr Unit
  | [] => .ok ()
  | (c, n) :: rest =>
    match g.findNode n with
    | none => .error (.missingNode n)
    | some node =>
      if node.eclass = c then eclassCheck g rest
      else .error (.eclassMismatch c n)

/-- A sublist missing an element of the longer list is strictly shorter. -/
theorem sublist_length_lt_of_not_mem {α : Type} {s t : List α} (hsub : s.Sublist t) {a : α}
    (hat : a ∈ t) (has : a ∉ s) : s.length < t.length := by
  rcases Nat.lt_or_ge s.length t.length with h | h
  · exact h
  · have heq : s.length = t.length := le_antisymm hsub.length_le h
    have := hsub.eq_of_length heq
    subst this
    exact absurd hat has

/-- Helper for worklist termination measures. -/
theorem filter_notMem_cons_length_lt {α : Type} [DecidableEq α] (l : List α) (c : α)
    (visited : List α) (hc : c ∈ l) (hnv : c ∉ visited) :
    (l.filter (fun k => decide (k ∉ c :: visited))).length <
      (l.filter (fun k => decide (k ∉ visited))).length := by
  apply sublist_length_lt_of_not_mem (a := c)
  · apply List.monotone_filter_right
    intro x hx
    simp only [decide_eq_true_eq, List.mem_cons, not_or] at hx ⊢
    exact hx.2
  · rw [List.mem_filter]
    exact ⟨hc, by simpa using hnv⟩
  · intro hmem
    rw [List.mem_filter] at hmem
    simp at hmem

/-- A successful ordered-map lookup means the key is present. -/
theorem omLookup_isSome_mem_keys {α β : Type} [DecidableEq α] {k : α} {m : List (α × β)}
    (h : (omLookup k m).isSome) : k ∈ omKeys m := by
  induction m with
  | nil => simp [omLookup] at h
  | cons p t ih =>
    by_cases hk : k = p.1
    · subst hk
      exact List.mem_cons_self _ _
    · refine List.mem_cons_of_mem _ (ih ?_)
      simpa [omLookup, hk] using h

/-- Fourth phase of check: iterative walk over the dependency closure of the
roots; every reached class must have a choice.  The todo vector is a stack in
the C++ code, so children are pushed reversed onto the model's list head. -/
def checkWalk (R : ExtractionResult) (g : EGraph) (todo : List ClassId) (visited : List ClassId) :
    Except CheckErr Unit :=
  match todo with
  | [] => .ok ()
  | c :: rest =>
    if hv : c ∈ visited then checkWalk R g rest visited
    else
      match hl : omLookup c R.choices with
      | none => .error (.missingChoice c)
      | some n =>
        match g.findNode n with
        | none => .error (.missingNode n)
        | some node => checkWalk R g (node.children.reverse ++ rest) (c :: visited)
termination_by
  (((omKeys R.choices).dedup.filter (fun k => decide (k ∉ visited))).length, todo.length)
decreasing_by
  · apply Prod.Lex.right
    simp
  · apply Prod.Lex.left
    apply filter_notMem_cons_length_lt
    · rw [List.mem_dedup]
      exact omLookup_isSome_mem_keys (by rw [hl]; rfl)
    · exact hv

/-- ExtractionResult::check, phase for phase: non-empty roots assert, root
coverage, cycle freedom, eclass agreement, dependency-closure coverage. -/
def ExtractionResult.check (R : ExtractionResult) (g : EGraph) : Except CheckErr Unit :=
  if g.root_eclasses.isEmpty then .error .emptyRoots
  else
    match rootsChosen R g.root_eclasses with
    | .error e => .error e
    | .ok _ =>
      match findCycles R g g.root_eclasses with
      | .error e => .error e
      | .ok cycles =>
        if cycles.isEmpty then
          match eclassCheck g R.choices with
          | .error e => .error e
          | .ok _ => checkWalk R g g.root_eclasses []
        else .error .cycleDetected

/-! Basic ordered-map lemmas. -/

theorem omLookup_omSet {α β : Type} [DecidableEq α] (m : List (α × β)) (k k' : α) (v : β) :
    omLookup k (omSet m k' v) = if k = k' then some v else omLookup k m := by
  induction m with
  | nil =>
    simp [omSet, omLookup]
  | cons p t ih =>
    obtain ⟨a, b⟩ := p
    simp only [omSet]
    by_cases h1 : k' = a
    · subst h1
      rw [if_pos rfl]
      by_cases h2 : k = k' <;> simp [omLookup, h2]
    · rw [if_neg h1]
      by_cases h2 : k = a
      · have hkk : ¬ k = k' := fun hh => h1 (hh.symm.trans h2)
        have hak : ¬ a = k' := fun hh => h1 hh.symm
        simp [omLookup, h2, hkk, hak]
      · simp [omLookup, h2, ih]

theorem omLookup_append {α β : Type} [DecidableEq α] (m m' : List (α × β)) (k : α) :
    omLookup k (m ++ m') =
      match omLookup k m with
      | some v => some v
      | none => omLookup k m' := by
  induction m with
  | nil => simp [omLookup]
  | cons p t ih =>
    by_cases hk : k = p.1 <;> simp [omLookup, hk, ih]

theorem omLookup_omInsert {α β : Type} [DecidableEq α] (m : List (α × β)) (k k' : α) (v : β) :
    omLookup k (omInsert m k' v) =
      if (omLookup k' m).isSome then omLookup k m
      else if k = k' then some v else omLookup k m := by
  unfold omInsert
  by_cases h : (omLookup k' m).isSome
  · simp [h]
  · rw [if_neg h, if_neg h, omLookup_append]
    by_cases hk : k = k'
    · subst hk
      cases hm : omLookup k m with
      | some v' => rw [hm] at h; simp at h
      | none => simp [omLookup]
    · cases hm : omLookup k m with
      | some v' => simp [hk]
      | none => simp [omLookup, hk]

/-! Semantic conditions behind ExtractionResult::check (claim C1).  A step
goes from a class to any child class of its chosen node. -/

/-- One dependency step of the choice-induced child graph. -/
def chosenStep (R : ExtractionResult) (g : EGraph) (c d : ClassId) : Prop :=
  ∃ n node, omLookup c R.choices = some n ∧ g.findNode n = some node ∧ d ∈ node.children

/-- Reachability along chosen nodes' children. -/
def reachableFrom (R : ExtractionResult) (g : EGraph) (s c : ClassId) : Prop :=
  Relation.ReflTransGen (chosenStep R g) s c

/-- Reachability from some root of the e-graph. -/
def reachableFromRoots (R : ExtractionResult) (g : EGraph) (c : ClassId) : Prop :=
  ∃ r ∈ g.root_eclasses, reachableFrom R g r c

/-- Condition (1): some root class has no recorded choice. -/
def missingRootChoiceProp (R : ExtractionResult) (g : EGraph) : Prop :=
  ∃ r ∈ g.root_eclasses, omLookup r R.choices = none

/-- Condition (2): the chosen-node child graph reachable from the roots
contains a cycle. -/
def hasCycleProp (R : ExtractionResult) (g : EGraph) : Prop :=
  ∃ c, reachableFromRoots R g c ∧ Relation.TransGen (chosenStep R g) c c

/-- Condition (3): some class reachable from the roots has no choice. -/
def missingDepChoiceProp (R : ExtractionResult) (g : EGraph) : Prop :=
  ∃ c, reachableFromRoots R g c ∧ omLookup c R.choices = none

/-- Condition (4): some table entry maps a class to a node whose declared
owning class differs. -/
def eclassMismatchProp (R : ExtractionResult) (g : EGraph) : Prop :=
  ∃ p ∈ R.choices, ∃ node, g.findNode p.2 = some node ∧ node.eclass ≠ p.1

/-- Every chosen node id exists in the e-graph (the choice table is
well-formed enough for condition (4) to speak of the node's class). -/
def choicesWellFormed (R : ExtractionResult) (g : EGraph) : Prop :=
  ∀ p ∈ R.choices, (g.findNode p.2).isSome

/-! DFS lemmas.  StatusExtends captures how one cycleDfs call may change the
status map: existing entries are untouched and fresh entries end Done. -/

def StatusExtends (s s' : List (ClassId × DfsStatus)) : Prop :=
  ∀ x, omLookup x s' = omLookup x s ∨ (omLookup x s = none ∧ omLookup x s' = some .Done)

theorem StatusExtends.refl (s : List (ClassId × DfsStatus)) : StatusExtends s s :=
  fun _ => Or.inl rfl

theorem StatusExtends.trans {s t u : List (ClassId × DfsStatus)}
    (h1 : StatusExtends s t) (h2 : StatusExtends t u) : StatusExtends s u := by
  intro x
  rcases h2 x with h | ⟨ht, hu⟩
  · rcases h1 x with h' | ⟨hs, ht'⟩
    · exact Or.inl (h.trans h')
    · exact Or.inr ⟨hs, h.trans ht'⟩
  · rcases h1 x with h' | ⟨hs, ht'⟩
    · exact Or.inr ⟨h'.symm.trans ht, hu⟩
    · rw [ht'] at ht
      cases ht

theorem StatusExtends.preserves {s s' : List (ClassId × DfsStatus)}
    (h : StatusExtends s s') {x : ClassId} {v : DfsStatus}
    (hx : omLookup x s = some v) : omLookup x s' = some v := by
  rcases h x with h' | ⟨hn, _⟩
  · rw [h', hx]
  · rw [hn] at hx
    cases hx

theorem StatusExtends.doing_eq {s s' : List (ClassId × DfsStatus)}
    (h : StatusExtends s s') (x : ClassId) :
    omLookup x s' = some .Doing ↔ omLookup x s = some .Doing := by
  constructor
  · intro hx
    rcases h x with h' | ⟨hn, hd⟩
    · rw [← h', hx]
    · rw [hd] at hx
      cases hx
  · exact h.preserves

/-- Basic facts about a successful cycleDfs / cycleDfsList call: the status
map only extends and the cycle list only grows by appending. -/
theorem cycleDfs_basic (R : ExtractionResult) (g : EGraph) :
    ∀ fuel : Nat,
      (∀ c status cycles st' cy', cycleDfs R g fuel c status cycles = .ok (st', cy') →
        StatusExtends status st' ∧ ∃ extra, cy' = cycles ++ extra) ∧
      (∀ cs status cycles st' cy', cycleDfsList R g fuel cs status cycles = .ok (st', cy') →
        StatusExtends status st' ∧ ∃ extra, cy' = cycles ++ extra) := by
  intro fuel
  induction fuel using Nat.strong_induction_on with
  | _ fuel ih =>
    have hdfs : ∀ c status cycles st' cy',
        cycleDfs R g fuel c status cycles = .ok (st', cy') →
        StatusExtends status st' ∧ ∃ extra, cy' = cycles ++ extra := by
      intro c status cycles st' cy' h
      cases fuel with
      | zero => rw [cycleDfs] at h; cases h
      | succ f =>
        rw [cycleDfs] at h
        split at h
        · -- status Doing: report a cycle, status unchanged
          rename_i hst
          simp only [Except.ok.injEq, Prod.mk.injEq] at h
          exact ⟨h.1 ▸ StatusExtends.refl _, [c], h.2.symm⟩
        · -- status Done: nothing to do
          simp only [Except.ok.injEq, Prod.mk.injEq] at h
          exact ⟨h.1 ▸ StatusExtends.refl _, [], by simp [h.2.symm]⟩
        · -- status fresh
          rename_i hst
          split at h
          · cases h
          · rename_i n hch
            split at h
            · cases h
            · rename_i node hnd
              split at h
              · cases h
              · rename_i st2 cy2 hrec
                simp only [Except.ok.injEq, Prod.mk.injEq] at h
                obtain ⟨hext, extra, hextra⟩ := (ih f (Nat.lt_succ_self _)).2 _ _ _ _ _ hrec
                refine ⟨?_, extra, by rw [← h.2, hextra]⟩
                intro x
                rw [← h.1]
                by_cases hxc : x = c
                · subst hxc
                  exact Or.inr ⟨hst, by rw [omLookup_omSet]; simp⟩
                · rw [omLookup_omSet, if_neg hxc]
                  rcases hext x with h' | ⟨hn, hd⟩
                  · rw [h', omLookup_omSet, if_neg hxc]
                    exact Or.inl rfl
                  · rw [omLookup_omSet, if_neg hxc] at hn
                    exact Or.inr ⟨hn, hd⟩
    refine ⟨hdfs, ?_⟩
    intro cs
    induction cs with
    | nil =>
      intro status cycles st' cy' h
      rw [cycleDfsList] at h
      simp only [Except.ok.injEq, Prod.mk.injEq] at h
      exact ⟨h.1 ▸ StatusExtends.refl _, [], by simp [h.2.symm]⟩
    | cons a t iht =>
      intro status cycles st' cy' h
      rw [cycleDfsList] at h
      cases h1 : cycleDfs R g fuel a status cycles with
      | error e => rw [h1] at h; cases h
      | ok p =>
        obtain ⟨st1, cy1⟩ := p
        rw [h1] at h
        obtain ⟨hext1, e1, he1⟩ := hdfs _ _ _ _ _ h1
        obtain ⟨hext2, e2, he2⟩ := iht _ _ _ _ h
        exact ⟨hext1.trans hext2, e1 ++ e2, by rw [he2, he1, List.append_assoc]⟩

/-- Soundness of the DFS cycle reports: every class appended to the cycle
list lies on a real cycle of the chosen-child graph, within any predicate P
closed under chosen steps (instantiated with reachability from the roots).
The last hypothesis is the stack invariant: every Doing class reaches the
currently explored class in at least one step. -/
theorem cycleDfs_sound (R : ExtractionResult) (g : EGraph) (P : ClassId → Prop)
    (hP : ∀ x y, P x → chosenStep R g x y → P y) :
    ∀ fuel : Nat,
      (∀ c status cycles st' cy',
        cycleDfs R g fuel c status cycles = .ok (st', cy') →
        P c → (∀ x, (omLookup x status).isSome → P x) →
        (∀ d, omLookup d status = some .Doing → Relation.TransGen (chosenStep R g) d c) →
        (∀ e ∈ cy', e ∈ cycles ∨ (P e ∧ Relation.TransGen (chosenStep R g) e e)) ∧
        (∀ x, (omLookup x st').isSome → P x)) ∧
      (∀ cs status cycles st' cy',
        cycleDfsList R g fuel cs status cycles = .ok (st', cy') →
        (∀ c ∈ cs, P c) → (∀ x, (omLookup x status).isSome → P x) →
        (∀ d c, omLookup d status = some .Doing → c ∈ cs →
          Relation.TransGen (chosenStep R g) d c) →
        (∀ e ∈ cy', e ∈ cycles ∨ (P e ∧ Relation.TransGen (chosenStep R g) e e)) ∧
        (∀ x, (omLookup x st').isSome → P x)) := by
  intro fuel
  induction fuel using Nat.strong_induction_on with
  | _ fuel ih =>
    have hdfs : ∀ c status cycles st' cy',
        cycleDfs R g fuel c status cycles = .ok (st', cy') →
        P c → (∀ x, (omLookup x status).isSome → P x) →
        (∀ d, omLookup d status = some .Doing → Relation.TransGen (chosenStep R g) d c) →
        (∀ e ∈ cy', e ∈ cycles ∨ (P e ∧ Relation.TransGen (chosenStep R g) e e)) ∧
        (∀ x, (omLookup x st').isSome → P x) := by
      intro c status cycles st' cy' h hPc hkeys hdoing
      cases fuel with
      | zero => rw [cycleDfs] at h; cases h
      | succ f =>
        rw [cycleDfs] at h
        split at h
        · -- status Doing: the appended class has a real cycle
          rename_i hst
          simp only [Except.ok.injEq, Prod.mk.injEq] at h
          refine ⟨?_, fun x hx => hkeys x (h.1 ▸ hx)⟩
          intro e he
          rw [← h.2, List.mem_append] at he
          rcases he with he | he
          · exact Or.inl he
          · simp only [List.mem_singleton] at he
            subst he
            exact Or.inr ⟨hPc, hdoing e hst⟩
        · -- status Done
          simp only [Except.ok.injEq, Prod.mk.injEq] at h
          exact ⟨fun e he => Or.inl (h.2 ▸ he), fun x hx => hkeys x (h.1 ▸ hx)⟩
        · -- fresh
          rename_i hst
          split at h
          · cases h
          · rename_i n hch
            split at h
            · cases h
            · rename_i node hnd
              split at h
              · cases h
              · rename_i st2 cy2 hrec
                simp only [Except.ok.injEq, Prod.mk.injEq] at h
                have hstep : ∀ ch ∈ node.children, chosenStep R g c ch :=
                  fun ch hm => ⟨n, node, hch, hnd, hm⟩
                have hres := (ih f (Nat.lt_succ_self _)).2 _ _ _ _ _ hrec
                  (fun ch hm => hP c ch hPc (hstep ch hm))
                  (by
                    intro x hx
                    rw [omLookup_omSet] at hx
                    by_cases hxc : x = c
                    · exact hxc ▸ hPc
                    · exact hkeys x (by rwa [if_neg hxc] at hx))
                  (by
                    intro d ch hd hm
                    rw [omLookup_omSet] at hd
                    by_cases hdc : d = c
                    · subst hdc
                      exact Relation.TransGen.single (hstep ch hm)
                    · rw [if_neg hdc] at hd
                      exact (hdoing d hd).tail (hstep ch hm))
                refine ⟨fun e he => hres.1 e (h.2 ▸ he), ?_⟩
                intro x hx
                rw [← h.1, omLookup_omSet] at hx
                by_cases hxc : x = c
                · exact hxc ▸ hPc
                · exact hres.2 x (by rwa [if_neg hxc] at hx)
    refine ⟨hdfs, ?_⟩
    intro cs
    induction cs with
    | nil =>
      intro status cycles st' cy' h hcs hkeys hdoing
      rw [cycleDfsList] at h
      simp only [Except.ok.injEq, Prod.mk.injEq] at h
      exact ⟨fun e he => Or.inl (h.2 ▸ he), fun x hx => hkeys x (h.1 ▸ hx)⟩
    | cons a t iht =>
      intro status cycles st' cy' h hcs hkeys hdoing
      rw [cycleDfsList] at h
      split at h
      · cases h
      · rename_i st1 cy1 h1
        have hbasic := (cycleDfs_basic R g fuel).1 _ _ _ _ _ h1
        have hres1 := hdfs _ _ _ _ _ h1 (hcs a (List.mem_cons_self _ _)) hkeys
          (fun d hd => hdoing d a hd (List.mem_cons_self _ _))
        have hres2 := iht _ _ _ _ h (fun x hx => hcs x (List.mem_cons_of_mem _ hx)) hres1.2
          (by
            intro d ch hd hm
            have hd0 : omLookup d status = some .Doing := (hbasic.1.doing_eq d).mp hd
            exact hdoing d ch hd0 (List.mem_cons_of_mem _ hm))
        refine ⟨?_, hres2.2⟩
        intro e he
        rcases hres2.1 e he with he1 | good
        · exact hres1.1 e he1
        · exact Or.inr good

/-- Characterization of cycleDfs errors: apart from fuel exhaustion, the DFS
fails only on a class in P without a choice, or on a chosen node id absent
from the e-graph. -/
theorem cycleDfs_error (R : ExtractionResult) (g : EGraph) (P : ClassId → Prop)
    (hP : ∀ x y, P x → chosenStep R g x y → P y) :
    ∀ fuel : Nat,
      (∀ c status cycles e, cycleDfs R g fuel c status cycles = .error e →
        P c → (∀ x, (omLookup x status).isSome → P x) →
        (∀ d, omLookup d status = some .Doing → Relation.TransGen (chosenStep R g) d c) →
        (e = .fuelExhausted ∨
         (∃ x, P x ∧ e = .missingChoice x ∧ omLookup x R.choices = none) ∨
         (∃ x n, P x ∧ e = .missingNode n ∧ omLookup x R.choices = some n ∧
           g.findNode n = none))) ∧
      (∀ cs status cycles e, cycleDfsList R g fuel cs status cycles = .error e →
        (∀ c ∈ cs, P c) → (∀ x, (omLookup x status).isSome → P x) →
        (∀ d c, omLookup d status = some .Doing → c ∈ cs →
          Relation.TransGen (chosenStep R g) d c) →
        (e = .fuelExhausted ∨
         (∃ x, P x ∧ e = .missingChoice x ∧ omLookup x R.choices = none) ∨
         (∃ x n, P x ∧ e = .missingNode n ∧ omLookup x R.choices = some n ∧
           g.findNode n = none))) := by
  intro fuel
  induction fuel using Nat.strong_induction_on with
  | _ fuel ih =>
    have hdfs : ∀ c status cycles e, cycleDfs R g fuel c status cycles = .error e →
        P c → (∀ x, (omLookup x status).isSome → P x) →
        (∀ d, omLookup d status = some .Doing → Relation.TransGen (chosenStep R g) d c) →
        (e = .fuelExhausted ∨
         (∃ x, P x ∧ e = .missingChoice x ∧ omLookup x R.choices = none) ∨
         (∃ x n, P x ∧ e = .missingNode n ∧ omLookup x R.choices = some n ∧
           g.findNode n = none)) := by
      intro c status cycles e h hPc hkeys hdoing
      cases fuel with
      | zero =>
        rw [cycleDfs] at h
        simp only [Except.error.injEq] at h
        exact Or.inl h.symm
      | succ f =>
        rw [cycleDfs] at h
        split at h
        · cases h
        · cases h
        · rename_i hst
          split at h
          · rename_i hch
            simp only [Except.error.injEq] at h
            exact Or.inr (Or.inl ⟨c, hPc, h.symm, hch⟩)
          · rename_i n hch
            split at h
            · rename_i hnd
              simp only [Except.error.injEq] at h
              exact Or.inr (Or.inr ⟨c, n, hPc, h.symm, hch, hnd⟩)
            · rename_i node hnd
              split at h
              · rename_i e' hrec
                simp only [Except.error.injEq] at h
                subst h
                have hstep : ∀ ch ∈ node.children, chosenStep R g c ch :=
                  fun ch hm => ⟨n, node, hch, hnd, hm⟩
                exact (ih f (Nat.lt_succ_self _)).2 _ _ _ _ hrec
                  (fun ch hm => hP c ch hPc (hstep ch hm))
                  (by
                    intro x hx
                    rw [omLookup_omSet] at hx
                    by_cases hxc : x = c
                    · exact hxc ▸ hPc
                    · exact hkeys x (by rwa [if_neg hxc] at hx))
                  (by
                    intro d ch hd hm
                    rw [omLookup_omSet] at hd
                    by_cases hdc : d = c
                    · subst hdc
                      exact Relation.TransGen.single (hstep ch hm)
                    · rw [if_neg hdc] at hd
                      exact (hdoing d hd).tail (hstep ch hm))
              · cases h
    refine ⟨hdfs, ?_⟩
    intro cs
    induction cs with
    | nil =>
      intro status cycles e h
      rw [cycleDfsList] at h
      cases h
    | cons a t iht =>
      intro status cycles e h hcs hkeys hdoing
      rw [cycleDfsList] at h
      split at h
      · rename_i e' h1
        simp only [Except.error.injEq] at h
        subst h
        exact hdfs _ _ _ _ h1 (hcs a (List.mem_cons_self _ _)) hkeys
          (fun d hd => hdoing d a hd (List.mem_cons_self _ _))
      · rename_i st1 cy1 h1
        have hbasic := (cycleDfs_basic R g fuel).1 _ _ _ _ _ h1
        have hkeys1 : ∀ x, (omLookup x st1).isSome → P x :=
          ((cycleDfs_sound R g P hP fuel).1 _ _ _ _ _ h1
            (hcs a (List.mem_cons_self _ _)) hkeys
            (fun d hd => hdoing d a hd (List.mem_cons_self _ _))).2
        exact iht _ _ _ h (fun x hx => hcs x (List.mem_cons_of_mem _ hx)) hkeys1
          (by
            intro d ch hd hm
            have hd0 : omLookup d status = some .Doing := (hbasic.1.doing_eq d).mp hd
            exact hdoing d ch hd0 (List.mem_cons_of_mem _ hm))

/-- Number of chosen classes not yet entered by the DFS; bounds the
remaining recursion depth. -/
def dfsMeasure (R : ExtractionResult) (status : List (ClassId × DfsStatus)) : Nat :=
  ((omKeys R.choices).dedup.filter (fun k => (omLookup k status).isNone)).length

theorem dfsMeasure_mono (R : ExtractionResult) {s s' : List (ClassId × DfsStatus)}
    (h : StatusExtends s s') : dfsMeasure R s' ≤ dfsMeasure R s := by
  apply List.Sublist.length_le
  apply List.monotone_filter_right
  intro x hx
  rcases h x with h' | ⟨hn, hd⟩
  · rw [h'] at hx
    exact hx
  · rw [hd] at hx
    cases hx

theorem dfsMeasure_omSet_lt (R : ExtractionResult) {status : List (ClassId × DfsStatus)}
    {c : ClassId} (hc : (omLookup c R.choices).isSome)
    (hfresh : omLookup c status = none) (v : DfsStatus) :
    dfsMeasure R (omSet status c v) < dfsMeasure R status := by
  apply sublist_length_lt_of_not_mem (a := c)
  · apply List.monotone_filter_right
    intro x hx
    rw [omLookup_omSet] at hx
    by_cases hxc : x = c
    · rw [if_pos hxc] at hx
      cases hx
    · rwa [if_neg hxc] at hx
  · rw [List.mem_filter]
    exact ⟨List.mem_dedup.mpr (omLookup_isSome_mem_keys hc), by simp [hfresh]⟩
  · intro hmem
    rw [List.mem_filter] at hmem
    have h2 := hmem.2
    rw [omLookup_omSet, if_pos rfl] at h2
    simp at h2

theorem dfsMeasure_nil_le (R : ExtractionResult) :
    dfsMeasure R [] ≤ R.choices.length := by
  calc ((omKeys R.choices).dedup.filter (fun k => (omLookup k ([] : List (ClassId × DfsStatus))).isNone)).length
      ≤ (omKeys R.choices).dedup.length := (List.filter_sublist _).length_le
    _ ≤ (omKeys R.choices).length := (List.dedup_sublist _).length_le
    _ = R.choices.length := List.length_map _ _

/-- With fuel exceeding the number of untouched chosen classes, the DFS
never runs out of fuel. -/
theorem cycleDfs_fuel (R : ExtractionResult) (g : EGraph) :
    ∀ fuel : Nat,
      (∀ c status cycles, dfsMeasure R status < fuel →
        cycleDfs R g fuel c status cycles ≠ .error .fuelExhausted) ∧
      (∀ cs status cycles, dfsMeasure R status < fuel →
        cycleDfsList R g fuel cs status cycles ≠ .error .fuelExhausted) := by
  intro fuel
  induction fuel using Nat.strong_induction_on with
  | _ fuel ih =>
    have hdfs : ∀ c status cycles, dfsMeasure R status < fuel →
        cycleDfs R g fuel c status cycles ≠ .error .fuelExhausted := by
      intro c status cycles hm h
      cases fuel with
      | zero => omega
      | succ f =>
        rw [cycleDfs] at h
        split at h
        · cases h
        · cases h
        · rename_i hst
          split at h
          · simp at h
          · rename_i n hch
            split at h
            · simp at h
            · rename_i node hnd
              split at h
              · rename_i e' hrec
                simp only [Except.error.injEq] at h
                subst h
                have hlt : dfsMeasure R (omSet status c .Doing) < f := by
                  have h1 := dfsMeasure_omSet_lt R (by rw [hch]; rfl) hst DfsStatus.Doing
                  omega
                exact (ih f (Nat.lt_succ_self _)).2 _ _ _ hlt hrec
              · cases h
    refine ⟨hdfs, ?_⟩
    intro cs
    induction cs with
    | nil =>
      intro status cycles hm h
      rw [cycleDfsList] at h
      cases h
    | cons a t iht =>
      intro status cycles hm h
      rw [cycleDfsList] at h
      split at h
      · rename_i e' h1
        simp only [Except.error.injEq] at h
        subst h
        exact hdfs _ _ _ hm h1
      · rename_i st1 cy1 h1
        have hbasic := (cycleDfs_basic R g fuel).1 _ _ _ _ _ h1
        exact iht _ _ (lt_of_le_of_lt (dfsMeasure_mono R hbasic.1) hm) h

/-- Done classes have all chosen children Done. -/
def DfsClosed (R : ExtractionResult) (g : EGraph) (s : List (ClassId × DfsStatus)) : Prop :=
  ∀ x, omLookup x s = some .Done → ∀ y, chosenStep R g x y → omLookup y s = some .Done

theorem DfsClosed.reach {R : ExtractionResult} {g : EGraph} {s : List (ClassId × DfsStatus)}
    (hcl : DfsClosed R g s) {c y : ClassId} (hc : omLookup c s = some .Done)
    (hreach : reachableFrom R g c y) : omLookup y s = some .Done := by
  induction hreach with
  | refl => exact hc
  | tail _ hstep ih => exact hcl _ ih _ hstep

/-- The heart of the cycle-freedom argument: a DFS run that reports no cycle
leaves a Done-closed status in which the entered class is Done, reaches no
in-progress class, and no freshly completed class lies on a cycle. -/
theorem cycleDfs_nocycle (R : ExtractionResult) (g : EGraph) :
    ∀ fuel : Nat,
      (∀ c status cycles st' cy',
        cycleDfs R g fuel c status cycles = .ok (st', cy') → cy' = cycles →
        DfsClosed R g status →
        DfsClosed R g st' ∧ omLookup c st' = some .Done ∧
        (∀ d, omLookup d status = some .Doing → ¬ reachableFrom R g c d) ∧
        (∀ y, omLookup y status = none → omLookup y st' = some .Done →
          ¬ Relation.TransGen (chosenStep R g) y y)) ∧
      (∀ cs status cycles st' cy',
        cycleDfsList R g fuel cs status cycles = .ok (st', cy') → cy' = cycles →
        DfsClosed R g status →
        DfsClosed R g st' ∧ (∀ c ∈ cs, omLookup c st' = some .Done) ∧
        (∀ d c, omLookup d status = some .Doing → c ∈ cs → ¬ reachableFrom R g c d) ∧
        (∀ y, omLookup y status = none → omLookup y st' = some .Done →
          ¬ Relation.TransGen (chosenStep R g) y y)) := by
  intro fuel
  induction fuel using Nat.strong_induction_on with
  | _ fuel ih =>
    have hdfs : ∀ c status cycles st' cy',
        cycleDfs R g fuel c status cycles = .ok (st', cy') → cy' = cycles →
        DfsClosed R g status →
        DfsClosed R g st' ∧ omLookup c st' = some .Done ∧
        (∀ d, omLookup d status = some .Doing → ¬ reachableFrom R g c d) ∧
        (∀ y, omLookup y status = none → omLookup y st' = some .Done →
          ¬ Relation.TransGen (chosenStep R g) y y) := by
      intro c status cycles st' cy' h hcy hcl
      cases fuel with
      | zero => rw [cycleDfs] at h; cases h
      | succ f =>
        rw [cycleDfs] at h
        split at h
        · -- Doing entry would report a cycle: contradicts hcy
          simp only [Except.ok.injEq, Prod.mk.injEq] at h
          rw [← h.2] at hcy
          simp at hcy
        · -- Done entry: nothing changed
          rename_i hst
          simp only [Except.ok.injEq, Prod.mk.injEq] at h
          obtain ⟨hs, _⟩ := h
          subst hs
          refine ⟨hcl, hst, ?_, ?_⟩
          · intro d hd hreach
            have := hcl.reach hst hreach
            rw [hd] at this
            cases this
          · intro y hy hd
            rw [hy] at hd
            cases hd
        · -- fresh entry
          rename_i hst
          split at h
          · cases h
          · rename_i n hch
            split at h
            · cases h
            · rename_i node hnd
              split at h
              · cases h
              · rename_i st2 cy2 hrec
                simp only [Except.ok.injEq, Prod.mk.injEq] at h
                obtain ⟨hs, hc2⟩ := h
                have hcy2 : cy2 = cycles := by rw [hc2, hcy]
                have hstep : ∀ ch ∈ node.children, chosenStep R g c ch :=
                  fun ch hm => ⟨n, node, hch, hnd, hm⟩
                have hcl1 : DfsClosed R g (omSet status c .Doing) := by
                  intro x hx y hsxy
                  rw [omLookup_omSet] at hx ⊢
                  by_cases hxc : x = c
                  · rw [if_pos hxc] at hx
                    cases hx
                  · rw [if_neg hxc] at hx
                    have hy := hcl x hx y hsxy
                    have hyc : ¬ y = c := by
                      intro hh
                      rw [hh, hst] at hy
                      cases hy
                    rw [if_neg hyc]
                    exact hy
                obtain ⟨hcl2, hallch, hdoing2, hnew2⟩ :=
                  (ih f (Nat.lt_succ_self _)).2 _ _ _ _ _ hrec hcy2 hcl1
                have hbasic := (cycleDfs_basic R g f).2 _ _ _ _ _ hrec
                have hcDoing2 : omLookup c st2 = some .Doing :=
                  hbasic.1.preserves (by rw [omLookup_omSet, if_pos rfl])
                have hchDone : ∀ ch ∈ node.children, omLookup ch st' = some .Done := by
                  intro ch hm
                  have hd2 := hallch ch hm
                  have hne : ¬ ch = c := by
                    intro hh
                    rw [hh, hcDoing2] at hd2
                    cases hd2
                  rw [← hs, omLookup_omSet, if_neg hne]
                  exact hd2
                refine ⟨?_, by rw [← hs, omLookup_omSet, if_pos rfl], ?_, ?_⟩
                · -- closure of the final status
                  intro x hx y hsxy
                  by_cases hxc : x = c
                  · subst hxc
                    obtain ⟨n', node', hch', hnd', hm'⟩ := hsxy
                    rw [hch] at hch'
                    cases hch'
                    rw [hnd] at hnd'
                    cases hnd'
                    exact hchDone y hm'
                  · rw [← hs, omLookup_omSet, if_neg hxc] at hx
                    have hy := hcl2 x hx y hsxy
                    have hyc : ¬ y = c := by
                      intro hh
                      rw [hh, hcDoing2] at hy
                      cases hy
                    rw [← hs, omLookup_omSet, if_neg hyc]
                    exact hy
                · -- no Doing class of the initial status is reachable from c
                  intro d hd hreach
                  have hdc : ¬ d = c := by
                    intro hh
                    rw [hh, hst] at hd
                    cases hd
                  have hdDoing1 : omLookup d (omSet status c .Doing) = some .Doing := by
                    rw [omLookup_omSet, if_neg hdc]
                    exact hd
                  rcases Relation.reflTransGen_iff_eq_or_transGen.mp hreach with heq | htg
                  · exact hdc heq
                  · obtain ⟨ch, hcch, hchd⟩ := Relation.TransGen.head'_iff.mp htg
                    obtain ⟨n', node', hch', hnd', hm'⟩ := hcch
                    rw [hch] at hch'
                    cases hch'
                    rw [hnd] at hnd'
                    cases hnd'
                    exact hdoing2 d ch hdDoing1 hm' hchd
                · -- freshly completed classes have no self-cycle
                  intro y hy hyDone htg
                  by_cases hyc : y = c
                  · subst hyc
                    obtain ⟨ch, hcch, hchy⟩ := Relation.TransGen.head'_iff.mp htg
                    obtain ⟨n', node', hch', hnd', hm'⟩ := hcch
                    rw [hch] at hch'
                    cases hch'
                    rw [hnd] at hnd'
                    cases hnd'
                    exact hdoing2 y ch (by rw [omLookup_omSet, if_pos rfl]) hm' hchy
                  · rw [← hs, omLookup_omSet, if_neg hyc] at hyDone
                    have hy1 : omLookup y (omSet status c .Doing) = none := by
                      rw [omLookup_omSet, if_neg hyc]
                      exact hy
                    exact hnew2 y hy1 hyDone htg
    refine ⟨hdfs, ?_⟩
    intro cs
    induction cs with
    | nil =>
      intro status cycles st' cy' h hcy hcl
      rw [cycleDfsList] at h
      simp only [Except.ok.injEq, Prod.mk.injEq] at h
      obtain ⟨hs, _⟩ := h
      subst hs
      refine ⟨hcl, by simp, by simp, ?_⟩
      intro y hy hyDone
      rw [hy] at hyDone
      cases hyDone
    | cons a t iht =>
      intro status cycles st' cy' h hcy hcl
      rw [cycleDfsList] at h
      split at h
      · cases h
      · rename_i st1 cy1 h1
        have hb1 := (cycleDfs_basic R g fuel).1 _ _ _ _ _ h1
        have hb2 := (cycleDfs_basic R g fuel).2 _ _ _ _ _ h
        obtain ⟨e1, he1⟩ := hb1.2
        obtain ⟨e2, he2⟩ := hb2.2
        have he12 : e1 = [] ∧ e2 = [] := by
          rw [he1] at he2
          rw [he2] at hcy
          rw [List.append_assoc] at hcy
          have := List.self_eq_append_right.mp hcy.symm
          constructor
          · cases e1 with
            | nil => rfl
            | cons x xs => simp at this
          · rcases List.append_eq_nil.mp this with ⟨_, h2⟩
            exact h2
        have hcy1 : cy1 = cycles := by rw [he1, he12.1, List.append_nil]
        have hcyr : cy' = cy1 := by rw [he2, he12.2, List.append_nil]
        obtain ⟨hclA, haDone, hdoingA, hnewA⟩ := hdfs _ _ _ _ _ h1 hcy1 hcl
        obtain ⟨hclT, htDone, hdoingT, hnewT⟩ := iht _ _ _ _ h hcyr hclA
        refine ⟨hclT, ?_, ?_, ?_⟩
        · intro x hx
          rcases List.mem_cons.mp hx with hx | hx
          · subst hx
            exact hb2.1.preserves haDone
          · exact htDone x hx
        · intro d x hd hx
          rcases List.mem_cons.mp hx with hx | hx
          · subst hx
            exact hdoingA d hd
          · exact hdoingT d x ((hb1.1.doing_eq d).mpr hd) hx
        · intro y hy hyDone htg
          cases hy1 : omLookup y st1 with
          | none => exact hnewT y hy1 hyDone htg
          | some v =>
            cases v with
            | Doing =>
              have : omLookup y st' = some .Doing := hb2.1.preserves hy1
              rw [hyDone] at this
              cases this
            | Done => exact hnewA y hy hy1 htg

theorem omLookup_mem {α β : Type} [DecidableEq α] {k : α} {m : List (α × β)} {v : β}
    (h : omLookup k m = some v) : (k, v) ∈ m := by
  induction m with
  | nil => cases h
  | cons p t ih =>
    by_cases hk : k = p.1
    · rw [omLookup, if_pos hk] at h
      cases h
      exact hk ▸ (by
        have : p = (p.1, p.2) := rfl
        rw [this]
        exact List.mem_cons_self _ _)
    · rw [omLookup, if_neg hk] at h
      exact List.mem_cons_of_mem _ (ih h)

/-- Reachability stays inside a list closed under chosen steps. -/
theorem reach_closed_list {R : ExtractionResult} {g : EGraph} {S : List ClassId}
    (hcl : ∀ v ∈ S, ∀ y, chosenStep R g v y → y ∈ S) {x c : ClassId}
    (hx : x ∈ S) (h : reachableFrom R g x c) : c ∈ S := by
  induction h with
  | refl => exact hx
  | tail _ hstep ih => exact hcl _ ih _ hstep

theorem reachableFromRoots_closed (R : ExtractionResult) (g : EGraph) :
    ∀ x y, reachableFromRoots R g x → chosenStep R g x y → reachableFromRoots R g y := by
  intro x y ⟨r, hr, hreach⟩ hstep
  exact ⟨r, hr, hreach.tail hstep⟩

/-- Unfolding equations for checkWalk, one per branch. -/
theorem checkWalk_cons_mem {R : ExtractionResult} {g : EGraph} {c : ClassId}
    {rest visited : List ClassId} (hc : c ∈ visited) :
    checkWalk R g (c :: rest) visited = checkWalk R g rest visited := by
  rw [checkWalk, dif_pos hc]

theorem checkWalk_cons_none {R : ExtractionResult} {g : EGraph} {c : ClassId}
    {rest visited : List ClassId} (hc : c ∉ visited)
    (hl : omLookup c R.choices = none) :
    checkWalk R g (c :: rest) visited = .error (.missingChoice c) := by
  rw [checkWalk, dif_neg hc]
  split
  · rfl
  · rename_i n heq
    rw [hl] at heq
    cases heq

theorem checkWalk_cons_noNode {R : ExtractionResult} {g : EGraph} {c : ClassId}
    {rest visited : List ClassId} {n : NodeId} (hc : c ∉ visited)
    (hl : omLookup c R.choices = some n) (hnd : g.findNode n = none) :
    checkWalk R g (c :: rest) visited = .error (.missingNode n) := by
  rw [checkWalk, dif_neg hc]
  split
  · rename_i heq
    rw [hl] at heq
    cases heq
  · rename_i n' heq
    rw [hl] at heq
    cases heq
    rw [hnd]

theorem checkWalk_cons_step {R : ExtractionResult} {g : EGraph} {c : ClassId}
    {rest visited : List ClassId} {n : NodeId} {node : Node} (hc : c ∉ visited)
    (hl : omLookup c R.choices = some n) (hnd : g.findNode n = some node) :
    checkWalk R g (c :: rest) visited =
      checkWalk R g (node.children.reverse ++ rest) (c :: visited) := by
  rw [checkWalk, dif_neg hc]
  split
  · rename_i heq
    rw [hl] at heq
    cases heq
  · rename_i n' heq
    rw [hl] at heq
    cases heq
    rw [hnd]

/-- On success, the dependency walk certifies a choice for everything
reachable from the todo list or the (closed) visited list. -/
theorem checkWalk_ok_covers (R : ExtractionResult) (g : EGraph) :
    ∀ todo visited, checkWalk R g todo visited = .ok () →
      (∀ v ∈ visited, (omLookup v R.choices).isSome ∧
        ∀ y, chosenStep R g v y → y ∈ visited ∨ y ∈ todo) →
      ∀ x c, (x ∈ todo ∨ x ∈ visited) → reachableFrom R g x c →
        (omLookup c R.choices).isSome := by
  intro todo visited
  induction todo, visited using checkWalk.induct R g with
  | case1 visited =>
    intro _ hvis x c hx hreach
    have hcl : ∀ v ∈ visited, ∀ y, chosenStep R g v y → y ∈ visited := by
      intro v hv y hstep
      rcases (hvis v hv).2 y hstep with h | h
      · exact h
      · cases h
    rcases hx with hx | hx
    · cases hx
    · exact (hvis _ (reach_closed_list hcl hx hreach) ).1
  | case2 visited c rest hc ih =>
    intro h hvis x cc hx hreach
    rw [checkWalk_cons_mem hc] at h
    refine ih h ?_ x cc ?_ hreach
    · intro v hv
      refine ⟨(hvis v hv).1, ?_⟩
      intro y hstep
      rcases (hvis v hv).2 y hstep with hy | hy
      · exact Or.inl hy
      · rcases List.mem_cons.mp hy with hy | hy
        · exact Or.inl (hy ▸ hc)
        · exact Or.inr hy
    · rcases hx with hx | hx
      · rcases List.mem_cons.mp hx with hx | hx
        · exact Or.inr (hx ▸ hc)
        · exact Or.inl hx
      · exact Or.inr hx
  | case3 visited c rest hc hl =>
    intro h
    rw [checkWalk_cons_none hc hl] at h
    cases h
  | case4 visited c rest hc n hl hnd =>
    intro h
    rw [checkWalk_cons_noNode hc hl hnd] at h
    cases h
  | case5 visited c rest hc n hl node hnd ih =>
    intro h hvis x cc hx hreach
    rw [checkWalk_cons_step hc hl hnd] at h
    have hstepc : ∀ y ∈ node.children, chosenStep R g c y :=
      fun y hy => ⟨n, node, hl, hnd, hy⟩
    refine ih h ?_ x cc ?_ hreach
    · intro v hv
      rcases List.mem_cons.mp hv with hv | hv
      · subst hv
        refine ⟨by rw [hl]; rfl, ?_⟩
        intro y hstep
        obtain ⟨n', node', hl', hnd', hy⟩ := hstep
        rw [hl] at hl'
        cases hl'
        rw [hnd] at hnd'
        cases hnd'
        exact Or.inr (List.mem_append_left _ (List.mem_reverse.mpr hy))
      · refine ⟨(hvis v hv).1, ?_⟩
        intro y hstep
        rcases (hvis v hv).2 y hstep with hy | hy
        · exact Or.inl (List.mem_cons_of_mem _ hy)
        · rcases List.mem_cons.mp hy with hy | hy
          · exact Or.inl (hy ▸ List.mem_cons_self _ _)
          · exact Or.inr (List.mem_append_right _ hy)
    · rcases hx with hx | hx
      · rcases List.mem_cons.mp hx with hx | hx
        · exact Or.inr (hx ▸ List.mem_cons_self _ _)
        · exact Or.inl (List.mem_append_right _ hx)
      · exact Or.inr (List.mem_cons_of_mem _ hx)

/-- Walk errors name either a class of P without a choice or a chosen node id
absent from the graph. -/
theorem checkWalk_error (R : ExtractionResult) (g : EGraph) (P : ClassId → Prop)
    (hP : ∀ x y, P x → chosenStep R g x y → P y) :
    ∀ todo visited e, checkWalk R g todo visited = .error e →
      (∀ x ∈ todo, P x) →
      (∃ x, P x ∧ e = .missingChoice x ∧ omLookup x R.choices = none) ∨
      (∃ x nn, P x ∧ e = .missingNode nn ∧ omLookup x R.choices = some nn ∧
        g.findNode nn = none) := by
  intro todo visited
  induction todo, visited using checkWalk.induct R g with
  | case1 visited =>
    intro e h
    rw [checkWalk] at h
    cases h
  | case2 visited c rest hc ih =>
    intro e h htodo
    rw [checkWalk_cons_mem hc] at h
    exact ih e h (fun x hx => htodo x (List.mem_cons_of_mem _ hx))
  | case3 visited c rest hc hl =>
    intro e h htodo
    rw [checkWalk_cons_none hc hl] at h
    simp only [Except.error.injEq] at h
    exact Or.inl ⟨c, htodo c (List.mem_cons_self _ _), h.symm, hl⟩
  | case4 visited c rest hc n hl hnd =>
    intro e h htodo
    rw [checkWalk_cons_noNode hc hl hnd] at h
    simp only [Except.error.injEq] at h
    exact Or.inr ⟨c, n, htodo c (List.mem_cons_self _ _), h.symm, hl, hnd⟩
  | case5 visited c rest hc n hl node hnd ih =>
    intro e h htodo
    rw [checkWalk_cons_step hc hl hnd] at h
    refine ih e h ?_
    intro x hx
    rcases List.mem_append.mp hx with hx | hx
    · exact hP c x (htodo c (List.mem_cons_self _ _)) ⟨n, node, hl, hnd, List.mem_reverse.mp hx⟩
    · exact htodo x (List.mem_cons_of_mem _ hx)

theorem rootsChosen_ok_iff (R : ExtractionResult) (roots : List ClassId) :
    rootsChosen R roots = .ok () ↔ ∀ r ∈ roots, (omLookup r R.choices).isSome := by
  induction roots with
  | nil => simp [rootsChosen]
  | cons a t ih =>
    rw [rootsChosen]
    by_cases ha : (omLookup a R.choices).isSome
    · rw [if_pos ha, ih]
      constructor
      · intro h r hr
        rcases List.mem_cons.mp hr with hr | hr
        · exact hr ▸ ha
        · exact h r hr
      · intro h r hr
        exact h r (List.mem_cons_of_mem _ hr)
    · rw [if_neg ha]
      constructor
      · intro h
        cases h
      · intro h
        exact absurd (h a (List.mem_cons_self _ _)) ha

theorem eclassCheck_ok_iff (g : EGraph) (l : List (ClassId × NodeId))
    (H : ∀ p ∈ l, (g.findNode p.2).isSome) :
    eclassCheck g l = .ok () ↔
      ∀ p ∈ l, ∀ node, g.findNode p.2 = some node → node.eclass = p.1 := by
  induction l with
  | nil => simp [eclassCheck]
  | cons p t ih =>
    obtain ⟨c, n⟩ := p
    rw [eclassCheck]
    split
    · rename_i hnd
      exact absurd (H (c, n) (List.mem_cons_self _ _)) (by
        show ¬ (g.findNode n).isSome
        rw [hnd]
        simp)
    · rename_i node hnd
      by_cases he : node.eclass = c
      · rw [if_pos he, ih (fun q hq => H q (List.mem_cons_of_mem _ hq))]
        constructor
        · intro h q hq node2 hnode2
          rcases List.mem_cons.mp hq with hq | hq
          · subst hq
            rw [hnd] at hnode2
            cases hnode2
            exact he
          · exact h q hq node2 hnode2
        · intro h q hq node2 hnode2
          exact h q (List.mem_cons_of_mem _ hq) node2 hnode2
      · rw [if_neg he]
        constructor
        · intro h
          cases h
        · intro h
          exact absurd (h (c, n) (List.mem_cons_self _ _) node hnd) he

theorem cycleDfsList_top_not_fuel (R : ExtractionResult) (g : EGraph) (roots : List ClassId) :
    cycleDfsList R g (R.choices.length + 1) roots [] [] ≠ .error .fuelExhausted :=
  (cycleDfs_fuel R g (R.choices.length + 1)).2 roots [] []
    (Nat.lt_succ_of_le (dfsMeasure_nil_le R))

theorem roots_reachable (R : ExtractionResult) (g : EGraph) :
    ∀ r ∈ g.root_eclasses, reachableFromRoots R g r :=
  fun r hr => ⟨r, hr, Relation.ReflTransGen.refl⟩

/-- A find_cycles error (on the true roots) exposes a reachable class with no
choice, assuming every chosen node id exists. -/
theorem findCycles_error_cond (R : ExtractionResult) (g : EGraph)
    (H : choicesWellFormed R g) {e : CheckErr}
    (h : findCycles R g g.root_eclasses = .error e) : missingDepChoiceProp R g := by
  rw [findCycles] at h
  cases hi : cycleDfsList R g (R.choices.length + 1) g.root_eclasses [] [] with
  | ok p => rw [hi] at h; cases h
  | error e' =>
    rw [hi] at h
    cases h
    have := (cycleDfs_error R g (reachableFromRoots R g) (reachableFromRoots_closed R g)
      (R.choices.length + 1)).2 _ _ _ _ hi (roots_reachable R g)
      (by intro x hx; rw [omLookup] at hx; cases hx)
      (by intro d c hd; rw [omLookup] at hd; cases hd)
    rcases this with hfe | ⟨x, hPx, he, hnone⟩ | ⟨x, n, hPx, he, hsome, hnone⟩
    · exact absurd (hfe ▸ hi) (cycleDfsList_top_not_fuel R g _)
    · exact ⟨x, hPx, hnone⟩
    · exact absurd (H (x, n) (omLookup_mem hsome)) (by rw [hnone]; simp)

/-- A non-empty find_cycles output certifies a real reachable cycle. -/
theorem findCycles_cons_cond (R : ExtractionResult) (g : EGraph) {c : ClassId}
    {cs : List ClassId} (h : findCycles R g g.root_eclasses = .ok (c :: cs)) :
    hasCycleProp R g := by
  rw [findCycles] at h
  cases hi : cycleDfsList R g (R.choices.length + 1) g.root_eclasses [] [] with
  | error e' => rw [hi] at h; cases h
  | ok p =>
    obtain ⟨st', cy'⟩ := p
    rw [hi] at h
    simp only [Except.map, Except.ok.injEq] at h
    have hsound := (cycleDfs_sound R g (reachableFromRoots R g) (reachableFromRoots_closed R g)
      (R.choices.length + 1)).2 _ _ _ _ _ hi (roots_reachable R g)
      (by intro x hx; rw [omLookup] at hx; cases hx)
      (by intro d x hd; rw [omLookup] at hd; cases hd)
    have hc : c ∈ cy' := by rw [h]; exact List.mem_cons_self _ _
    rcases hsound.1 c hc with hin | ⟨hP, htg⟩
    · cases hin
    · exact ⟨c, hP, htg⟩

/-- An empty find_cycles output certifies acyclicity of the reachable part. -/
theorem findCycles_nil_nocycle (R : ExtractionResult) (g : EGraph)
    (h : findCycles R g g.root_eclasses = .ok []) : ¬ hasCycleProp R g := by
  rw [findCycles] at h
  cases hi : cycleDfsList R g (R.choices.length + 1) g.root_eclasses [] [] with
  | error e' => rw [hi] at h; cases h
  | ok p =>
    obtain ⟨st', cy'⟩ := p
    rw [hi] at h
    simp only [Except.map, Except.ok.injEq] at h
    subst h
    obtain ⟨hcl, hroots, _, hnew⟩ :=
      (cycleDfs_nocycle R g (R.choices.length + 1)).2 _ _ _ _ _ hi rfl
      (by intro x hx; rw [omLookup] at hx; cases hx)
    rintro ⟨c, ⟨r, hr, hreach⟩, htg⟩
    have hcDone : omLookup c st' = some .Done := hcl.reach (hroots r hr) hreach
    exact hnew c (by rw [omLookup]) hcDone htg

/-- In the absence of coverage gaps and cycles, find_cycles succeeds with an
empty report. -/
theorem findCycles_nil_of (R : ExtractionResult) (g : EGraph) (H : choicesWellFormed R g)
    (h2 : ¬ hasCycleProp R g) (h3 : ¬ missingDepChoiceProp R g) :
    findCycles R g g.root_eclasses = .ok [] := by
  cases hi : findCycles R g g.root_eclasses with
  | error e => exact absurd (findCycles_error_cond R g H hi) h3
  | ok cyc =>
    cases cyc with
    | nil => rfl
    | cons a t => exact absurd (findCycles_cons_cond R g hi) h2

/-- check, decomposed into its four phases. -/
theorem check_eq_phases (R : ExtractionResult) (g : EGraph)
    (hne : g.root_eclasses.isEmpty = false) :
    R.check g = .ok () ↔
      (rootsChosen R g.root_eclasses = .ok () ∧ findCycles R g g.root_eclasses = .ok [] ∧
       eclassCheck g R.choices = .ok () ∧ checkWalk R g g.root_eclasses [] = .ok ()) := by
  rw [ExtractionResult.check, if_neg (by simp [hne])]
  cases hrc : rootsChosen R g.root_eclasses with
  | error e => simp [hrc]
  | ok u =>
    cases u
    cases hfc : findCycles R g g.root_eclasses with
    | error e => simp
    | ok cyc =>
      cases cyc with
      | cons a t => simp
      | nil =>
        simp only [List.isEmpty_nil, if_true]
        cases hec : eclassCheck g R.choices with
        | error e => simp [hec]
        | ok u => cases u; simp [hec]

/-- Main characterization of ExtractionResult::check: with non-empty roots
and existing chosen nodes, it succeeds exactly when none of the four failure
conditions holds. -/
theorem check_ok_iff (R : ExtractionResult) (g : EGraph) (hroots : g.root_eclasses ≠ [])
    (H : choicesWellFormed R g) :
    R.check g = .ok () ↔
      ¬ missingRootChoiceProp R g ∧ ¬ hasCycleProp R g ∧
      ¬ missingDepChoiceProp R g ∧ ¬ eclassMismatchProp R g := by
  have hne : g.root_eclasses.isEmpty = false := by
    cases hl : g.root_eclasses with
    | nil => exact absurd hl hroots
    | cons a t => rfl
  rw [check_eq_phases R g hne]
  constructor
  · rintro ⟨h1, h2, h3, h4⟩
    refine ⟨?_, findCycles_nil_nocycle R g h2, ?_, ?_⟩
    · rintro ⟨r, hr, hnone⟩
      have := (rootsChosen_ok_iff R _).mp h1 r hr
      rw [hnone] at this
      cases this
    · rintro ⟨c, ⟨r, hr, hreach⟩, hnone⟩
      have := checkWalk_ok_covers R g _ _ h4 (by simp) r c (Or.inl hr) hreach
      rw [hnone] at this
      cases this
    · rintro ⟨p, hp, node, hnd, hne'⟩
      exact hne' ((eclassCheck_ok_iff g _ H).mp h3 p hp node hnd)
  · rintro ⟨h1, h2, h3, h4⟩
    refine ⟨?_, findCycles_nil_of R g H h2 h3, ?_, ?_⟩
    · rw [rootsChosen_ok_iff]
      intro r hr
      cases hlook : omLookup r R.choices with
      | none => exact absurd ⟨r, hr, hlook⟩ h1
      | some n => rfl
    · rw [eclassCheck_ok_iff g _ H]
      intro p hp node hnd
      by_contra hne'
      exact h4 ⟨p, hp, node, hnd, hne'⟩
    · cases hw : checkWalk R g g.root_eclasses [] with
      | ok u => cases u; rfl
      | error e =>
        exfalso
        rcases checkWalk_error R g (reachableFromRoots R g) (reachableFromRoots_closed R g)
          _ _ _ hw (roots_reachable R g) with
          ⟨x, hPx, _, hnone⟩ | ⟨x, n, hPx, _, hsome, hnone⟩
        · exact h3 ⟨x, hPx, hnone⟩
        · exact absurd (H (x, n) (omLookup_mem hsome)) (by rw [hnone]; simp)

instance exceptDecEq {ε α : Type} [DecidableEq ε] [DecidableEq α] : DecidableEq (Except ε α) :=
  fun x y =>
    match x, y with
    | .error e, .error e' =>
      if h : e = e' then isTrue (by rw [h]) else isFalse (by intro hh; cases hh; exact h rfl)
    | .ok a, .ok a' =>
      if h : a = a' then isTrue (by rw [h]) else isFalse (by intro hh; cases hh; exact h rfl)
    | .error _, .ok _ => isFalse (by intro hh; cases hh)
    | .ok _, .error _ => isFalse (by intro hh; cases hh)

/-- A single leaf node, used by the concrete instances below. -/
def mkLeaf (c : ClassId) (q : ℚ) : Node := { op := 0, children := [], eclass := c, cost := q }

/-- One-class one-leaf e-graph used as witness input. -/
def exG1 : EGraph := { nodes := [(0, [((0, 0), mkLeaf 0 3)])], root_eclasses := [0] }

def exR1 : ExtractionResult := { choices := [(0, (0, 0))] }

/-- Claim C1: for every e-graph with a non-empty root list (and a choice
table whose node ids exist in the graph), ExtractionResult::check fails if
and only if a root lacks a choice, the chosen-child graph reachable from the
roots has a cycle, a reachable class lacks a choice, or an entry names a
node of a different class. -/
theorem claim_C1_check_fails_iff (R : ExtractionResult) (g : EGraph)
    (hroots : g.root_eclasses ≠ []) (H : choicesWellFormed R g) :
    R.check g ≠ .ok () ↔
      missingRootChoiceProp R g ∨ hasCycleProp R g ∨
      missingDepChoiceProp R g ∨ eclassMismatchProp R g := by
  rw [Ne, check_ok_iff R g hroots H]
  tauto

/-- Witness for C1 at a concrete one-class instance. -/
theorem claim_C1_witness :
    exG1.root_eclasses ≠ [] ∧ choicesWellFormed exR1 exG1 ∧
      (ExtractionResult.check exR1 exG1 ≠ .ok () ↔
        missingRootChoiceProp exR1 exG1 ∨ hasCycleProp exR1 exG1 ∨
        missingDepChoiceProp exR1 exG1 ∨ eclassMismatchProp exR1 exG1) :=
  ⟨by decide, by unfold choicesWellFormed; decide,
    claim_C1_check_fails_iff exR1 exG1 (by decide) (by unfold choicesWellFormed; decide)⟩

/-- Claim C4 counterexample: choose uses map insert, which keeps the first
entry, so a second choose for the same class does not replace the first. -/
theorem claim_C4_counterexample :
    ¬ omLookup 0 (((ExtractionResult.mk []).choose 0 (0, 0)).choose 0 (0, 1)).choices
        = some (0, 1) := by
  decide

/-- Claim C4 (amended): on a result with no prior choice for the class, the
first choose wins and later calls are ignored; repeating the same call is
idempotent. -/
theorem claim_C4_first_choice_wins (R : ExtractionResult) (c : ClassId) (n1 n2 : NodeId)
    (h : omLookup c R.choices = none) :
    omLookup c ((R.choose c n1).choose c n2).choices = some n1 ∧
      (R.choose c n1).choose c n1 = R.choose c n1 := by
  have h1 : omLookup c (R.choose c n1).choices = some n1 := by
    show omLookup c (omInsert R.choices c n1) = some n1
    rw [omLookup_omInsert, h]
    simp
  have h1s : (omLookup c (R.choose c n1).choices).isSome := by rw [h1]; rfl
  constructor
  · show omLookup c (omInsert (R.choose c n1).choices c n2) = some n1
    rw [omLookup_omInsert, if_pos h1s]
    exact h1
  · show ExtractionResult.mk (omInsert (R.choose c n1).choices c n1) = R.choose c n1
    rw [omInsert, if_pos h1s]

/-- Witness for the amended C4 at concrete inputs. -/
theorem claim_C4_first_choice_wins_witness :
    omLookup 0 (ExtractionResult.mk []).choices = none ∧
      (omLookup 0 (((ExtractionResult.mk []).choose 0 (0, 0)).choose 0 (0, 1)).choices
          = some (0, 0) ∧
        ((ExtractionResult.mk []).choose 0 (0, 0)).choose 0 (0, 0)
          = (ExtractionResult.mk []).choose 0 (0, 0)) :=
  ⟨by decide, claim_C4_first_choice_wins (ExtractionResult.mk []) 0 (0, 0) (0, 1) (by decide)⟩

/-! Cost accounting (claim C2): dag_cost and tree_cost from extractor.hpp. -/

/-- ExtractionResult::dag_cost's worklist: an explicit stack, a costs map
visited once per class, each chosen node's cost recorded once.  The C++ code
looks the choice up before the visited test, exactly as here. -/
def dagWalk (R : ExtractionResult) (g : EGraph) (todo : List ClassId)
    (costs : List (ClassId × ℚ)) : Except CheckErr (List (ClassId × ℚ)) :=
  match todo with
  | [] => .ok costs
  | c :: rest =>
    match hl : omLookup c R.choices with
    | none => .error (.missingChoice c)
    | some n =>
      match g.findNode n with
      | none => .error (.missingNode n)
      | some node =>
        if hv : (omLookup c costs).isSome then dagWalk R g rest costs
        else dagWalk R g (node.children.reverse ++ rest) (costs ++ [(c, node.cost)])
termination_by
  (((omKeys R.choices).dedup.filter (fun k => (omLookup k costs).isNone)).length, todo.length)
decreasing_by
  · apply Prod.Lex.right
    simp
  · apply Prod.Lex.left
    apply sublist_length_lt_of_not_mem (a := c)
    · apply List.monotone_filter_right
      intro x hx
      rw [omLookup_append] at hx
      cases hm : omLookup x costs with
      | some v => rw [hm] at hx; cases hx
      | none => rfl
    · rw [List.mem_filter]
      refine ⟨List.mem_dedup.mpr (omLookup_isSome_mem_keys (by rw [hl]; rfl)), ?_⟩
      cases hm : omLookup c costs with
      | some v => rw [hm] at hv; exact absurd rfl hv
      | none => rfl
    · intro hmem
      rw [List.mem_filter] at hmem
      have h2 := hmem.2
      rw [omLookup_append] at h2
      cases hm : omLookup c costs with
      | some v => rw [hm] at hv; exact hv rfl
      | none =>
        rw [hm, omLookup, if_pos rfl] at h2
        cases h2

/-- ExtractionResult::dag_cost: traverse, then sum each entry once. -/
def dagCost (R : ExtractionResult) (g : EGraph) (roots : List ClassId) : Except CheckErr ℚ :=
  (dagWalk R g roots []).map (fun costs => (costs.map Prod.snd).sum)

/-- ExtractionResult::tree_cost_rec: recursive tree cost with a memo table
keyed by chosen node id.  The fuel bound models the unbounded C++ recursion,
whose depth is the chosen-path depth. -/
def treeCostRec (R : ExtractionResult) (g : EGraph) :
    Nat → List ClassId → List (NodeId × ℚ) → Except CheckErr (ℚ × List (NodeId × ℚ))
  | _, [], memo => .ok (0, memo)
  | fuel, root :: rest, memo =>
    match omLookup root R.choices with
    | none => .error (.missingChoice root)
    | some root_node =>
      match omLookup root_node memo with
      | some v =>
        match treeCostRec R g fuel rest memo with
        | .error e => .error e
        | .ok (sum, memo') => .ok (v + sum, memo')
      | none =>
        match g.findNode root_node with
        | none => .error (.missingNode root_node)
        | some node =>
          match fuel with
          | 0 => .error .fuelExhausted
          | fuel' + 1 =>
            match treeCostRec R g fuel' node.children memo with
            | .error e => .error e
            | .ok (childSum, memo1) =>
              match treeCostRec R g (fuel' + 1) rest
                  (omInsert memo1 root_node (node.cost + childSum)) with
              | .error e => .error e
              | .ok (sum, memo') => .ok ((node.cost + childSum) + sum, memo')
termination_by fuel cs _ => (fuel, cs.length)

/-- ExtractionResult::tree_cost: fresh memo, chosen-path depth is bounded by
the number of choices, used as fuel. -/
def treeCost (R : ExtractionResult) (g : EGraph) (roots : List ClassId) : Except CheckErr ℚ :=
  (treeCostRec R g (R.choices.length + 1) roots []).map Prod.fst

/-- Weighted sum over the (fuel-truncated) chosen unfolding tree: each
resolved occurrence of a class contributes its weight once.  With the node
cost as weight this is the memo-free tree cost; with an indicator weight it
counts occurrences, that is, paths from the given class list. -/
def treeSum (R : ExtractionResult) (g : EGraph) (w : ClassId → ℚ) :
    Nat → List ClassId → ℚ
  | 0, _ => 0
  | _ + 1, [] => 0
  | fuel + 1, c :: rest =>
    (match omLookup c R.choices with
     | none => 0
     | some n =>
       match g.findNode n with
       | none => 0
       | some node => w c + treeSum R g w fuel node.children) +
    treeSum R g w (fuel + 1) rest
termination_by fuel cs => (fuel, cs.length)

/-- Indicator weight for counting occurrences of one class. -/
def indW (c : ClassId) : ClassId → ℚ := fun d => if d = c then 1 else 0

/-- Cost of the chosen node of a class (zero if unresolved). -/
def chosenCost (R : ExtractionResult) (g : EGraph) (c : ClassId) : ℚ :=
  match omLookup c R.choices with
  | none => 0
  | some n =>
    match g.findNode n with
    | none => 0
    | some node => node.cost

/-- Number of chosen paths from the roots to a class: the occurrence count
of the class in the stabilized unfolding tree of the roots. -/
def muClass (R : ExtractionResult) (g : EGraph) (c : ClassId) : ℚ :=
  treeSum R g (indW c) (R.choices.length + 1) g.root_eclasses

/-- All node costs of the e-graph are non-negative. -/
def nonnegCosts (g : EGraph) : Prop := ∀ p ∈ g.allNodePairs, 0 ≤ p.2.cost

/-! Lemmas about treeSum. -/

/-- The contribution of one list entry to treeSum at a given depth. -/
def treeSumHead (R : ExtractionResult) (g : EGraph) (w : ClassId → ℚ) (fuel : Nat)
    (c : ClassId) : ℚ :=
  match omLookup c R.choices with
  | none => 0
  | some n =>
    match g.findNode n with
    | none => 0
    | some node => w c + treeSum R g w fuel node.children

theorem treeSumHead_noChoice {R : ExtractionResult} {g : EGraph} {w : ClassId → ℚ}
    {fuel : Nat} {c : ClassId} (hl : omLookup c R.choices = none) :
    treeSumHead R g w fuel c = 0 := by
  unfold treeSumHead
  rw [hl]

theorem treeSumHead_noNode {R : ExtractionResult} {g : EGraph} {w : ClassId → ℚ}
    {fuel : Nat} {c : ClassId} {n : NodeId} (hl : omLookup c R.choices = some n)
    (hnd : g.findNode n = none) : treeSumHead R g w fuel c = 0 := by
  simp only [treeSumHead, hl, hnd]

theorem treeSumHead_node {R : ExtractionResult} {g : EGraph} {w : ClassId → ℚ}
    {fuel : Nat} {c : ClassId} {n : NodeId} {node : Node}
    (hl : omLookup c R.choices = some n) (hnd : g.findNode n = some node) :
    treeSumHead R g w fuel c = w c + treeSum R g w fuel node.children := by
  simp only [treeSumHead, hl, hnd]

theorem treeSum_zero (R : ExtractionResult) (g : EGraph) (w : ClassId → ℚ) (cs : List ClassId) :
    treeSum R g w 0 cs = 0 := by
  rw [treeSum]

theorem treeSum_nil (R : ExtractionResult) (g : EGraph) (w : ClassId → ℚ) (fuel : Nat) :
    treeSum R g w (fuel + 1) [] = 0 := by
  rw [treeSum]

theorem treeSum_cons (R : ExtractionResult) (g : EGraph) (w : ClassId → ℚ) (fuel : Nat)
    (c : ClassId) (rest : List ClassId) :
    treeSum R g w (fuel + 1) (c :: rest) =
      treeSumHead R g w fuel c + treeSum R g w (fuel + 1) rest := by
  rw [treeSum]
  rfl

theorem treeSum_append (R : ExtractionResult) (g : EGraph) (w : ClassId → ℚ) (fuel : Nat)
    (l1 l2 : List ClassId) :
    treeSum R g w fuel (l1 ++ l2) = treeSum R g w fuel l1 + treeSum R g w fuel l2 := by
  cases fuel with
  | zero => simp [treeSum_zero]
  | succ f =>
    induction l1 with
    | nil => rw [treeSum_nil]; simp
    | cons a t ih =>
      rw [List.cons_append, treeSum_cons, treeSum_cons, ih]
      ring

theorem treeSum_nonneg (R : ExtractionResult) (g : EGraph) (w : ClassId → ℚ)
    (hw : ∀ c, 0 ≤ w c) : ∀ fuel cs, 0 ≤ treeSum R g w fuel cs := by
  intro fuel
  induction fuel using Nat.strong_induction_on with
  | _ fuel ih =>
    intro cs
    cases fuel with
    | zero => rw [treeSum_zero]
    | succ f =>
      induction cs with
      | nil => rw [treeSum_nil]
      | cons a t iht =>
        rw [treeSum_cons]
        have hhead : 0 ≤ treeSumHead R g w f a := by
          cases hl : omLookup a R.choices with
          | none => rw [treeSumHead_noChoice hl]
          | some n =>
            cases hnd : g.findNode n with
            | none => rw [treeSumHead_noNode hl hnd]
            | some node =>
              rw [treeSumHead_node hl hnd]
              have h1 := ih f (Nat.lt_succ_self _) node.children
              have h2 := hw a
              linarith
        linarith [iht]

theorem treeSum_fuel_le (R : ExtractionResult) (g : EGraph) (w : ClassId → ℚ)
    (hw : ∀ c, 0 ≤ w c) : ∀ fuel cs, treeSum R g w fuel cs ≤ treeSum R g w (fuel + 1) cs := by
  intro fuel
  induction fuel using Nat.strong_induction_on with
  | _ fuel ih =>
    intro cs
    cases fuel with
    | zero =>
      rw [treeSum_zero]
      exact treeSum_nonneg R g w hw 1 cs
    | succ f =>
      induction cs with
      | nil => rw [treeSum_nil, treeSum_nil]
      | cons a t iht =>
        rw [treeSum_cons, treeSum_cons]
        have hhead : treeSumHead R g w f a ≤ treeSumHead R g w (f + 1) a := by
          cases hl : omLookup a R.choices with
          | none => rw [treeSumHead_noChoice hl, treeSumHead_noChoice hl]
          | some n =>
            cases hnd : g.findNode n with
            | none => rw [treeSumHead_noNode hl hnd, treeSumHead_noNode hl hnd]
            | some node =>
              rw [treeSumHead_node hl hnd, treeSumHead_node hl hnd]
              have := ih f (Nat.lt_succ_self _) node.children
              linarith
        linarith [iht]

/-- Ancestor sets are bounded by the choice count. -/
theorem ancestors_card_le (R : ExtractionResult) (A : Finset ClassId)
    (hA : ∀ a ∈ A, (omLookup a R.choices).isSome) : A.card ≤ R.choices.length := by
  have hsub : A ⊆ (omKeys R.choices).dedup.toFinset := by
    intro a ha
    rw [List.mem_toFinset, List.mem_dedup]
    exact omLookup_isSome_mem_keys (hA a ha)
  calc A.card ≤ (omKeys R.choices).dedup.toFinset.card := Finset.card_le_card hsub
    _ = (omKeys R.choices).dedup.length := List.toFinset_card_of_nodup (List.nodup_dedup _)
    _ ≤ (omKeys R.choices).length := (List.dedup_sublist _).length_le
    _ = R.choices.length := List.length_map _ _

/-- Acyclicity makes the unfolding depth bounded: past depth equal to the
number of chosen classes not on the ancestor path, treeSum is stable. -/
theorem treeSum_stab (R : ExtractionResult) (g : EGraph) (hacy : ¬ hasCycleProp R g)
    (w : ClassId → ℚ) :
    ∀ fuel (A : Finset ClassId) (cs : List ClassId),
      (∀ a ∈ A, (omLookup a R.choices).isSome) →
      (∀ a ∈ A, ∀ c ∈ cs, Relation.TransGen (chosenStep R g) a c) →
      (∀ c ∈ cs, reachableFromRoots R g c) →
      R.choices.length + 1 ≤ fuel + A.card →
      treeSum R g w (fuel + 1) cs = treeSum R g w fuel cs := by
  intro fuel
  induction fuel using Nat.strong_induction_on with
  | _ fuel ih =>
    intro A cs hA1 hA2 hcs hfuel
    cases fuel with
    | zero =>
      exfalso
      have := ancestors_card_le R A hA1
      omega
    | succ f =>
      induction cs with
      | nil => rw [treeSum_nil, treeSum_nil]
      | cons a t iht =>
        rw [treeSum_cons, treeSum_cons]
        have hrest : treeSum R g w (f + 1 + 1) t = treeSum R g w (f + 1) t :=
          iht (fun x hx c hc => hA2 x hx c (List.mem_cons_of_mem _ hc))
            (fun c hc => hcs c (List.mem_cons_of_mem _ hc))
        rw [hrest]
        congr 1
        cases hl : omLookup a R.choices with
        | none => rw [treeSumHead_noChoice hl, treeSumHead_noChoice hl]
        | some n =>
          cases hnd : g.findNode n with
          | none => rw [treeSumHead_noNode hl hnd, treeSumHead_noNode hl hnd]
          | some node =>
            rw [treeSumHead_node hl hnd, treeSumHead_node hl hnd]
            congr 1
            have hstep : ∀ ch ∈ node.children, chosenStep R g a ch :=
              fun ch hch => ⟨n, node, hl, hnd, hch⟩
            have haA : a ∉ A := by
              intro haa
              exact hacy ⟨a, hcs a (List.mem_cons_self _ _),
                hA2 a haa a (List.mem_cons_self _ _)⟩
            exact ih f (Nat.lt_succ_self _) (insert a A) node.children
              (by
                intro x hx
                rcases Finset.mem_insert.mp hx with hx | hx
                · rw [hx, hl]; rfl
                · exact hA1 x hx)
              (by
                intro x hx ch hch
                rcases Finset.mem_insert.mp hx with hx | hx
                · exact hx ▸ Relation.TransGen.single (hstep ch hch)
                · exact (hA2 x hx a (List.mem_cons_self _ _)).tail (hstep ch hch))
              (fun ch hch => reachableFromRoots_closed R g a ch
                (hcs a (List.mem_cons_self _ _)) (hstep ch hch))
              (by rw [Finset.card_insert_of_not_mem haA]; omega)

/-- Above the global depth bound, treeSum no longer depends on the fuel. -/
theorem treeSum_stab_top (R : ExtractionResult) (g : EGraph) (hacy : ¬ hasCycleProp R g)
    (w : ClassId → ℚ) {cs : List ClassId} (hcs : ∀ c ∈ cs, reachableFromRoots R g c) :
    ∀ fuel, R.choices.length + 1 ≤ fuel →
      treeSum R g w fuel cs = treeSum R g w (R.choices.length + 1) cs := by
  intro fuel hf
  induction fuel, hf using Nat.le_induction with
  | base => rfl
  | succ f hf ihf =>
    rw [treeSum_stab R g hacy w f ∅ cs (by simp) (by simp) hcs (by simpa using hf), ihf]

theorem sum_map_ind_zero (t : List ClassId) (a : ClassId) (ha : a ∉ t) (w : ClassId → ℚ) :
    (t.map (fun d => indW d a * w d)).sum = 0 := by
  induction t with
  | nil => rfl
  | cons b r ih =>
    have hab : ¬ a = b := fun h => ha (h ▸ List.mem_cons_self _ _)
    rw [List.map_cons, List.sum_cons, ih (fun h => ha (List.mem_cons_of_mem _ h))]
    simp [indW, hab]

theorem sum_map_ind (L : List ClassId) (hnd : L.Nodup) (a : ClassId) (ha : a ∈ L)
    (w : ClassId → ℚ) : (L.map (fun d => indW d a * w d)).sum = w a := by
  induction L with
  | nil => cases ha
  | cons b r ih =>
    rw [List.map_cons, List.sum_cons]
    rcases List.mem_cons.mp ha with hab | har
    · subst hab
      rw [sum_map_ind_zero r a (List.nodup_cons.mp hnd).1 w]
      simp [indW]
    · have hab : ¬ a = b := by
        intro h
        exact (List.nodup_cons.mp hnd).1 (h ▸ har)
      rw [ih (List.nodup_cons.mp hnd).2 har]
      simp [indW, hab]

/-- Decomposition of the weighted unfolding sum into per-class occurrence
counts: treeSum w = Σ over classes of (occurrences · weight). -/
theorem treeSum_decomp (R : ExtractionResult) (g : EGraph) (w : ClassId → ℚ)
    (L : List ClassId) (hnd : L.Nodup)
    (hLc : ∀ c, reachableFromRoots R g c → c ∈ L) :
    ∀ fuel cs, (∀ c ∈ cs, reachableFromRoots R g c) →
      treeSum R g w fuel cs = (L.map (fun c => treeSum R g (indW c) fuel cs * w c)).sum := by
  intro fuel
  induction fuel using Nat.strong_induction_on with
  | _ fuel ih =>
    intro cs hcs
    cases fuel with
    | zero => simp [treeSum_zero]
    | succ f =>
      induction cs with
      | nil => simp [treeSum_nil]
      | cons a t iht =>
        rw [treeSum_cons]
        simp only [treeSum_cons, add_mul, List.sum_map_add]
        rw [← iht (fun c hc => hcs c (List.mem_cons_of_mem _ hc))]
        congr 1
        cases hl : omLookup a R.choices with
        | none =>
          simp only [treeSumHead_noChoice hl, zero_mul]
          simp
        | some n =>
          cases hnd2 : g.findNode n with
          | none =>
            simp only [treeSumHead_noNode hl hnd2, zero_mul]
            simp
          | some node =>
            simp only [treeSumHead_node hl hnd2, add_mul, List.sum_map_add]
            have hch : ∀ c ∈ node.children, reachableFromRoots R g c :=
              fun c hc => reachableFromRoots_closed R g a c (hcs a (List.mem_cons_self _ _))
                ⟨n, node, hl, hnd2, hc⟩
            rw [← ih f (Nat.lt_succ_self _) node.children hch]
            congr 1
            rw [← sum_map_ind L hnd a (hLc a (hcs a (List.mem_cons_self _ _))) w]

/-- Occurrence counts grow along chosen edges: each resolved occurrence of a
parent class d puts at least one occurrence of its chosen child class c one
level deeper. -/
theorem treeSum_ind_parent (R : ExtractionResult) (g : EGraph) (hacy : ¬ hasCycleProp R g)
    (hcov : ∀ x, reachableFromRoots R g x → (omLookup x R.choices).isSome)
    (H : choicesWellFormed R g) {d c : ClassId} (hdR : reachableFromRoots R g d)
    (hstep : chosenStep R g d c) :
    ∀ fuel cs, (∀ x ∈ cs, reachableFromRoots R g x) →
      treeSum R g (indW d) fuel cs ≤ treeSum R g (indW c) (fuel + 1) cs := by
  obtain ⟨nd, node_d, hdl, hdnd, hcmem⟩ := hstep
  have hcd : ¬ c = d := by
    intro h
    exact hacy ⟨d, hdR, Relation.TransGen.single ⟨nd, node_d, hdl, hdnd, h ▸ hcmem⟩⟩
  have hcR : reachableFromRoots R g c :=
    reachableFromRoots_closed R g d c hdR ⟨nd, node_d, hdl, hdnd, hcmem⟩
  have hindd : ∀ x, 0 ≤ indW d x := by
    intro x
    unfold indW
    by_cases h : x = d <;> simp [h]
  have hindc : ∀ x, 0 ≤ indW c x := by
    intro x
    unfold indW
    by_cases h : x = c <;> simp [h]
  obtain ⟨m, hml⟩ : ∃ m, omLookup c R.choices = some m := by
    cases hm : omLookup c R.choices with
    | none => exact absurd (hcov c hcR) (by rw [hm]; simp)
    | some m => exact ⟨m, rfl⟩
  obtain ⟨node_c, hmnd⟩ : ∃ node_c, g.findNode m = some node_c := by
    cases hn : g.findNode m with
    | none => exact absurd (H (c, m) (omLookup_mem hml)) (by rw [hn]; simp)
    | some node_c => exact ⟨node_c, rfl⟩
  have hchd_reach : ∀ x ∈ node_d.children, reachableFromRoots R g x :=
    fun x hx => reachableFromRoots_closed R g d x hdR ⟨nd, node_d, hdl, hdnd, hx⟩
  have hchc_reach : ∀ x ∈ node_c.children, reachableFromRoots R g x :=
    fun x hx => reachableFromRoots_closed R g c x hcR ⟨m, node_c, hml, hmnd, hx⟩
  intro fuel
  induction fuel using Nat.strong_induction_on with
  | _ fuel ih =>
    intro cs hcs
    cases fuel with
    | zero =>
      rw [treeSum_zero]
      exact treeSum_nonneg R g (indW c) hindc 1 cs
    | succ f =>
      induction cs with
      | nil => rw [treeSum_nil, treeSum_nil]
      | cons a t iht =>
        rw [treeSum_cons, treeSum_cons]
        have hrest := iht (fun x hx => hcs x (List.mem_cons_of_mem _ hx))
        have hhead : treeSumHead R g (indW d) f a ≤ treeSumHead R g (indW c) (f + 1) a := by
          cases hl : omLookup a R.choices with
          | none => rw [treeSumHead_noChoice hl, treeSumHead_noChoice hl]
          | some n =>
            cases hnd2 : g.findNode n with
            | none => rw [treeSumHead_noNode hl hnd2, treeSumHead_noNode hl hnd2]
            | some node =>
              rw [treeSumHead_node hl hnd2, treeSumHead_node hl hnd2]
              have hch2 : ∀ x ∈ node.children, reachableFromRoots R g x :=
                fun x hx => reachableFromRoots_closed R g a x
                  (hcs a (List.mem_cons_self _ _)) ⟨n, node, hl, hnd2, hx⟩
              by_cases had : a = d
              · rw [had] at hl
                rw [hdl] at hl
                injection hl with hn
                subst hn
                rw [hdnd] at hnd2
                injection hnd2 with hnode
                subst hnode
                rw [had]
                have hia : indW d d = 1 := by simp [indW]
                have hic : indW c d = 0 := by
                  unfold indW
                  rw [if_neg (fun h => hcd h.symm)]
                rw [hia, hic]
                obtain ⟨l1, l2, hsplit⟩ := List.append_of_mem hcmem
                rw [hsplit, treeSum_append, treeSum_append, treeSum_cons]
                have hl1 : ∀ x ∈ l1, reachableFromRoots R g x :=
                  fun x hx => hch2 x (by rw [hsplit]; exact List.mem_append_left _ hx)
                have hl2 : ∀ x ∈ l2, reachableFromRoots R g x := fun x hx =>
                  hch2 x (by
                    rw [hsplit]
                    exact List.mem_append_right _ (List.mem_cons_of_mem _ hx))
                have hheadc : treeSumHead R g (indW c) f c =
                    1 + treeSum R g (indW c) f node_c.children := by
                  rw [treeSumHead_node hml hmnd]
                  simp [indW]
                cases f with
                | zero =>
                  simp only [treeSum_zero]
                  rw [hheadc]
                  have n1 := treeSum_nonneg R g (indW c) hindc 1 l1
                  have n2 := treeSum_nonneg R g (indW c) hindc 1 l2
                  have n3 := treeSum_nonneg R g (indW c) hindc 0 node_c.children
                  linarith
                | succ f2 =>
                  rw [treeSum_cons]
                  have hheadd : treeSumHead R g (indW d) f2 c =
                      treeSum R g (indW d) f2 node_c.children := by
                    rw [treeSumHead_node hml hmnd]
                    unfold indW
                    rw [if_neg hcd]
                    ring
                  rw [hheadd, hheadc]
                  have t1 := ih (f2 + 1) (Nat.lt_succ_self _) l1 hl1
                  have t2 := ih (f2 + 1) (Nat.lt_succ_self _) l2 hl2
                  have t3 := ih f2 (Nat.lt_of_lt_of_le (Nat.lt_succ_self _)
                    (Nat.le_succ _)) node_c.children hchc_reach
                  linarith
              · have hia : indW d a = 0 := by
                  unfold indW
                  rw [if_neg had]
                have t1 := ih f (Nat.lt_succ_self _) node.children hch2
                have hc2 := hindc a
                rw [hia]
                linarith
        linarith [hrest]

/-- Every class reachable from the roots occurs at least once in the
stabilized unfolding: it has at least one chosen path. -/
theorem mu_ge_one (R : ExtractionResult) (g : EGraph) (hacy : ¬ hasCycleProp R g)
    (hcov : ∀ x, reachableFromRoots R g x → (omLookup x R.choices).isSome)
    (H : choicesWellFormed R g) :
    ∀ c, reachableFromRoots R g c → 1 ≤ muClass R g c := by
  have hbase : ∀ r ∈ g.root_eclasses, 1 ≤ muClass R g r := by
    intro r hr
    have hrR : reachableFromRoots R g r := roots_reachable R g r hr
    obtain ⟨m, hml⟩ : ∃ m, omLookup r R.choices = some m := by
      cases hm : omLookup r R.choices with
      | none => exact absurd (hcov r hrR) (by rw [hm]; simp)
      | some m => exact ⟨m, rfl⟩
    obtain ⟨node_r, hmnd⟩ : ∃ node_r, g.findNode m = some node_r := by
      cases hn : g.findNode m with
      | none => exact absurd (H (r, m) (omLookup_mem hml)) (by rw [hn]; simp)
      | some node_r => exact ⟨node_r, rfl⟩
    have hind : ∀ x, 0 ≤ indW r x := by
      intro x
      unfold indW
      by_cases h : x = r <;> simp [h]
    obtain ⟨l1, l2, hsplit⟩ := List.append_of_mem hr
    unfold muClass
    rw [hsplit, treeSum_append, treeSum_cons, treeSumHead_node hml hmnd]
    have hir : indW r r = 1 := by simp [indW]
    rw [hir]
    have n1 := treeSum_nonneg R g (indW r) hind (R.choices.length + 1) l1
    have n2 := treeSum_nonneg R g (indW r) hind (R.choices.length + 1) l2
    have n3 := treeSum_nonneg R g (indW r) hind (R.choices.length) node_r.children
    linarith
  intro c hc
  obtain ⟨r, hr, hreach⟩ := hc
  induction hreach with
  | refl => exact hbase r hr
  | tail hpath hstep ihp =>
    rename_i b c2
    have hbR : reachableFromRoots R g b := ⟨r, hr, hpath⟩
    have hc2R : reachableFromRoots R g c2 := reachableFromRoots_closed R g b c2 hbR hstep
    have hmono := treeSum_ind_parent R g hacy hcov H hbR hstep (R.choices.length + 1)
      g.root_eclasses (roots_reachable R g)
    have hstab : treeSum R g (indW c2) (R.choices.length + 1 + 1) g.root_eclasses =
        treeSum R g (indW c2) (R.choices.length + 1) g.root_eclasses :=
      treeSum_stab_top R g hacy (indW c2) (roots_reachable R g) _ (by omega)
    have hb1 := ihp
    unfold muClass at hb1 ⊢
    rw [hstab] at hmono
    linarith

/-- Unfolding equations for dagWalk. -/
theorem dagWalk_nil (R : ExtractionResult) (g : EGraph) (costs : List (ClassId × ℚ)) :
    dagWalk R g [] costs = .ok costs := by
  rw [dagWalk]

theorem dagWalk_cons_noChoice {R : ExtractionResult} {g : EGraph} {c : ClassId}
    {rest : List ClassId} {costs : List (ClassId × ℚ)}
    (hl : omLookup c R.choices = none) :
    dagWalk R g (c :: rest) costs = .error (.missingChoice c) := by
  rw [dagWalk]
  split
  · rfl
  · rename_i n heq
    rw [hl] at heq
    cases heq

theorem dagWalk_cons_noNode {R : ExtractionResult} {g : EGraph} {c : ClassId}
    {rest : List ClassId} {costs : List (ClassId × ℚ)} {n : NodeId}
    (hl : omLookup c R.choices = some n) (hnd : g.findNode n = none) :
    dagWalk R g (c :: rest) costs = .error (.missingNode n) := by
  rw [dagWalk]
  split
  · rename_i heq
    rw [hl] at heq
    cases heq
  · rename_i n2 heq
    rw [hl] at heq
    cases heq
    rw [hnd]

theorem dagWalk_cons_mem {R : ExtractionResult} {g : EGraph} {c : ClassId}
    {rest : List ClassId} {costs : List (ClassId × ℚ)} {n : NodeId} {node : Node}
    (hl : omLookup c R.choices = some n) (hnd : g.findNode n = some node)
    (hv : (omLookup c costs).isSome) :
    dagWalk R g (c :: rest) costs = dagWalk R g rest costs := by
  rw [dagWalk]
  split
  · rename_i heq
    rw [hl] at heq
    cases heq
  · rename_i n2 heq
    rw [hl] at heq
    cases heq
    rw [hnd]
    simp only []
    rw [dif_pos hv]

theorem dagWalk_cons_fresh {R : ExtractionResult} {g : EGraph} {c : ClassId}
    {rest : List ClassId} {costs : List (ClassId × ℚ)} {n : NodeId} {node : Node}
    (hl : omLookup c R.choices = some n) (hnd : g.findNode n = some node)
    (hv : ¬ (omLookup c costs).isSome) :
    dagWalk R g (c :: rest) costs =
      dagWalk R g (node.children.reverse ++ rest) (costs ++ [(c, node.cost)]) := by
  rw [dagWalk]
  split
  · rename_i heq
    rw [hl] at heq
    cases heq
  · rename_i n2 heq
    rw [hl] at heq
    cases heq
    rw [hnd]
    simp only []
    rw [dif_neg hv]

theorem omLookup_isSome_of_mem_keys {α β : Type} [DecidableEq α] {k : α} {m : List (α × β)}
    (h : k ∈ omKeys m) : (omLookup k m).isSome := by
  induction m with
  | nil => cases h
  | cons p t ih =>
    by_cases hk : k = p.1
    · rw [omLookup, if_pos hk]
      rfl
    · rcases List.mem_cons.mp h with h1 | h1
      · exact absurd h1 hk
      · rw [omLookup, if_neg hk]
        exact ih h1

theorem chosenCost_node {R : ExtractionResult} {g : EGraph} {c : ClassId} {n : NodeId}
    {node : Node} (hl : omLookup c R.choices = some n) (hnd : g.findNode n = some node) :
    chosenCost R g c = node.cost := by
  simp only [chosenCost, hl, hnd]

/-- Full characterization of the dag_cost worklist: on the conditions that
check guarantees, it succeeds, its costs map is keyed exactly by the classes
reachable from the pending list (plus what was already recorded), without
duplicates, and every entry carries the chosen node's cost. -/
theorem dagWalk_ok (R : ExtractionResult) (g : EGraph)
    (hcov : ∀ x, reachableFromRoots R g x → (omLookup x R.choices).isSome)
    (H : choicesWellFormed R g) :
    ∀ todo costs,
      (∀ x ∈ todo, reachableFromRoots R g x) →
      (∀ p ∈ costs, p.2 = chosenCost R g p.1) →
      (omKeys costs).Nodup →
      (∀ v ∈ omKeys costs, ∀ y, chosenStep R g v y → y ∈ omKeys costs ∨ y ∈ todo) →
      ∃ res, dagWalk R g todo costs = .ok res ∧
        (omKeys res).Nodup ∧
        (∀ p ∈ res, p.2 = chosenCost R g p.1) ∧
        (∀ x ∈ omKeys costs, x ∈ omKeys res) ∧
        (∀ v ∈ omKeys res, ∀ y, chosenStep R g v y → y ∈ omKeys res) ∧
        (∀ x, x ∈ omKeys res ↔ (x ∈ omKeys costs ∨ ∃ t ∈ todo, reachableFrom R g t x)) := by
  intro todo costs
  induction todo, costs using dagWalk.induct R g with
  | case1 costs =>
    intro _ hent hkn hcl
    refine ⟨costs, dagWalk_nil R g costs, hkn, hent, fun x hx => hx, ?_, ?_⟩
    · intro v hv y hstep
      rcases hcl v hv y hstep with h | h
      · exact h
      · cases h
    · intro x
      constructor
      · intro hx
        exact Or.inl hx
      · intro hx
        rcases hx with hx | ⟨t, ht, _⟩
        · exact hx
        · cases ht
  | case2 costs c rest hl =>
    intro htodo _ _ _
    exact absurd (hcov c (htodo c (List.mem_cons_self _ _))) (by rw [hl]; simp)
  | case3 costs c rest n hl hnd =>
    intro _ _ _ _
    exact absurd (H (c, n) (omLookup_mem hl)) (by rw [hnd]; simp)
  | case4 costs c rest n hl node hnd hv ih =>
    intro htodo hent hkn hcl
    obtain ⟨res, hok, hnd2, hent2, hmono, hclf, hiff⟩ :=
      ih (fun x hx => htodo x (List.mem_cons_of_mem _ hx)) hent hkn
        (by
          intro v hvk y hstep
          rcases hcl v hvk y hstep with h | h
          · exact Or.inl h
          · rcases List.mem_cons.mp h with h | h
            · exact Or.inl (h ▸ omLookup_isSome_mem_keys hv)
            · exact Or.inr h)
    refine ⟨res, by rw [dagWalk_cons_mem hl hnd hv]; exact hok, hnd2, hent2, hmono, hclf, ?_⟩
    intro x
    constructor
    · intro hx
      rcases (hiff x).mp hx with hx | ⟨t, ht, hreach⟩
      · exact Or.inl hx
      · exact Or.inr ⟨t, List.mem_cons_of_mem _ ht, hreach⟩
    · intro hx
      rcases hx with hx | ⟨t, ht, hreach⟩
      · exact (hiff x).mpr (Or.inl hx)
      · rcases List.mem_cons.mp ht with ht | ht
        · subst ht
          exact reach_closed_list hclf (hmono t (omLookup_isSome_mem_keys hv)) hreach
        · exact (hiff x).mpr (Or.inr ⟨t, ht, hreach⟩)
  | case5 costs c rest n hl node hnd hv ih =>
    intro htodo hent hkn hcl
    have hcR : reachableFromRoots R g c := htodo c (List.mem_cons_self _ _)
    have hstepc : ∀ y ∈ node.children, chosenStep R g c y :=
      fun y hy => ⟨n, node, hl, hnd, hy⟩
    have hcNotIn : c ∉ omKeys costs := fun hmem => hv (omLookup_isSome_of_mem_keys hmem)
    have hkeys' : omKeys (costs ++ [(c, node.cost)]) = omKeys costs ++ [c] := by
      unfold omKeys
      rw [List.map_append]
      rfl
    obtain ⟨res, hok, hnd2, hent2, hmono, hclf, hiff⟩ :=
      ih
        (by
          intro x hx
          rcases List.mem_append.mp hx with hx | hx
          · exact reachableFromRoots_closed R g c x hcR (hstepc x (List.mem_reverse.mp hx))
          · exact htodo x (List.mem_cons_of_mem _ hx))
        (by
          intro p hp
          rcases List.mem_append.mp hp with hp | hp
          · exact hent p hp
          · rcases List.mem_singleton.mp hp with rfl
            exact (chosenCost_node hl hnd).symm)
        (by
          rw [hkeys']
          rw [List.nodup_append]
          exact ⟨hkn, List.nodup_singleton _,
            fun a ha hb => hcNotIn ((List.mem_singleton.mp hb) ▸ ha)⟩)
        (by
          intro v hvk y hstep
          rw [hkeys'] at hvk ⊢
          rcases List.mem_append.mp hvk with hvk | hvk
          · rcases hcl v hvk y hstep with h | h
            · exact Or.inl (List.mem_append_left _ h)
            · rcases List.mem_cons.mp h with h | h
              · exact Or.inl (List.mem_append_right _ (h ▸ List.mem_singleton_self _))
              · exact Or.inr (List.mem_append_right _ h)
          · rcases List.mem_singleton.mp hvk with rfl
            obtain ⟨n2, node2, hl2, hnd2b, hy2⟩ := hstep
            rw [hl] at hl2
            cases hl2
            rw [hnd] at hnd2b
            cases hnd2b
            exact Or.inr (List.mem_append_left _ (List.mem_reverse.mpr hy2)))
    refine ⟨res, by rw [dagWalk_cons_fresh hl hnd hv]; exact hok, hnd2, hent2, ?_, hclf, ?_⟩
    · intro x hx
      exact hmono x (by rw [hkeys']; exact List.mem_append_left _ hx)
    · intro x
      constructor
      · intro hx
        rcases (hiff x).mp hx with hx | ⟨t, ht, hreach⟩
        · rw [hkeys'] at hx
          rcases List.mem_append.mp hx with hx | hx
          · exact Or.inl hx
          · rcases List.mem_singleton.mp hx with rfl
            exact Or.inr ⟨x, List.mem_cons_self _ _, Relation.ReflTransGen.refl⟩
        · rcases List.mem_append.mp ht with ht | ht
          · exact Or.inr ⟨c, List.mem_cons_self _ _,
              Relation.ReflTransGen.head (hstepc t (List.mem_reverse.mp ht)) hreach⟩
          · exact Or.inr ⟨t, List.mem_cons_of_mem _ ht, hreach⟩
      · intro hx
        rcases hx with hx | ⟨t, ht, hreach⟩
        · exact (hiff x).mpr (Or.inl (by rw [hkeys']; exact List.mem_append_left _ hx))
        · rcases List.mem_cons.mp ht with ht | ht
          · subst ht
            have htIn : t ∈ omKeys res :=
              hmono t (by rw [hkeys']; exact List.mem_append_right _ (List.mem_singleton_self _))
            exact reach_closed_list hclf htIn hreach
          · exact (hiff x).mpr (Or.inr ⟨t, List.mem_append_right _ ht, hreach⟩)

/-- Unfolding equations for treeCostRec. -/
theorem treeCostRec_nil (R : ExtractionResult) (g : EGraph) (fuel : Nat)
    (memo : List (NodeId × ℚ)) : treeCostRec R g fuel [] memo = .ok (0, memo) := by
  rw [treeCostRec]

theorem treeCostRec_memoHit {R : ExtractionResult} {g : EGraph} {fuel : Nat} {root : ClassId}
    {rest : List ClassId} {memo : List (NodeId × ℚ)} {n : NodeId} {v : ℚ}
    (hl : omLookup root R.choices = some n) (hm : omLookup n memo = some v) :
    treeCostRec R g fuel (root :: rest) memo =
      match treeCostRec R g fuel rest memo with
      | .error e => .error e
      | .ok (sum, memo') => .ok (v + sum, memo') := by
  rw [treeCostRec]
  split
  · rename_i heq
    rw [hl] at heq
    cases heq
  · rename_i n2 heq
    rw [hl] at heq
    cases heq
    split
    · rename_i v2 heq2
      rw [hm] at heq2
      cases heq2
      rfl
    · rename_i heq2
      rw [hm] at heq2
      cases heq2

theorem treeCostRec_step {R : ExtractionResult} {g : EGraph} {fuel : Nat} {root : ClassId}
    {rest : List ClassId} {memo : List (NodeId × ℚ)} {n : NodeId} {node : Node}
    (hl : omLookup root R.choices = some n) (hm : omLookup n memo = none)
    (hnd : g.findNode n = some node) :
    treeCostRec R g (fuel + 1) (root :: rest) memo =
      match treeCostRec R g fuel node.children memo with
      | .error e => .error e
      | .ok (childSum, memo1) =>
        match treeCostRec R g (fuel + 1) rest (omInsert memo1 n (node.cost + childSum)) with
        | .error e => .error e
        | .ok (sum, memo') => .ok ((node.cost + childSum) + sum, memo') := by
  rw [treeCostRec]
  split
  · rename_i heq
    rw [hl] at heq
    cases heq
  · rename_i n2 heq
    rw [hl] at heq
    cases heq
    split
    · rename_i v2 heq2
      rw [hm] at heq2
      cases heq2
    · rename_i heq2
      split
      · rename_i heq3
        rw [hnd] at heq3
        cases heq3
      · rename_i node2 heq3
        rw [hnd] at heq3
        cases heq3
        rfl

/-- Invariant of the tree-cost memo table: each entry holds the node's cost
plus the stabilized unfolding cost of its children. -/
def memoInv (R : ExtractionResult) (g : EGraph) (memo : List (NodeId × ℚ)) : Prop :=
  ∀ p ∈ memo, ∃ node, g.findNode p.1 = some node ∧
    p.2 = node.cost + treeSum R g (chosenCost R g) (R.choices.length + 1) node.children

theorem memoInv_insert {R : ExtractionResult} {g : EGraph} {memo : List (NodeId × ℚ)}
    (hmem : memoInv R g memo) {n : NodeId} {node : Node} (hnd : g.findNode n = some node) :
    memoInv R g (omInsert memo n
      (node.cost + treeSum R g (chosenCost R g) (R.choices.length + 1) node.children)) := by
  intro p hp
  unfold omInsert at hp
  by_cases h : (omLookup n memo).isSome
  · rw [if_pos h] at hp
    exact hmem p hp
  · rw [if_neg h] at hp
    rcases List.mem_append.mp hp with hp | hp
    · exact hmem p hp
    · rcases List.mem_singleton.mp hp with rfl
      exact ⟨node, hnd, rfl⟩

/-- Correctness of the memoized tree cost: under the conditions established
by check, tree_cost_rec returns exactly the stabilized unfolding cost. -/
theorem treeCostRec_ok (R : ExtractionResult) (g : EGraph) (hacy : ¬ hasCycleProp R g)
    (hcov : ∀ x, reachableFromRoots R g x → (omLookup x R.choices).isSome)
    (H : choicesWellFormed R g) :
    ∀ fuel (A : Finset ClassId),
      (∀ a ∈ A, (omLookup a R.choices).isSome) →
      R.choices.length + 1 ≤ fuel + A.card →
      ∀ cs,
        (∀ a ∈ A, ∀ c ∈ cs, Relation.TransGen (chosenStep R g) a c) →
        (∀ c ∈ cs, reachableFromRoots R g c) →
        ∀ memo, memoInv R g memo →
        ∃ memo2, treeCostRec R g fuel cs memo =
            .ok (treeSum R g (chosenCost R g) (R.choices.length + 1) cs, memo2) ∧
          memoInv R g memo2 := by
  intro fuel
  induction fuel using Nat.strong_induction_on with
  | _ fuel ih =>
    intro A hA1 hfuel cs
    induction cs with
    | nil =>
      intro _ _ memo hmem
      refine ⟨memo, ?_, hmem⟩
      rw [treeCostRec_nil, treeSum_nil]
    | cons root rest ihr =>
      intro hA2 hcs memo hmem
      have hrootR : reachableFromRoots R g root := hcs root (List.mem_cons_self _ _)
      obtain ⟨n, hl⟩ : ∃ n, omLookup root R.choices = some n := by
        cases hx : omLookup root R.choices with
        | none => exact absurd (hcov root hrootR) (by rw [hx]; simp)
        | some n => exact ⟨n, rfl⟩
      obtain ⟨node, hnd⟩ : ∃ node, g.findNode n = some node := by
        cases hx : g.findNode n with
        | none => exact absurd (H (root, n) (omLookup_mem hl)) (by rw [hx]; simp)
        | some node => exact ⟨node, rfl⟩
      have hstepr : ∀ ch ∈ node.children, chosenStep R g root ch :=
        fun ch hch => ⟨n, node, hl, hnd, hch⟩
      have hchR : ∀ ch ∈ node.children, reachableFromRoots R g ch :=
        fun ch hch => reachableFromRoots_closed R g root ch hrootR (hstepr ch hch)
      have hstab : treeSum R g (chosenCost R g) (R.choices.length + 1) node.children =
          treeSum R g (chosenCost R g) (R.choices.length) node.children := by
        have := treeSum_stab R g hacy (chosenCost R g) (R.choices.length) {root}
          node.children
          (by
            intro a ha
            rcases Finset.mem_singleton.mp ha with rfl
            rw [hl]
            rfl)
          (by
            intro a ha ch hch
            rcases Finset.mem_singleton.mp ha with rfl
            exact Relation.TransGen.single (hstepr ch hch))
          hchR
          (by simp)
        exact this
      have hhead : treeSumHead R g (chosenCost R g) (R.choices.length) root =
          node.cost + treeSum R g (chosenCost R g) (R.choices.length + 1) node.children := by
        rw [treeSumHead_node hl hnd, chosenCost_node hl hnd, hstab]
      have hrest_conds := fun (a : ClassId) (ha : a ∈ A) (c : ClassId) (hc : c ∈ rest) =>
        hA2 a ha c (List.mem_cons_of_mem _ hc)
      have hrest_reach := fun (c : ClassId) (hc : c ∈ rest) =>
        hcs c (List.mem_cons_of_mem _ hc)
      cases hm : omLookup n memo with
      | some v =>
        obtain ⟨node2, hnd2, hv⟩ := hmem (n, v) (omLookup_mem hm)
        rw [hnd] at hnd2
        cases hnd2
        have hv' : v = node.cost +
            treeSum R g (chosenCost R g) (R.choices.length + 1) node.children := hv
        obtain ⟨memo2, hrec, hmem2⟩ := ihr hrest_conds hrest_reach memo hmem
        refine ⟨memo2, ?_, hmem2⟩
        rw [treeCostRec_memoHit hl hm, hrec]
        show Except.ok (v + treeSum R g (chosenCost R g) (R.choices.length + 1) rest, memo2) = _
        rw [treeSum_cons, hhead, hv']
      | none =>
        have hfuel1 : 1 ≤ fuel := by
          have := ancestors_card_le R A hA1
          omega
        obtain ⟨f, rfl⟩ : ∃ f, fuel = f + 1 := ⟨fuel - 1, by omega⟩
        have hrootA : root ∉ A := by
          intro hra
          exact hacy ⟨root, hrootR, hA2 root hra root (List.mem_cons_self _ _)⟩
        obtain ⟨memo1, hrec1, hmem1⟩ := ih f (Nat.lt_succ_self _) (insert root A)
          (by
            intro a ha
            rcases Finset.mem_insert.mp ha with rfl | ha
            · rw [hl]; rfl
            · exact hA1 a ha)
          (by rw [Finset.card_insert_of_not_mem hrootA]; omega)
          node.children
          (by
            intro a ha ch hch
            rcases Finset.mem_insert.mp ha with rfl | ha
            · exact Relation.TransGen.single (hstepr ch hch)
            · exact (hA2 a ha root (List.mem_cons_self _ _)).tail (hstepr ch hch))
          hchR memo hmem
        have hmem2 := memoInv_insert hmem1 hnd
        obtain ⟨memo3, hrec2, hmem3⟩ := ihr hrest_conds hrest_reach _ hmem2
        refine ⟨memo3, ?_, hmem3⟩
        rw [treeCostRec_step hl hm hnd]
        simp only [hrec1, hrec2]
        show Except.ok ((node.cost + _) + _, memo3) = _
        rw [treeSum_cons, hhead]

theorem findNode_mem_pairs {g : EGraph} {n : NodeId} {node : Node}
    (h : g.findNode n = some node) : (n, node) ∈ g.allNodePairs := by
  unfold EGraph.findNode at h
  cases ho : omLookup n.1 g.nodes with
  | none => rw [ho] at h; cases h
  | some inner =>
    rw [ho] at h
    have hin : (n, node) ∈ inner := omLookup_mem h
    have houter : (n.1, inner) ∈ g.nodes := omLookup_mem ho
    unfold EGraph.allNodePairs
    rw [List.mem_flatten]
    exact ⟨inner, List.mem_map.mpr ⟨(n.1, inner), houter, rfl⟩, hin⟩

theorem chosenCost_nonneg (R : ExtractionResult) (g : EGraph) (hnn : nonnegCosts g)
    (c : ClassId) : 0 ≤ chosenCost R g c := by
  cases hl : omLookup c R.choices with
  | none => simp only [chosenCost, hl]; exact le_refl 0
  | some n =>
    cases hnd : g.findNode n with
    | none => simp only [chosenCost, hl, hnd]; exact le_refl 0
    | some node =>
      have h := hnn (n, node) (findNode_mem_pairs hnd)
      simp only [chosenCost, hl, hnd]
      exact h

/-- Claim C2 (amended): with non-negative costs and a successful check,
dag cost and tree cost both evaluate, dag ≤ tree, and if no class is
reachable from the roots along more than one chosen path then they are
equal.  (The converse of the equality direction is false: a shared class
of cost zero gives equality with two paths; see the counterexample.) -/
theorem claim_C2_dag_le_tree (R : ExtractionResult) (g : EGraph)
    (hroots : g.root_eclasses ≠ []) (H : choicesWellFormed R g)
    (hnn : nonnegCosts g) (hok : R.check g = .ok ()) :
    ∃ d t, dagCost R g g.root_eclasses = .ok d ∧ treeCost R g g.root_eclasses = .ok t ∧
      d ≤ t ∧ ((∀ c, reachableFromRoots R g c → muClass R g c ≤ 1) → d = t) := by
  obtain ⟨h1, hacy, h3, h4⟩ := (check_ok_iff R g hroots H).mp hok
  have hcov : ∀ x, reachableFromRoots R g x → (omLookup x R.choices).isSome := by
    intro x hx
    cases hm : omLookup x R.choices with
    | none => exact absurd ⟨x, hx, hm⟩ h3
    | some n => rfl
  obtain ⟨res, hdw, hndres, hent, _, _, hiff⟩ :=
    dagWalk_ok R g hcov H g.root_eclasses []
      (fun x hx => roots_reachable R g x hx)
      (by intro p hp; cases hp)
      (by simp [omKeys])
      (by intro v hv; simp [omKeys] at hv)
  have hkey : ∀ x, x ∈ omKeys res ↔ reachableFromRoots R g x := by
    intro x
    rw [hiff x]
    constructor
    · rintro (hx | ⟨t, ht, hr⟩)
      · simp [omKeys] at hx
      · exact ⟨t, ht, hr⟩
    · rintro ⟨t, ht, hr⟩
      exact Or.inr ⟨t, ht, hr⟩
  have hdag : dagCost R g g.root_eclasses = .ok ((res.map Prod.snd).sum) := by
    simp only [dagCost, hdw, Except.map]
  have hmapeq : res.map Prod.snd = (omKeys res).map (chosenCost R g) := by
    rw [omKeys, List.map_map]
    exact List.map_congr_left (fun p hp => hent p hp)
  obtain ⟨memo2, htr, _⟩ :=
    treeCostRec_ok R g hacy hcov H (R.choices.length + 1) ∅
      (by intro a ha; exact absurd ha (Finset.not_mem_empty a))
      (by simp)
      g.root_eclasses
      (by intro a ha; exact absurd ha (Finset.not_mem_empty a))
      (fun c hc => roots_reachable R g c hc)
      [] (by intro p hp; cases hp)
  have htree : treeCost R g g.root_eclasses =
      .ok (treeSum R g (chosenCost R g) (R.choices.length + 1) g.root_eclasses) := by
    simp only [treeCost, htr, Except.map]
  have hdecomp := treeSum_decomp R g (chosenCost R g) (omKeys res) hndres
    (fun c hc => (hkey c).mpr hc) (R.choices.length + 1) g.root_eclasses
    (fun c hc => roots_reachable R g c hc)
  refine ⟨(res.map Prod.snd).sum, _, hdag, htree, ?_, ?_⟩
  · rw [hmapeq, hdecomp]
    apply List.sum_le_sum
    intro c hc
    have hre : reachableFromRoots R g c := (hkey c).mp hc
    have hmu : 1 ≤ treeSum R g (indW c) (R.choices.length + 1) g.root_eclasses :=
      mu_ge_one R g hacy hcov H c hre
    have hw := chosenCost_nonneg R g hnn c
    nlinarith [hmu, hw]
  · intro huniq
    rw [hmapeq, hdecomp]
    have hcong : (omKeys res).map (chosenCost R g) =
        (omKeys res).map (fun c =>
          treeSum R g (indW c) (R.choices.length + 1) g.root_eclasses * chosenCost R g c) := by
      apply List.map_congr_left
      intro c hc
      have hre : reachableFromRoots R g c := (hkey c).mp hc
      have hmu : 1 ≤ treeSum R g (indW c) (R.choices.length + 1) g.root_eclasses :=
        mu_ge_one R g hacy hcov H c hre
      have hle : treeSum R g (indW c) (R.choices.length + 1) g.root_eclasses ≤ 1 :=
        huniq c hre
      rw [le_antisymm hle hmu, one_mul]
    rw [hcong]

/-- A two-children node sharing one child class, for the C2 counterexample. -/
def exN0 : Node := { op := 0, children := [1, 1], eclass := 0, cost := 5 }

/-- E-graph whose root node reaches class 1 along two chosen paths. -/
def exG2 : EGraph :=
  { nodes := [(0, [((0, 0), exN0)]), (1, [((1, 0), mkLeaf 1 0)])],
    root_eclasses := [0] }

def exR2 : ExtractionResult := { choices := [(0, (0, 0)), (1, (1, 0))] }

/-- Claim C2 counterexample: with non-negative costs and a successful check,
class 1 is reachable from the roots along two chosen paths, yet dag cost and
tree cost coincide (the shared class costs zero), so equality does not force
path uniqueness. -/
theorem claim_C2_counterexample :
    nonnegCosts exG2 ∧ ExtractionResult.check exR2 exG2 = .ok () ∧
      reachableFromRoots exR2 exG2 1 ∧ 1 < muClass exR2 exG2 1 ∧
      dagCost exR2 exG2 exG2.root_eclasses = treeCost exR2 exG2 exG2.root_eclasses := by
  refine ⟨?_, ?_, ?_, ?_, ?_⟩
  · unfold nonnegCosts
    decide
  · simp [ExtractionResult.check, rootsChosen, findCycles, cycleDfsList, cycleDfs,
      eclassCheck, checkWalk, omLookup, omSet, exR2, exG2, EGraph.findNode, mkLeaf, exN0,
      omKeys, Except.map]
  · refine ⟨0, by decide, Relation.ReflTransGen.single ⟨(0, 0), exN0, ?_, ?_, ?_⟩⟩
    · decide
    · decide
    · decide
  · have h : muClass exR2 exG2 1 = 2 := by
      simp [muClass, treeSum, exR2, exG2, omLookup, EGraph.findNode, mkLeaf, exN0, indW]
      norm_num
    rw [h]
    norm_num
  · have h1 : dagCost exR2 exG2 exG2.root_eclasses = .ok 5 := by
      simp [dagCost, dagWalk, exR2, exG2, omLookup, omSet, EGraph.findNode, mkLeaf, exN0,
        omKeys, Except.map]
    have h2 : treeCost exR2 exG2 exG2.root_eclasses = .ok 5 := by
      simp [treeCost, treeCostRec, exR2, exG2, omLookup, omInsert, EGraph.findNode, mkLeaf,
        exN0, Except.map]
    rw [h1, h2]

/-- Witness for the amended C2 at a concrete one-class instance. -/
theorem claim_C2_witness :
    (exG1.root_eclasses ≠ [] ∧ choicesWellFormed exR1 exG1 ∧ nonnegCosts exG1 ∧
        ExtractionResult.check exR1 exG1 = .ok ()) ∧
      (∃ d t, dagCost exR1 exG1 exG1.root_eclasses = .ok d ∧
        treeCost exR1 exG1 exG1.root_eclasses = .ok t ∧
        d ≤ t ∧ ((∀ c, reachableFromRoots exR1 exG1 c → muClass exR1 exG1 c ≤ 1) → d = t)) := by
  have hchk : ExtractionResult.check exR1 exG1 = .ok () := by
    simp [ExtractionResult.check, rootsChosen, findCycles, cycleDfsList, cycleDfs,
      eclassCheck, checkWalk, omLookup, omSet, exR1, exG1, EGraph.findNode, mkLeaf,
      omKeys, Except.map]
  refine ⟨⟨by decide, by unfold choicesWellFormed; decide, by unfold nonnegCosts; decide,
    hchk⟩, ?_⟩
  exact claim_C2_dag_le_tree exR1 exG1 (by decide) (by unfold choicesWellFormed; decide)
    (by unfold nonnegCosts; decide) hchk

/-! FasterGreedyDagExtractor (faster_greedy_dag.hpp).  Cost doubles with the
IEEE +infinity sentinel are modelled as Option ℚ with none standing for the
sentinel (a NaN never arises: every arithmetic path only adds finite node
costs).  The unordered maps are modelled as the same insertion-ordered
association lists; their entry sets are what the algorithm depends on, since
sums are taken in ℚ. -/

/-- Comparison a < b where none is the +infinity sentinel. -/
def costLt : Option ℚ → Option ℚ → Bool
  | none, _ => false
  | some _, none => true
  | some x, some y => decide (x < y)

/-- Comparison a > b where none is the +infinity sentinel. -/
def gtC : Option ℚ → Option ℚ → Bool
  | none, none => false
  | none, some _ => true
  | some _, none => false
  | some x, some y => decide (y < x)

/-- node.cost + total with the +infinity sentinel absorbing. -/
def addC (q : ℚ) (t : Option ℚ) : Option ℚ := t.map (fun x => q + x)

/-- Insertion sort: extensionally the behaviour std::sort has on Nat keys. -/
def sortInsert (x : Nat) : List Nat → List Nat
  | [] => [x]
  | y :: rest => if x ≤ y then x :: y :: rest else y :: sortInsert x rest

def sortNat (l : List Nat) : List Nat := l.foldr sortInsert []

/-- std::unique: drop adjacent duplicates. -/
def dedupAdj : List Nat → List Nat
  | [] => []
  | [x] => [x]
  | x :: y :: rest => if x = y then dedupAdj (y :: rest) else x :: dedupAdj (y :: rest)

/-- FasterGreedyDagExtractor::CostSet. -/
structure CostSet where
  costs : List (ClassId × ℚ)
  total : Option ℚ
  choice : NodeId
deriving DecidableEq

/-- The class whose recorded cost set has the most entries (strictly more
than all earlier candidates), starting from the first child class. -/
def biggestId (costs : List (ClassId × CostSet)) (ccs : List ClassId)
    (first : ClassId) : ClassId :=
  (ccs.foldl
    (fun acc child_cid =>
      match omLookup child_cid costs with
      | none => acc
      | some cset => if acc.1 < cset.costs.length
          then (cset.costs.length, child_cid) else acc)
    ((0 : Nat), first)).2

/-- Copy the biggest child's cost map and merge the other children's maps
into it with insert-keep-existing semantics. -/
def mergeMaps (costs : List (ClassId × CostSet)) (ccs : List ClassId)
    (idb : ClassId) : List (ClassId × ℚ) :=
  ccs.foldl
    (fun rm child_cid =>
      if child_cid = idb then rm
      else match omLookup child_cid costs with
        | none => rm
        | some cset => cset.costs.foldl (fun rm2 p => omInsert rm2 p.1 p.2) rm)
    (match omLookup idb costs with
     | none => []
     | some cset => cset.costs)

/-- FasterGreedyDagExtractor::calculate_cost_set.  The error models the
throw of EGraph::operator[] on a missing node id. -/
def calculate_cost_set (egraph : EGraph) (node_id : NodeId)
    (costs : List (ClassId × CostSet)) (best_cost : Option ℚ) : Except CheckErr CostSet :=
  match egraph.findNode node_id with
  | none => .error (.missingNode node_id)
  | some node =>
    let cid := node.eclass
    if node.children.isEmpty then
      .ok { costs := [(cid, node.cost)], total := some node.cost, choice := node_id }
    else
      let childrens_classes := dedupAdj (sortNat node.children)
      match childrens_classes with
      | [] => .ok { costs := [], total := none, choice := node_id }
      | first :: _ =>
        match omLookup first costs with
        | none => .ok { costs := [], total := none, choice := node_id }
        | some first_cost =>
          if cid ∈ childrens_classes ∨
              (childrens_classes.length = 1 ∧
                gtC (addC node.cost first_cost.total) best_cost) then
            .ok { costs := [], total := none, choice := node_id }
          else
            let id_of_biggest := biggestId costs childrens_classes first
            let result_map1 := mergeMaps costs childrens_classes id_of_biggest
            let already_contains := (omLookup cid result_map1).isSome
            let result_map := omSet result_map1 cid node.cost
            let total := if already_contains then none
              else some ((result_map.map Prod.snd).sum)
            .ok { costs := result_map, total := total, choice := node_id }

/-- UniqueQueue::insert: append when not already queued. -/
def uqInsert (q : List NodeId) (t : NodeId) : List NodeId := if t ∈ q then q else q ++ [t]

/-- UniqueQueue::extend. -/
def uqExtend (q : List NodeId) (ts : List NodeId) : List NodeId := ts.foldl uqInsert q

/-- The previously recorded total of a class, with the +infinity sentinel
for classes without a record. -/
def prevCost (costs : List (ClassId × CostSet)) (class_id : ClassId) : Option ℚ :=
  match omLookup class_id costs with
  | none => none
  | some cs => cs.total

/-- The recorded parent nodes of a class (empty when absent). -/
def parentsOf (parents : List (ClassId × List NodeId)) (class_id : ClassId) :
    List NodeId :=
  match omLookup class_id parents with
  | none => []
  | some ps => ps

/-- The worklist loop of FasterGreedyDagExtractor::extract.  Fuel counts
loop iterations; running out gives the fuelExhausted error, which the
termination theorem rules out for sufficient fuel. -/
def extractLoop (egraph : EGraph) (parents : List (ClassId × List NodeId)) :
    Nat → List NodeId → List (ClassId × CostSet) →
      Except CheckErr (List (ClassId × CostSet))
  | _, [], costs => .ok costs
  | 0, _ :: _, _ => .error .fuelExhausted
  | fuel + 1, node_id :: queue, costs =>
    match egraph.findNode node_id with
    | none => .error (.missingNode node_id)
    | some node =>
      let class_id := node.eclass
      if node.children.all (fun child_cid => (omLookup child_cid costs).isSome) then
        let prev_cost : Option ℚ := prevCost costs class_id
        match calculate_cost_set egraph node_id costs prev_cost with
        | .error e => .error e
        | .ok cost_set =>
          if costLt cost_set.total prev_cost then
            extractLoop egraph parents fuel
              (uqExtend queue (parentsOf parents class_id))
              (omSet costs class_id cost_set)
          else
            extractLoop egraph parents fuel queue costs
      else
        extractLoop egraph parents fuel queue costs

/-- One node of the first loop of extract: record the node as parent of each
of its children and enqueue it when it is a leaf. -/
def initStep (egraph : EGraph) (acc : List (ClassId × List NodeId) × List NodeId)
    (node_id : NodeId) : Except CheckErr (List (ClassId × List NodeId) × List NodeId) :=
  match egraph.findNode node_id with
  | none => .error (.missingNode node_id)
  | some node =>
    let parents2 := node.children.foldl
      (fun m child => omSet m child ((omLookup child m).getD [] ++ [node_id])) acc.1
    let pending2 := if node.is_leaf then uqInsert acc.2 node_id else acc.2
    .ok (parents2, pending2)

def initFold (egraph : EGraph) :
    List NodeId → List (ClassId × List NodeId) × List NodeId →
      Except CheckErr (List (ClassId × List NodeId) × List NodeId)
  | [], acc => .ok acc
  | nid :: rest, acc =>
    match initStep egraph acc nid with
    | .error e => .error e
    | .ok acc2 => initFold egraph rest acc2

/-- The node ids of all classes in iteration order of classes(). -/
def classNodeIds (egraph : EGraph) : List NodeId := (egraph.classes.map Prod.snd).flatten

/-- The costs map extract ends with: initialization (parents and leaf
seeding) followed by the worklist loop. -/
def finalCosts (egraph : EGraph) (fuel : Nat) :
    Except CheckErr (List (ClassId × CostSet)) :=
  let parents0 := egraph.classes.foldl
    (fun m pair => omSet m pair.1 ([] : List NodeId)) []
  match initFold egraph (classNodeIds egraph) (parents0, []) with
  | .error e => .error e
  | .ok (parents, pending) => extractLoop egraph parents fuel pending []

/-- FasterGreedyDagExtractor::extract.  The roots argument is declared but,
as in the source, never read. -/
def extract (egraph : EGraph) (roots : List ClassId) (fuel : Nat) :
    Except CheckErr ExtractionResult :=
  match finalCosts egraph fuel with
  | .error e => .error e
  | .ok costs => .ok (costs.foldl (fun r p => r.choose p.1 p.2.choice) ⟨[]⟩)

/-! Invariants of the extractor's costs map. -/

theorem omSet_mem {α β : Type} [DecidableEq α] {m : List (α × β)} {k : α} {v : β} :
    ∀ p ∈ omSet m k v, p ∈ m ∨ p = (k, v) := by
  induction m with
  | nil =>
    intro p hp
    rcases List.mem_singleton.mp hp with rfl
    exact Or.inr rfl
  | cons q rest ih =>
    intro p hp
    obtain ⟨a, b⟩ := q
    unfold omSet at hp
    by_cases hk : k = a
    · rw [if_pos hk] at hp
      rcases List.mem_cons.mp hp with rfl | hp
      · exact Or.inr (by rw [hk])
      · exact Or.inl (List.mem_cons_of_mem _ hp)
    · rw [if_neg hk] at hp
      rcases List.mem_cons.mp hp with rfl | hp
      · exact Or.inl (List.mem_cons_self _ _)
      · rcases ih p hp with h | h
        · exact Or.inl (List.mem_cons_of_mem _ h)
        · exact Or.inr h

theorem omKeys_omSet {α β : Type} [DecidableEq α] (m : List (α × β)) (k : α) (v : β) :
    omKeys (omSet m k v) = if k ∈ omKeys m then omKeys m else omKeys m ++ [k] := by
  induction m with
  | nil => simp [omSet, omKeys]
  | cons q rest ih =>
    obtain ⟨a, b⟩ := q
    unfold omSet
    by_cases hk : k = a
    · rw [if_pos hk]
      have : k ∈ omKeys ((a, b) :: rest) := by
        rw [hk]
        exact List.mem_cons_self _ _
      rw [if_pos this]
      simp [omKeys]
    · rw [if_neg hk]
      show omKeys ((a, b) :: omSet rest k v) = _
      have hcons : omKeys ((a, b) :: omSet rest k v) = a :: omKeys (omSet rest k v) := rfl
      have hcons2 : omKeys ((a, b) :: rest) = a :: omKeys rest := rfl
      rw [hcons, hcons2, ih]
      by_cases hmem : k ∈ omKeys rest
      · rw [if_pos hmem, if_pos (List.mem_cons_of_mem _ hmem)]
      · rw [if_neg hmem, if_neg ?_]
        · rfl
        · intro hc
          rcases List.mem_cons.mp hc with hc | hc
          · exact hk hc
          · exact hmem hc

theorem omKeys_nodup_omSet {α β : Type} [DecidableEq α] {m : List (α × β)}
    (h : (omKeys m).Nodup) (k : α) (v : β) : (omKeys (omSet m k v)).Nodup := by
  rw [omKeys_omSet]
  by_cases hk : k ∈ omKeys m
  · rw [if_pos hk]
    exact h
  · rw [if_neg hk]
    rw [List.nodup_append]
    exact ⟨h, List.nodup_singleton k, by simpa using hk⟩

theorem omInsert_mem {α β : Type} [DecidableEq α] {m : List (α × β)} {k : α} {v : β} :
    ∀ p ∈ omInsert m k v, p ∈ m ∨ p = (k, v) := by
  intro p hp
  unfold omInsert at hp
  by_cases h : (omLookup k m).isSome
  · rw [if_pos h] at hp
    exact Or.inl hp
  · rw [if_neg h] at hp
    rcases List.mem_append.mp hp with hp | hp
    · exact Or.inl hp
    · exact Or.inr (List.mem_singleton.mp hp)

/-- Every ok branch of calculate_cost_set records the queried node id as the
choice. -/
theorem calculate_cost_set_choice {egraph : EGraph} {node_id : NodeId}
    {costs : List (ClassId × CostSet)} {best_cost : Option ℚ} {cs : CostSet}
    (h : calculate_cost_set egraph node_id costs best_cost = .ok cs) :
    cs.choice = node_id := by
  unfold calculate_cost_set at h
  dsimp only [] at h
  split at h
  · cases h
  · split at h
    · cases h
      rfl
    · split at h
      · cases h
        rfl
      · split at h
        · cases h
          rfl
        · split at h
          · cases h
            rfl
          · cases h
            rfl

/-- Invariant of the costs map: distinct keys, each entry's choice is a node
of the graph whose class is the key, and each recorded total is finite. -/
def costsInv (g : EGraph) (costs : List (ClassId × CostSet)) : Prop :=
  (omKeys costs).Nodup ∧
  ∀ p ∈ costs, (∃ node, g.findNode p.2.choice = some node ∧ node.eclass = p.1) ∧
    p.2.total.isSome

theorem costLt_isSome {a b : Option ℚ} (h : costLt a b = true) : a.isSome := by
  cases a with
  | none => cases h
  | some x => rfl

theorem extractLoop_costsInv (g : EGraph) (parents : List (ClassId × List NodeId)) :
    ∀ fuel queue costs costs2, costsInv g costs →
      extractLoop g parents fuel queue costs = .ok costs2 → costsInv g costs2 := by
  intro fuel
  induction fuel with
  | zero =>
    intro queue costs costs2 hinv h
    cases queue with
    | nil =>
      cases h
      exact hinv
    | cons a q => cases h
  | succ f ih =>
    intro queue costs costs2 hinv h
    cases queue with
    | nil =>
      cases h
      exact hinv
    | cons node_id q =>
      rw [extractLoop] at h
      dsimp only [] at h
      split at h
      · cases h
      · rename_i node hnd
        split at h
        · split at h
          · cases h
          · rename_i cost_set hcalc
            split at h
            · rename_i hlt
              refine ih _ _ _ ?_ h
              constructor
              · exact omKeys_nodup_omSet hinv.1 _ _
              · intro p hp
                rcases omSet_mem p hp with hpm | rfl
                · exact hinv.2 p hpm
                · refine ⟨⟨node, ?_, rfl⟩, costLt_isSome hlt⟩
                  rw [calculate_cost_set_choice hcalc]
                  exact hnd
            · exact ih _ _ _ hinv h
        · exact ih _ _ _ hinv h

theorem finalCosts_costsInv (g : EGraph) (fuel : Nat) (costs : List (ClassId × CostSet))
    (h : finalCosts g fuel = .ok costs) : costsInv g costs := by
  unfold finalCosts at h
  dsimp only [] at h
  split at h
  · cases h
  · exact extractLoop_costsInv g _ fuel _ [] costs ⟨List.nodup_nil, by intro p hp; cases hp⟩ h

/-- Folding ExtractionResult::choose over a costs map with distinct keys,
starting from a table with none of those keys, appends one entry per map
entry. -/
theorem choose_fold_eq :
    ∀ (costs : List (ClassId × CostSet)) (acc : ExtractionResult),
      (omKeys costs).Nodup → (∀ p ∈ costs, omLookup p.1 acc.choices = none) →
      (costs.foldl (fun r p => r.choose p.1 p.2.choice) acc).choices
        = acc.choices ++ costs.map (fun p => (p.1, p.2.choice)) := by
  intro costs
  induction costs with
  | nil =>
    intro acc _ _
    simp
  | cons q rest ih =>
    intro acc hnd hfresh
    have hq : omLookup q.1 acc.choices = none := hfresh q (List.mem_cons_self _ _)
    have hacc2 : (acc.choose q.1 q.2.choice).choices = acc.choices ++ [(q.1, q.2.choice)] := by
      show omInsert acc.choices q.1 q.2.choice = _
      unfold omInsert
      rw [if_neg (by rw [hq]; simp)]
    have hnd2 : (omKeys rest).Nodup := (List.nodup_cons.mp hnd).2
    have hq_rest : q.1 ∉ omKeys rest := (List.nodup_cons.mp hnd).1
    have hfresh2 : ∀ p ∈ rest, omLookup p.1 (acc.choose q.1 q.2.choice).choices = none := by
      intro p hp
      rw [hacc2, omLookup_append, hfresh p (List.mem_cons_of_mem _ hp)]
      have hne : p.1 ≠ q.1 := by
        intro he
        exact hq_rest (he ▸ List.mem_map.mpr ⟨p, hp, rfl⟩)
      simp [omLookup, hne]
    show (rest.foldl (fun r p => r.choose p.1 p.2.choice) (acc.choose q.1 q.2.choice)).choices = _
    rw [ih _ hnd2 hfresh2, hacc2]
    simp

/-- Claim C10: every entry of an extractor-produced choice table names a
node of the graph whose declared class is the entry's key, so the chosen
node ids exist and the eclass-match clause of check cannot fail. -/
theorem claim_C10_eclass_match (g : EGraph) (roots : List ClassId) (fuel : Nat)
    (res : ExtractionResult) (h : extract g roots fuel = .ok res) :
    (∀ p ∈ res.choices, ∃ node, g.findNode p.2 = some node ∧ node.eclass = p.1) ∧
      choicesWellFormed res g ∧ ¬ eclassMismatchProp res g := by
  unfold extract at h
  split at h
  · cases h
  · rename_i costs hfc
    cases h
    obtain ⟨hnd, hent⟩ := finalCosts_costsInv g fuel costs hfc
    have hfold := choose_fold_eq costs ⟨[]⟩ hnd (fun p _ => rfl)
    have hmain : ∀ p ∈ (costs.foldl (fun r p => r.choose p.1 p.2.choice)
        (ExtractionResult.mk [])).choices,
        ∃ node, g.findNode p.2 = some node ∧ node.eclass = p.1 := by
      intro p hp
      rw [hfold] at hp
      rcases List.mem_append.mp hp with hp | hp
      · cases hp
      · obtain ⟨q, hq, rfl⟩ := List.mem_map.mp hp
        obtain ⟨⟨node, hnd2, hecl⟩, _⟩ := hent q hq
        exact ⟨node, hnd2, hecl⟩
    refine ⟨hmain, ?_, ?_⟩
    · intro p hp
      obtain ⟨node, hn, _⟩ := hmain p hp
      rw [hn]
      rfl
    · rintro ⟨p, hp, node, hn, hne⟩
      obtain ⟨node2, hn2, he2⟩ := hmain p hp
      rw [hn] at hn2
      cases hn2
      exact hne he2

/-- Witness for C10 on a concrete one-leaf graph. -/
theorem claim_C10_witness :
    extract exG1 [0] 2 = .ok exR1 ∧
      ((∀ p ∈ exR1.choices, ∃ node, exG1.findNode p.2 = some node ∧ node.eclass = p.1) ∧
        choicesWellFormed exR1 exG1 ∧ ¬ eclassMismatchProp exR1 exG1) :=
  ⟨by decide, claim_C10_eclass_match exG1 [0] 2 exR1 (by decide)⟩

/-- Claim C9: extract never reads its roots argument, and the returned
table has exactly one entry, carrying the chosen node, per class of the
final (finite) costs map. -/
theorem claim_C9_roots_independent (g : EGraph) (r1 r2 : List ClassId) (fuel : Nat) :
    extract g r1 fuel = extract g r2 fuel ∧
      ∀ res costs, extract g r1 fuel = .ok res → finalCosts g fuel = .ok costs →
        res.choices = costs.map (fun p => (p.1, p.2.choice)) := by
  refine ⟨rfl, ?_⟩
  intro res costs h hfc
  unfold extract at h
  rw [hfc] at h
  dsimp only [] at h
  cases h
  obtain ⟨hnd, _⟩ := finalCosts_costsInv g fuel costs hfc
  rw [choose_fold_eq costs ⟨[]⟩ hnd (fun p _ => rfl)]
  simp

/-- Witness for C9 at concrete inputs. -/
theorem claim_C9_witness :
    extract exG1 [0] 2 = extract exG1 [1, 2] 2 ∧
      ∀ res costs, extract exG1 [0] 2 = .ok res → finalCosts exG1 2 = .ok costs →
        res.choices = costs.map (fun p => (p.1, p.2.choice)) :=
  claim_C9_roots_independent exG1 [0] [1, 2] 2

/-! Termination of the extractor worklist: every recorded total is a sum of
node costs over distinct classes, hence drawn from a fixed finite set; a
rank measure over that set strictly decreases at every recording. -/

theorem foldl_preserve {α β : Type} (P : β → Prop) (f : β → α → β) :
    ∀ (l : List α) (b : β), P b → (∀ a ∈ l, ∀ b', P b' → P (f b' a)) →
      P (l.foldl f b) := by
  intro l
  induction l with
  | nil => intro b hb _; exact hb
  | cons a rest ih =>
    intro b hb hf
    exact ih (f b a) (hf a (List.mem_cons_self _ _) b hb)
      (fun x hx => hf x (List.mem_cons_of_mem _ hx))

theorem omKeys_nodup_omInsert {α β : Type} [DecidableEq α] {m : List (α × β)}
    (h : (omKeys m).Nodup) (k : α) (v : β) : (omKeys (omInsert m k v)).Nodup := by
  unfold omInsert
  by_cases hk : (omLookup k m).isSome
  · rw [if_pos hk]
    exact h
  · rw [if_neg hk]
    have : omKeys (m ++ [(k, v)]) = omKeys m ++ [k] := by
      unfold omKeys
      rw [List.map_append]
      rfl
    rw [this, List.nodup_append]
    refine ⟨h, List.nodup_singleton k, ?_⟩
    intro x hx hx1
    rcases List.mem_singleton.mp hx1 with rfl
    exact hk (omLookup_isSome_of_mem_keys hx)

/-- Remove the entry of one key (for the sum decomposition). -/
def omErase {α β : Type} [DecidableEq α] (m : List (α × β)) (k : α) : List (α × β) :=
  m.filter (fun p => decide (p.1 ≠ k))

theorem omErase_mem {α β : Type} [DecidableEq α] {m : List (α × β)} {k : α} :
    ∀ p ∈ omErase m k, p ∈ m ∧ p.1 ≠ k := by
  intro p hp
  have := List.mem_filter.mp hp
  exact ⟨this.1, by simpa using this.2⟩

theorem omErase_keys_nodup {α β : Type} [DecidableEq α] {m : List (α × β)}
    (h : (omKeys m).Nodup) (k : α) : (omKeys (omErase m k)).Nodup := by
  have hsub : List.Sublist (omErase m k) m := List.filter_sublist _
  exact (hsub.map Prod.fst).nodup h

theorem omErase_eq_self {α β : Type} [DecidableEq α] {m : List (α × β)} {k : α}
    (h : ∀ p ∈ m, p.1 ≠ k) : omErase m k = m := by
  unfold omErase
  rw [List.filter_eq_self]
  intro p hp
  simpa using h p hp

theorem sum_split (m : List (ClassId × ℚ)) (d : ClassId) (hnd : (omKeys m).Nodup) :
    (m.map Prod.snd).sum = (omLookup d m).getD 0 + ((omErase m d).map Prod.snd).sum := by
  induction m with
  | nil => simp [omLookup, omErase]
  | cons q rest ih =>
    obtain ⟨a, b⟩ := q
    have hnd2 : (omKeys rest).Nodup := (List.nodup_cons.mp hnd).2
    have ha : a ∉ omKeys rest := (List.nodup_cons.mp hnd).1
    by_cases hd : d = a
    · subst hd
      have hrest : omErase rest d = rest := by
        apply omErase_eq_self
        intro p hp he
        exact ha (he ▸ List.mem_map.mpr ⟨p, hp, rfl⟩)
      have hcons : omErase ((d, b) :: rest) d = rest := by
        unfold omErase at hrest ⊢
        rw [List.filter_cons, if_neg (by simp)]
        exact hrest
      rw [hcons]
      simp [omLookup]
    · have hlk : omLookup d ((a, b) :: rest) = omLookup d rest := by
        simp [omLookup, hd]
      have hcons : omErase ((a, b) :: rest) d = (a, b) :: omErase rest d := by
        unfold omErase
        rw [List.filter_cons, if_pos (by simp; exact fun h => hd h.symm)]
      rw [hcons, hlk]
      show b + (rest.map Prod.snd).sum = _
      rw [ih hnd2]
      show _ = (omLookup d rest).getD 0 + (b + ((omErase rest d).map Prod.snd).sum)
      ring

/-- The distinct classes any node of the graph declares. -/
def eclassList (g : EGraph) : List ClassId :=
  (g.allNodePairs.map (fun p => p.2.eclass)).dedup

/-- The costs of the nodes declaring class d. -/
def classCostsF (g : EGraph) (d : ClassId) : Finset ℚ :=
  ((g.allNodePairs.filter (fun p => decide (p.2.eclass = d))).map (fun p => p.2.cost)).toFinset

def optSet (g : EGraph) (d : ClassId) : Finset ℚ := insert 0 (classCostsF g d)

/-- All sums obtainable by picking, for each class of the list, either zero
or one of its node costs. -/
def totSet (g : EGraph) : List ClassId → Finset ℚ
  | [] => {0}
  | d :: rest => Finset.image₂ (· + ·) (optSet g d) (totSet g rest)

/-- Every entry of the map is the cost of a node of the graph declaring the
entry's class. -/
def LegalMap (g : EGraph) (m : List (ClassId × ℚ)) : Prop :=
  ∀ p ∈ m, ∃ nid node, g.findNode nid = some node ∧ node.eclass = p.1 ∧ node.cost = p.2

theorem legal_key_mem {g : EGraph} {m : List (ClassId × ℚ)} (hl : LegalMap g m) :
    ∀ p ∈ m, p.1 ∈ eclassList g := by
  intro p hp
  obtain ⟨nid, node, hnd, hecl, _⟩ := hl p hp
  unfold eclassList
  rw [List.mem_dedup]
  exact List.mem_map.mpr ⟨(nid, node), findNode_mem_pairs hnd, hecl⟩

/-- The total of a legal map with distinct keys over classes of D lies in
the finite sum set of D. -/
theorem legal_total_mem (g : EGraph) :
    ∀ (D : List ClassId) (m : List (ClassId × ℚ)),
      (omKeys m).Nodup → LegalMap g m → (∀ p ∈ m, p.1 ∈ D) →
      (m.map Prod.snd).sum ∈ totSet g D := by
  intro D
  induction D with
  | nil =>
    intro m _ _ hD
    cases m with
    | nil => simp [totSet]
    | cons q rest => exact absurd (hD q (List.mem_cons_self _ _)) (by simp)
  | cons d rest ih =>
    intro m hnd hleg hD
    rw [sum_split m d hnd]
    have h1 : (omLookup d m).getD 0 ∈ optSet g d := by
      cases hl : omLookup d m with
      | none => exact Finset.mem_insert_self 0 _
      | some v =>
        have hm := omLookup_mem hl
        obtain ⟨nid, node, hn, he, hc⟩ := hleg (d, v) hm
        refine Finset.mem_insert_of_mem ?_
        unfold classCostsF
        rw [List.mem_toFinset]
        refine List.mem_map.mpr ⟨(nid, node), ?_, hc⟩
        rw [List.mem_filter]
        exact ⟨findNode_mem_pairs hn, by simpa using he⟩
    have h2 : ((omErase m d).map Prod.snd).sum ∈ totSet g rest := by
      refine ih (omErase m d) (omErase_keys_nodup hnd d)
        (fun p hp => hleg p (omErase_mem p hp).1) ?_
      intro p hp
      obtain ⟨hpm, hpne⟩ := omErase_mem p hp
      rcases List.mem_cons.mp (hD p hpm) with he | he
      · exact absurd he hpne
      · exact he
    exact Finset.mem_image₂.mpr ⟨_, h1, _, h2, rfl⟩

def totSetAll (g : EGraph) : Finset ℚ := totSet g (eclassList g)

/-- Number of attainable totals strictly below t. -/
def rank (g : EGraph) (t : ℚ) : ℕ := ((totSetAll g).filter (fun x => x < t)).card

/-- Rank of the total a class currently records; classes without a (finite)
record rank at the top. -/
def classRank (g : EGraph) (costs : List (ClassId × CostSet)) (d : ClassId) : ℕ :=
  match omLookup d costs with
  | none => (totSetAll g).card
  | some cs =>
    match cs.total with
    | none => (totSetAll g).card
    | some t => rank g t

def sumRank (g : EGraph) (costs : List (ClassId × CostSet)) : ℕ :=
  ((eclassList g).map (classRank g costs)).sum

def nodeBound (g : EGraph) : ℕ := ((g.allNodePairs.map Prod.fst).dedup).length

/-- The loop measure: ranks weighted above any possible queue length. -/
def measureM (g : EGraph) (queue : List NodeId) (costs : List (ClassId × CostSet)) : ℕ :=
  (nodeBound g + 1) * sumRank g costs + queue.length

theorem rank_le_card (g : EGraph) (t : ℚ) : rank g t ≤ (totSetAll g).card :=
  Finset.card_filter_le _ _

theorem rank_lt_card {g : EGraph} {t : ℚ} (ht : t ∈ totSetAll g) :
    rank g t < (totSetAll g).card := by
  refine Finset.card_lt_card ⟨Finset.filter_subset _ _, ?_⟩
  intro hsub
  have := hsub ht
  rw [Finset.mem_filter] at this
  exact absurd this.2 (lt_irrefl t)

theorem rank_lt_rank {g : EGraph} {t t2 : ℚ} (ht : t ∈ totSetAll g) (hlt : t < t2) :
    rank g t < rank g t2 := by
  refine Finset.card_lt_card ⟨?_, ?_⟩
  · intro x hx
    rw [Finset.mem_filter] at hx ⊢
    exact ⟨hx.1, lt_trans hx.2 hlt⟩
  · intro hsub
    have : t ∈ (totSetAll g).filter (fun x => x < t2) := by
      rw [Finset.mem_filter]
      exact ⟨ht, hlt⟩
    have := hsub this
    rw [Finset.mem_filter] at this
    exact absurd this.2 (lt_irrefl t)

theorem sum_lt_of_mem {α : Type} (D : List α) (f f2 : α → ℕ) {c : α}
    (hc : c ∈ D) (hle : ∀ d ∈ D, f2 d ≤ f d) (hlt : f2 c < f c) :
    (D.map f2).sum < (D.map f).sum := by
  obtain ⟨l1, l2, rfl⟩ := List.append_of_mem hc
  rw [List.map_append, List.map_append, List.sum_append, List.sum_append,
    List.map_cons, List.map_cons, List.sum_cons, List.sum_cons]
  have h1 : (l1.map f2).sum ≤ (l1.map f).sum :=
    List.sum_le_sum (fun d hd => hle d (List.mem_append_left _ hd))
  have h2 : (l2.map f2).sum ≤ (l2.map f).sum :=
    List.sum_le_sum (fun d hd =>
      hle d (List.mem_append_right _ (List.mem_cons_of_mem _ hd)))
  omega

/-- A duplicate-free list of node ids of the graph is no longer than the
number of distinct node ids. -/
theorem nodup_length_le_bound {g : EGraph} {l : List NodeId} (hnd : l.Nodup)
    (hsub : ∀ x ∈ l, x ∈ g.allNodePairs.map Prod.fst) : l.length ≤ nodeBound g := by
  have h1 : l.toFinset.card = l.length := List.toFinset_card_of_nodup hnd
  have h2 : l.toFinset ⊆ (g.allNodePairs.map Prod.fst).toFinset := by
    intro x hx
    rw [List.mem_toFinset] at hx ⊢
    exact hsub x hx
  have h3 := Finset.card_le_card h2
  rw [h1, List.card_toFinset] at h3
  exact h3

theorem uqInsert_nodup {q : List NodeId} (h : q.Nodup) (t : NodeId) :
    (uqInsert q t).Nodup := by
  unfold uqInsert
  by_cases ht : t ∈ q
  · rw [if_pos ht]
    exact h
  · rw [if_neg ht]
    rw [List.nodup_append]
    exact ⟨h, List.nodup_singleton t, by simpa using ht⟩

theorem uqInsert_mem {q : List NodeId} {t x : NodeId} (h : x ∈ uqInsert q t) :
    x ∈ q ∨ x = t := by
  unfold uqInsert at h
  by_cases ht : t ∈ q
  · rw [if_pos ht] at h
    exact Or.inl h
  · rw [if_neg ht] at h
    rcases List.mem_append.mp h with h | h
    · exact Or.inl h
    · exact Or.inr (List.mem_singleton.mp h)

theorem uqExtend_nodup_sub {P : NodeId → Prop} :
    ∀ (ts : List NodeId) (q : List NodeId), q.Nodup → (∀ x ∈ q, P x) →
      (∀ x ∈ ts, P x) → (uqExtend q ts).Nodup ∧ ∀ x ∈ uqExtend q ts, P x := by
  intro ts
  induction ts with
  | nil =>
    intro q hnd hq _
    exact ⟨hnd, hq⟩
  | cons t rest ih =>
    intro q hnd hq hts
    have h1 : (uqInsert q t).Nodup := uqInsert_nodup hnd t
    have h2 : ∀ x ∈ uqInsert q t, P x := by
      intro x hx
      rcases uqInsert_mem hx with hx | rfl
      · exact hq x hx
      · exact hts x (List.mem_cons_self _ _)
    exact ih (uqInsert q t) h1 h2 (fun x hx => hts x (List.mem_cons_of_mem _ hx))

theorem bucketAdd_val_mem {α β : Type} [DecidableEq α] {m : List (α × List β)} {k : α}
    {x : β} : ∀ c l, (c, l) ∈ bucketAdd m k x → ∀ y ∈ l,
      (∃ l2, (c, l2) ∈ m ∧ y ∈ l2) ∨ y = x := by
  induction m with
  | nil =>
    intro c l hm y hy
    rcases List.mem_singleton.mp hm with h
    cases h
    exact Or.inr (List.mem_singleton.mp hy)
  | cons q rest ih =>
    intro c l hm y hy
    obtain ⟨a, la⟩ := q
    unfold bucketAdd at hm
    by_cases hk : k = a
    · rw [if_pos hk] at hm
      rcases List.mem_cons.mp hm with h | h
      · cases h
        rcases List.mem_append.mp hy with hy | hy
        · exact Or.inl ⟨la, List.mem_cons_self _ _, hy⟩
        · exact Or.inr (List.mem_singleton.mp hy)
      · exact Or.inl ⟨l, List.mem_cons_of_mem _ h, hy⟩
    · rw [if_neg hk] at hm
      rcases List.mem_cons.mp hm with h | h
      · cases h
        exact Or.inl ⟨l, List.mem_cons_self _ _, hy⟩
      · rcases ih c l h y hy with ⟨l2, hl2, hy2⟩ | h2
        · exact Or.inl ⟨l2, List.mem_cons_of_mem _ hl2, hy2⟩
        · exact Or.inr h2

theorem classes_val_mem (g : EGraph) :
    ∀ p ∈ g.classes, ∀ y ∈ p.2, y ∈ g.allNodePairs.map Prod.fst := by
  unfold EGraph.classes
  refine foldl_preserve
    (fun (cls : List (ClassId × List NodeId)) =>
      ∀ p ∈ cls, ∀ y ∈ p.2, y ∈ g.allNodePairs.map Prod.fst)
    (fun cls p => bucketAdd cls p.2.eclass p.1) g.allNodePairs []
    (by intro p hp; cases hp) ?_
  intro a ha cls hcls p hp y hy
  rcases bucketAdd_val_mem p.1 p.2 (by exact hp) y hy with ⟨l2, hl2, hy2⟩ | h
  · exact hcls (p.1, l2) hl2 y hy2
  · rw [h]
    exact List.mem_map.mpr ⟨a, ha, rfl⟩

theorem classNodeIds_sub (g : EGraph) :
    ∀ x ∈ classNodeIds g, x ∈ g.allNodePairs.map Prod.fst := by
  intro x hx
  unfold classNodeIds at hx
  rw [List.mem_flatten] at hx
  obtain ⟨l, hl, hx⟩ := hx
  obtain ⟨q, hq, rfl⟩ := List.mem_map.mp hl
  exact classes_val_mem g q hq x hx

/-- Every node id stored in the parents map is a node id of the graph. -/
def parentsInv (g : EGraph) (parents : List (ClassId × List NodeId)) : Prop :=
  ∀ p ∈ parents, ∀ x ∈ p.2, x ∈ g.allNodePairs.map Prod.fst

theorem initStep_inv {g : EGraph} {acc acc2 : List (ClassId × List NodeId) × List NodeId}
    {node_id : NodeId} (hpar : parentsInv g acc.1) (hnd : acc.2.Nodup)
    (hsub : ∀ x ∈ acc.2, x ∈ g.allNodePairs.map Prod.fst)
    (hid : node_id ∈ g.allNodePairs.map Prod.fst)
    (h : initStep g acc node_id = .ok acc2) :
    parentsInv g acc2.1 ∧ acc2.2.Nodup ∧ ∀ x ∈ acc2.2, x ∈ g.allNodePairs.map Prod.fst := by
  unfold initStep at h
  split at h
  · cases h
  · rename_i node hnode
    cases h
    refine ⟨?_, ?_, ?_⟩
    · refine foldl_preserve (parentsInv g) _ _ _ hpar ?_
      intro child _ m hm p hp x hx
      rcases omSet_mem p hp with hpm | rfl
      · exact hm p hpm x hx
      · rcases List.mem_append.mp hx with hx | hx
        · cases hl : omLookup child m with
          | none =>
            rw [hl] at hx
            cases hx
          | some cur =>
            rw [hl] at hx
            exact hm (child, cur) (omLookup_mem hl) x hx
        · rcases List.mem_singleton.mp hx with rfl
          exact hid
    · show (if node.is_leaf then uqInsert acc.2 node_id else acc.2).Nodup
      by_cases hleaf : node.is_leaf
      · rw [if_pos hleaf]
        exact uqInsert_nodup hnd node_id
      · rw [if_neg hleaf]
        exact hnd
    · show ∀ x ∈ (if node.is_leaf then uqInsert acc.2 node_id else acc.2), _
      by_cases hleaf : node.is_leaf
      · rw [if_pos hleaf]
        intro x hx
        rcases uqInsert_mem hx with hx | rfl
        · exact hsub x hx
        · exact hid
      · rw [if_neg hleaf]
        exact hsub

theorem initFold_inv (g : EGraph) :
    ∀ (l : List NodeId) (acc : List (ClassId × List NodeId) × List NodeId),
      (∀ x ∈ l, x ∈ g.allNodePairs.map Prod.fst) → parentsInv g acc.1 →
      acc.2.Nodup → (∀ x ∈ acc.2, x ∈ g.allNodePairs.map Prod.fst) →
      ∀ res, initFold g l acc = .ok res →
        parentsInv g res.1 ∧ res.2.Nodup ∧
          ∀ x ∈ res.2, x ∈ g.allNodePairs.map Prod.fst := by
  intro l
  induction l with
  | nil =>
    intro acc _ hpar hnd hsub res h
    cases h
    exact ⟨hpar, hnd, hsub⟩
  | cons nid rest ih =>
    intro acc hl hpar hnd hsub res h
    rw [initFold] at h
    split at h
    · cases h
    · rename_i acc2 hstep
      obtain ⟨h1, h2, h3⟩ := initStep_inv hpar hnd hsub (hl nid (List.mem_cons_self _ _)) hstep
      exact ih acc2 (fun x hx => hl x (List.mem_cons_of_mem _ hx)) h1 h2 h3 res h

/-- Rich invariant of the costs map: each stored cost set's per-class map is
legal with distinct keys. -/
def richInv (g : EGraph) (costs : List (ClassId × CostSet)) : Prop :=
  ∀ p ∈ costs, LegalMap g p.2.costs ∧ (omKeys p.2.costs).Nodup

theorem classRank_none {g : EGraph} {costs : List (ClassId × CostSet)} {d : ClassId}
    (hl : omLookup d costs = none) : classRank g costs d = (totSetAll g).card := by
  simp only [classRank, hl]

theorem classRank_some_none {g : EGraph} {costs : List (ClassId × CostSet)} {d : ClassId}
    {cs : CostSet} (hl : omLookup d costs = some cs) (ht : cs.total = none) :
    classRank g costs d = (totSetAll g).card := by
  simp only [classRank, hl, ht]

theorem classRank_some {g : EGraph} {costs : List (ClassId × CostSet)} {d : ClassId}
    {cs : CostSet} {t : ℚ} (hl : omLookup d costs = some cs) (ht : cs.total = some t) :
    classRank g costs d = rank g t := by
  simp only [classRank, hl, ht]

theorem sumRank_decrease {g : EGraph} {costs : List (ClassId × CostSet)}
    {class_id : ClassId} {cost_set : CostSet} {t : ℚ}
    (hts : cost_set.total = some t) (htT : t ∈ totSetAll g)
    (hcls : class_id ∈ eclassList g)
    (hlt : costLt cost_set.total (prevCost costs class_id) = true) :
    sumRank g (omSet costs class_id cost_set) < sumRank g costs := by
  have hsetl : omLookup class_id (omSet costs class_id cost_set) = some cost_set := by
    rw [omLookup_omSet, if_pos rfl]
  have hkey : rank g t < classRank g costs class_id := by
    cases hl : omLookup class_id costs with
    | none =>
      rw [classRank_none hl]
      exact rank_lt_card htT
    | some cs =>
      cases hct : cs.total with
      | none =>
        rw [classRank_some_none hl hct]
        exact rank_lt_card htT
      | some t2 =>
        rw [classRank_some hl hct]
        refine rank_lt_rank htT ?_
        simp only [hts, prevCost, hl, hct, costLt] at hlt
        exact of_decide_eq_true hlt
  apply sum_lt_of_mem _ _ _ hcls
  · intro d _
    by_cases hde : d = class_id
    · subst hde
      rw [classRank_some hsetl hts]
      exact le_of_lt hkey
    · have heq : omLookup d (omSet costs class_id cost_set) = omLookup d costs := by
        rw [omLookup_omSet, if_neg hde]
      unfold classRank
      rw [heq]
  · rw [classRank_some hsetl hts]
    exact hkey

theorem merge_preserve (g : EGraph) :
    ∀ (l : List (ClassId × ℚ)),
      (∀ p ∈ l, ∃ nid node, g.findNode nid = some node ∧
        node.eclass = p.1 ∧ node.cost = p.2) →
      ∀ rm, LegalMap g rm → (omKeys rm).Nodup →
        LegalMap g (l.foldl (fun rm2 p => omInsert rm2 p.1 p.2) rm) ∧
          (omKeys (l.foldl (fun rm2 p => omInsert rm2 p.1 p.2) rm)).Nodup := by
  intro l
  induction l with
  | nil =>
    intro _ rm hleg hnd
    exact ⟨hleg, hnd⟩
  | cons p rest ih =>
    intro hl rm hleg hnd
    refine ih (fun q hq => hl q (List.mem_cons_of_mem _ hq)) (omInsert rm p.1 p.2) ?_
      (omKeys_nodup_omInsert hnd _ _)
    intro q hq
    rcases omInsert_mem q hq with hq | rfl
    · exact hleg q hq
    · exact hl p (List.mem_cons_self _ _)

theorem mergeMaps_legal (g : EGraph) {costs : List (ClassId × CostSet)}
    (hinv : richInv g costs) (ccs : List ClassId) (idb : ClassId) :
    LegalMap g (mergeMaps costs ccs idb) ∧ (omKeys (mergeMaps costs ccs idb)).Nodup := by
  unfold mergeMaps
  refine foldl_preserve (fun rm => LegalMap g rm ∧ (omKeys rm).Nodup) _ ccs _ ?_ ?_
  · cases hl : omLookup idb costs with
    | none => exact ⟨fun p hp => absurd hp (List.not_mem_nil p), List.nodup_nil⟩
    | some cset => exact hinv (idb, cset) (omLookup_mem hl)
  · intro a _ rm hrm
    by_cases ha : a = idb
    · rw [if_pos ha]
      exact hrm
    · rw [if_neg ha]
      cases hl : omLookup a costs with
      | none => exact hrm
      | some cset =>
        exact merge_preserve g cset.costs (hinv (a, cset) (omLookup_mem hl)).1
          rm hrm.1 hrm.2

/-- A finite total returned by calculate_cost_set is the sum of the
returned legal, duplicate-free per-class map. -/
theorem calculate_cost_set_legal {g : EGraph} {node_id : NodeId}
    {costs : List (ClassId × CostSet)} {best : Option ℚ} {cs : CostSet}
    (hinv : richInv g costs)
    (h : calculate_cost_set g node_id costs best = .ok cs) {t : ℚ}
    (ht : cs.total = some t) :
    t = (cs.costs.map Prod.snd).sum ∧ LegalMap g cs.costs ∧ (omKeys cs.costs).Nodup := by
  unfold calculate_cost_set at h
  dsimp only [] at h
  split at h
  · cases h
  · rename_i node hnd
    split at h
    · cases h
      cases ht
      refine ⟨by simp, ?_, by simp [omKeys]⟩
      intro p hp
      rcases List.mem_singleton.mp hp with rfl
      exact ⟨node_id, node, hnd, rfl, rfl⟩
    · split at h
      · cases h
        cases ht
      · rename_i first tail hccs
        split at h
        · cases h
          cases ht
        · rename_i first_cost hfc
          split at h
          · cases h
            cases ht
          · cases h
            split at ht
            · cases ht
            · rename_i halready
              obtain ⟨hmleg, hmnd⟩ := mergeMaps_legal g hinv
                (dedupAdj (sortNat node.children))
                (biggestId costs (dedupAdj (sortNat node.children)) first)
              have hleg2 : LegalMap g (omSet
                  (mergeMaps costs (dedupAdj (sortNat node.children))
                    (biggestId costs (dedupAdj (sortNat node.children)) first))
                  node.eclass node.cost) := by
                intro p hp
                rcases omSet_mem p hp with hp | rfl
                · exact hmleg p hp
                · exact ⟨node_id, node, hnd, rfl, rfl⟩
              refine ⟨(Option.some.inj ht).symm, hleg2, omKeys_nodup_omSet hmnd _ _⟩

theorem extractLoop_nil (g : EGraph) (parents : List (ClassId × List NodeId))
    (fuel : Nat) (costs : List (ClassId × CostSet)) :
    extractLoop g parents fuel [] costs = .ok costs := by
  cases fuel <;> simp [extractLoop]

theorem extractLoop_missing {g : EGraph} {parents : List (ClassId × List NodeId)}
    {fuel : Nat} {node_id : NodeId} {q : List NodeId} {costs : List (ClassId × CostSet)}
    (hfind : g.findNode node_id = none) :
    extractLoop g parents (fuel + 1) (node_id :: q) costs =
      .error (.missingNode node_id) := by
  simp [extractLoop, hfind]

theorem extractLoop_notReady {g : EGraph} {parents : List (ClassId × List NodeId)}
    {fuel : Nat} {node_id : NodeId} {q : List NodeId} {costs : List (ClassId × CostSet)}
    {node : Node} (hfind : g.findNode node_id = some node)
    (hready : (node.children.all (fun child_cid => (omLookup child_cid costs).isSome))
      = false) :
    extractLoop g parents (fuel + 1) (node_id :: q) costs =
      extractLoop g parents fuel q costs := by
  simp [extractLoop, hfind, hready]

theorem extractLoop_calcErr {g : EGraph} {parents : List (ClassId × List NodeId)}
    {fuel : Nat} {node_id : NodeId} {q : List NodeId} {costs : List (ClassId × CostSet)}
    {node : Node} {e : CheckErr} (hfind : g.findNode node_id = some node)
    (hready : (node.children.all (fun child_cid => (omLookup child_cid costs).isSome))
      = true)
    (hcalc : calculate_cost_set g node_id costs (prevCost costs node.eclass) = .error e) :
    extractLoop g parents (fuel + 1) (node_id :: q) costs = .error e := by
  simp [extractLoop, hfind, hready, hcalc]

theorem extractLoop_improve {g : EGraph} {parents : List (ClassId × List NodeId)}
    {fuel : Nat} {node_id : NodeId} {q : List NodeId} {costs : List (ClassId × CostSet)}
    {node : Node} {cost_set : CostSet} (hfind : g.findNode node_id = some node)
    (hready : (node.children.all (fun child_cid => (omLookup child_cid costs).isSome))
      = true)
    (hcalc : calculate_cost_set g node_id costs (prevCost costs node.eclass) = .ok cost_set)
    (hlt : costLt cost_set.total (prevCost costs node.eclass) = true) :
    extractLoop g parents (fuel + 1) (node_id :: q) costs =
      extractLoop g parents fuel (uqExtend q (parentsOf parents node.eclass))
        (omSet costs node.eclass cost_set) := by
  simp [extractLoop, hfind, hready, hcalc, hlt]

theorem extractLoop_noImprove {g : EGraph} {parents : List (ClassId × List NodeId)}
    {fuel : Nat} {node_id : NodeId} {q : List NodeId} {costs : List (ClassId × CostSet)}
    {node : Node} {cost_set : CostSet} (hfind : g.findNode node_id = some node)
    (hready : (node.children.all (fun child_cid => (omLookup child_cid costs).isSome))
      = true)
    (hcalc : calculate_cost_set g node_id costs (prevCost costs node.eclass) = .ok cost_set)
    (hlt : costLt cost_set.total (prevCost costs node.eclass) = false) :
    extractLoop g parents (fuel + 1) (node_id :: q) costs =
      extractLoop g parents fuel q costs := by
  simp [extractLoop, hfind, hready, hcalc, hlt]

/-- When the node exists, calculate_cost_set cannot fail. -/
theorem calculate_cost_set_ok {g : EGraph} {node_id : NodeId} {node : Node}
    (costs : List (ClassId × CostSet)) (best : Option ℚ)
    (hfind : g.findNode node_id = some node) :
    ∃ cs, calculate_cost_set g node_id costs best = .ok cs := by
  unfold calculate_cost_set
  rw [hfind]
  dsimp only []
  repeat' split
  all_goals exact ⟨_, rfl⟩

/-- The worklist loop cannot run out of fuel above the rank measure. -/
theorem extractLoop_term (g : EGraph) (parents : List (ClassId × List NodeId))
    (hpar : parentsInv g parents) :
    ∀ fuel queue costs,
      queue.Nodup → (∀ x ∈ queue, x ∈ g.allNodePairs.map Prod.fst) →
      richInv g costs → measureM g queue costs < fuel →
      extractLoop g parents fuel queue costs ≠ .error .fuelExhausted := by
  intro fuel
  induction fuel with
  | zero =>
    intro queue costs _ _ _ hm
    exact absurd hm (Nat.not_lt_zero _)
  | succ f ih =>
    intro queue costs hnd hsub hrich hm
    cases queue with
    | nil =>
      rw [extractLoop_nil]
      intro hc
      cases hc
    | cons node_id q =>
      have hnd2 : q.Nodup := (List.nodup_cons.mp hnd).2
      have hsub2 : ∀ x ∈ q, x ∈ g.allNodePairs.map Prod.fst :=
        fun x hx => hsub x (List.mem_cons_of_mem _ hx)
      have hmq : measureM g q costs < f := by
        unfold measureM at hm ⊢
        rw [List.length_cons] at hm
        omega
      cases hfind : g.findNode node_id with
      | none =>
        rw [extractLoop_missing hfind]
        intro hc
        injection hc with hc2
        cases hc2
      | some node =>
        cases hready : node.children.all (fun child_cid => (omLookup child_cid costs).isSome) with
        | false =>
          rw [extractLoop_notReady hfind hready]
          exact ih q costs hnd2 hsub2 hrich hmq
        | true =>
          obtain ⟨cost_set, hcalc⟩ :=
            calculate_cost_set_ok costs (prevCost costs node.eclass) hfind
          cases hlt : costLt cost_set.total (prevCost costs node.eclass) with
          | false =>
            rw [extractLoop_noImprove hfind hready hcalc hlt]
            exact ih q costs hnd2 hsub2 hrich hmq
          | true =>
            rw [extractLoop_improve hfind hready hcalc hlt]
            obtain ⟨t, hts⟩ : ∃ t, cost_set.total = some t := by
              cases hct : cost_set.total with
              | none =>
                rw [hct] at hlt
                cases hlt
              | some t => exact ⟨t, rfl⟩
            obtain ⟨hsum, hleg, hmnd⟩ := calculate_cost_set_legal hrich hcalc hts
            have htT : t ∈ totSetAll g := by
              rw [hsum]
              exact legal_total_mem g (eclassList g) cost_set.costs hmnd hleg
                (legal_key_mem hleg)
            have hcls : node.eclass ∈ eclassList g := by
              unfold eclassList
              rw [List.mem_dedup]
              exact List.mem_map.mpr ⟨(node_id, node), findNode_mem_pairs hfind, rfl⟩
            have hdec := sumRank_decrease hts htT hcls hlt
            have hparmem : ∀ x ∈ parentsOf parents node.eclass,
                x ∈ g.allNodePairs.map Prod.fst := by
              unfold parentsOf
              cases hl : omLookup node.eclass parents with
              | none =>
                intro x hx
                cases hx
              | some ps => exact hpar (node.eclass, ps) (omLookup_mem hl)
            obtain ⟨hq2nd, hq2sub⟩ :=
              uqExtend_nodup_sub (parentsOf parents node.eclass) q hnd2 hsub2 hparmem
            have hrich2 : richInv g (omSet costs node.eclass cost_set) := by
              intro p hp
              rcases omSet_mem p hp with hp | rfl
              · exact hrich p hp
              · exact ⟨hleg, hmnd⟩
            refine ih _ _ hq2nd hq2sub hrich2 ?_
            have hlen2 : (uqExtend q (parentsOf parents node.eclass)).length ≤ nodeBound g :=
              nodup_length_le_bound hq2nd hq2sub
            unfold measureM at hm ⊢
            rw [List.length_cons] at hm
            have hmul := Nat.mul_le_mul_left (nodeBound g + 1)
              (show sumRank g (omSet costs node.eclass cost_set) + 1 ≤ sumRank g costs
                from hdec)
            rw [Nat.mul_add, Nat.mul_one] at hmul
            omega

theorem initFold_noFuel (g : EGraph) :
    ∀ (l : List NodeId) (acc : List (ClassId × List NodeId) × List NodeId),
      initFold g l acc ≠ .error .fuelExhausted := by
  intro l
  induction l with
  | nil =>
    intro acc hc
    cases hc
  | cons nid rest ih =>
    intro acc
    rw [initFold]
    split
    · rename_i e hstep
      unfold initStep at hstep
      split at hstep
      · cases hstep
        intro hc
        injection hc with hc2
        cases hc2
      · cases hstep
    · rename_i acc2 _
      exact ih acc2

theorem parents0_inv (g : EGraph) :
    parentsInv g (g.classes.foldl (fun m pair => omSet m pair.1 ([] : List NodeId)) []) := by
  refine foldl_preserve (parentsInv g)
    (fun m pair => omSet m pair.1 ([] : List NodeId)) g.classes []
    (by intro p hp; cases hp) ?_
  intro a _ m hm p hp x hx
  rcases omSet_mem p hp with hp | rfl
  · exact hm p hp x hx
  · cases hx

/-- Claim C3: on every e-graph with non-negative costs the extractor's
worklist loop terminates: some finite fuel (one above the rank measure of
the initial state) is never exhausted, because a class's recorded total is
only ever overwritten by a strictly smaller member of the finite set of
attainable totals, and the duplicate-free queue is bounded by the node
count. -/
theorem claim_C3_terminates (g : EGraph) (roots : List ClassId) (hnn : nonnegCosts g) :
    ∃ fuel, extract g roots fuel ≠ .error .fuelExhausted := by
  cases hinit : initFold g (classNodeIds g)
      (g.classes.foldl (fun m pair => omSet m pair.1 ([] : List NodeId)) [], []) with
  | error e =>
    refine ⟨0, ?_⟩
    unfold extract finalCosts
    dsimp only []
    rw [hinit]
    dsimp only []
    intro hc
    injection hc with hc2
    rw [hc2] at hinit
    exact initFold_noFuel g _ _ hinit
  | ok pp =>
    obtain ⟨parents, pending⟩ := pp
    obtain ⟨hpar, hpnd, hpsub⟩ := initFold_inv g (classNodeIds g) _
      (classNodeIds_sub g) (parents0_inv g) List.nodup_nil
      (by intro x hx; cases hx) (parents, pending) hinit
    refine ⟨measureM g pending [] + 1, ?_⟩
    have hterm := extractLoop_term g parents hpar (measureM g pending [] + 1) pending []
      hpnd hpsub (by intro p hp; cases hp) (Nat.lt_succ_self _)
    unfold extract finalCosts
    dsimp only []
    rw [hinit]
    dsimp only []
    cases hL : extractLoop g parents (measureM g pending [] + 1) pending [] with
    | error e =>
      intro hc
      injection hc with hc2
      rw [hc2] at hL
      exact hterm hL
    | ok costs =>
      intro hc
      cases hc

/-- Witness for C3 at a concrete instance. -/
theorem claim_C3_witness :
    nonnegCosts exG1 ∧ ∃ fuel, extract exG1 [0] fuel ≠ .error .fuelExhausted :=
  ⟨by unfold nonnegCosts; decide,
    claim_C3_terminates exG1 [0] (by unfold nonnegCosts; decide)⟩

/-! egraph_partition (main.cpp).  The float factor is modelled as a
rational; the reserved pseudo-root class id is 2^32 - 2.  The op-string
bookkeeping of the pseudo root is irrelevant to every claim and its op
index is fixed at 0. -/

def PSEUDO_CLASS : ClassId := 4294967294

/-- Ordered-set insert (orderedset_c). -/
def osInsert (l : List ClassId) (c : ClassId) : List ClassId :=
  if c ∈ l then l else l ++ [c]

/-- Record node_id as parent of each child class, checking that the child
class exists and is non-empty (the runtime_error of the source). -/
def ppChildren (nodes : List (ClassId × List (NodeId × Node))) (node_id : NodeId) :
    List ClassId → List (ClassId × List NodeId) →
      Except CheckErr (List (ClassId × List NodeId))
  | [], m => .ok m
  | child :: rest, m =>
    match omLookup child nodes with
    | none => .error (.missingClassNodes child)
    | some innerC =>
      if innerC.isEmpty then .error (.missingClassNodes child)
      else ppChildren nodes node_id rest
        (omSet m child ((omLookup child m).getD [] ++ [node_id]))

def ppInner (nodes : List (ClassId × List (NodeId × Node))) :
    List (NodeId × Node) → List (ClassId × List NodeId) →
      Except CheckErr (List (ClassId × List NodeId))
  | [], m => .ok m
  | p :: rest, m =>
    match ppChildren nodes p.1 p.2.children m with
    | .error e => .error e
    | .ok m2 => ppInner nodes rest m2

def ppOuter (nodes : List (ClassId × List (NodeId × Node))) :
    List (ClassId × List (NodeId × Node)) → List (ClassId × List NodeId) →
      Except CheckErr (List (ClassId × List NodeId))
  | [], m => .ok m
  | kv :: rest, m =>
    match ppInner nodes kv.2 m with
    | .error e => .error e
    | .ok m2 => ppOuter nodes rest m2

/-- The parents map of egraph_partition. -/
def partitionParents (nodes : List (ClassId × List (NodeId × Node))) :
    Except CheckErr (List (ClassId × List NodeId)) :=
  ppOuter nodes nodes []

/-- The root vector: one entry per node whose declared eclass has no parent
record. -/
def rootList (nodes : List (ClassId × List (NodeId × Node)))
    (parents : List (ClassId × List NodeId)) : List ClassId :=
  nodes.foldl (fun acc kv =>
    kv.2.foldl (fun acc2 p =>
      if (omLookup p.2.eclass parents).isSome then acc2 else acc2 ++ [p.2.eclass]) acc) []

def pseudoRootNode (root : List ClassId) : Node :=
  { op := 0, children := root, eclass := PSEUDO_CLASS, cost := 0 }

/-- Add the pseudo root when more than one root entry was pushed. -/
def addPseudo (nodes : List (ClassId × List (NodeId × Node))) (root : List ClassId) :
    List (ClassId × List (NodeId × Node)) × List ClassId :=
  if 1 < root.length then
    (omSet nodes PSEUDO_CLASS [((PSEUDO_CLASS, 0), pseudoRootNode root)], [PSEUDO_CLASS])
  else (nodes, root)

/-- eclass_collect: bucket the inner node ids under each outer class key. -/
def eclassCollect (nodes : List (ClassId × List (NodeId × Node))) :
    List (ClassId × List NodeId) :=
  nodes.foldl (fun m kv => kv.2.foldl (fun m2 p => bucketAdd m2 kv.1 p.1) m) []

/-- Enqueue each unvisited child, marking it visited. -/
def bfsEnqueue (children : List ClassId) (qv : List ClassId × List ClassId) :
    List ClassId × List ClassId :=
  children.foldl
    (fun qv child => if child ∈ qv.2 then qv else (qv.1 ++ [child], qv.2 ++ [child])) qv

/-- Count the nodes of the popped class and enqueue their unvisited
children (node lookups model the .at throws). -/
def bfsClassNodes (mnodes : List (ClassId × List (NodeId × Node))) :
    List NodeId → ℕ → List ClassId → List ClassId →
      Except CheckErr (ℕ × List ClassId × List ClassId)
  | [], count, queue, visited => .ok (count, queue, visited)
  | nid :: rest, count, queue, visited =>
    match omLookup nid.1 mnodes with
    | none => .error (.missingNode nid)
    | some innerM =>
      match omLookup nid innerM with
      | none => .error (.missingNode nid)
      | some node =>
        let qv := bfsEnqueue node.children (queue, visited)
        bfsClassNodes mnodes rest (count + 1) qv.1 qv.2

/-- The BFS partition loop; returns the sealed subgraphs and the current
bucket at exit. -/
def bfsLoop (ec : List (ClassId × List NodeId))
    (mnodes : List (ClassId × List (NodeId × Node))) (num : ℚ) (pnum : ℕ) :
    Nat → List ClassId → List ClassId → List (List ClassId) → List ClassId → ℕ →
      Except CheckErr (List (List ClassId) × List ClassId)
  | _, [], _, sgs, cur, _ => .ok (sgs, cur)
  | 0, _ :: _, _, _, _, _ => .error .fuelExhausted
  | fuel + 1, class_id :: queue, visited, sgs, cur, count =>
    let cur2 := osInsert cur class_id
    if num ≤ (count : ℚ) then
      let sgs2 := sgs ++ [cur2]
      if sgs2.length = pnum then .ok (sgs2, [])
      else
        match omLookup class_id ec with
        | none => .error (.missingClassNodes class_id)
        | some class_nodes =>
          match bfsClassNodes mnodes class_nodes 0 queue visited with
          | .error e => .error e
          | .ok (count4, queue4, visited4) =>
            bfsLoop ec mnodes num pnum fuel queue4 visited4 sgs2 [] count4
    else
      match omLookup class_id ec with
      | none => .error (.missingClassNodes class_id)
      | some class_nodes =>
        match bfsClassNodes mnodes class_nodes count queue visited with
        | .error e => .error e
        | .ok (count4, queue4, visited4) =>
          bfsLoop ec mnodes num pnum fuel queue4 visited4 sgs cur2 count4

/-- egraph_partition up to (and including) the union assert; the returned
buckets are the class sets the later per-partition files are built from. -/
def egraph_partition (g : EGraph) (factor : ℚ) (fuel : Nat) :
    Except CheckErr (List (List ClassId)) :=
  match partitionParents g.nodes with
  | .error e => .error e
  | .ok parents =>
    let root := rootList g.nodes parents
    let mr := addPseudo g.nodes root
    let ec := eclassCollect g.nodes
    let pnum := (round (1 / factor)).toNat
    if mr.1.length ≤ pnum then .error .partitionTooFew
    else
      let num : ℚ := (mr.1.length : ℚ) / (pnum : ℚ)
      match mr.2 with
      | [] => .error .noRoot
      | r :: _ =>
        match bfsLoop ec mr.1 num pnum fuel [r] [] [] [] 0 with
        | .error e => .error e
        | .ok (sgs, cur) =>
          let sgs2 := if cur.isEmpty then sgs else sgs ++ [cur]
          if (sgs2.flatten.all (fun c => decide (c ∈ omKeys ec))) &&
              ((omKeys ec).all (fun c => decide (c ∈ sgs2.flatten))) then .ok sgs2
          else .error .assertFailed

theorem ppChildren_keys {nodes : List (ClassId × List (NodeId × Node))} {node_id : NodeId} :
    ∀ (cs : List ClassId) (m m2 : List (ClassId × List NodeId)),
      ppChildren nodes node_id cs m = .ok m2 →
      ∀ c, (omLookup c m2).isSome ↔ ((omLookup c m).isSome ∨ c ∈ cs) := by
  intro cs
  induction cs with
  | nil =>
    intro m m2 h c
    cases h
    simp
  | cons child rest ih =>
    intro m m2 h c
    rw [ppChildren] at h
    split at h
    · cases h
    · split at h
      · cases h
      · have := ih _ _ h c
        rw [this, omLookup_omSet]
        by_cases hc : c = child
        · subst hc
          simp
        · rw [if_neg hc]
          constructor
          · rintro (hs | hs)
            · exact Or.inl hs
            · exact Or.inr (List.mem_cons_of_mem _ hs)
          · rintro (hs | hs)
            · exact Or.inl hs
            · rcases List.mem_cons.mp hs with rfl | hs
              · exact absurd rfl hc
              · exact Or.inr hs

theorem ppInner_keys {nodes : List (ClassId × List (NodeId × Node))} :
    ∀ (l : List (NodeId × Node)) (m m2 : List (ClassId × List NodeId)),
      ppInner nodes l m = .ok m2 →
      ∀ c, (omLookup c m2).isSome ↔
        ((omLookup c m).isSome ∨ ∃ p ∈ l, c ∈ p.2.children) := by
  intro l
  induction l with
  | nil =>
    intro m m2 h c
    cases h
    simp
  | cons p rest ih =>
    intro m m2 h c
    rw [ppInner] at h
    split at h
    · cases h
    · rename_i m1 hpc
      rw [ih _ _ h c, ppChildren_keys _ _ _ hpc c]
      constructor
    
    
      · rintro ((hs | hs) | hs)
        · exact Or.inl hs
        · exact Or.inr ⟨p, List.mem_cons_self _ _, hs⟩
        · obtain ⟨q, hq, hcq⟩ := hs
          exact Or.inr ⟨q, List.mem_cons_of_mem _ hq, hcq⟩
      · rintro (hs | ⟨q, hq, hcq⟩)
        · exact Or.inl (Or.inl hs)
        · rcases List.mem_cons.mp hq with rfl | hq
          · exact Or.inl (Or.inr hcq)
          · exact Or.inr ⟨q, hq, hcq⟩

theorem ppOuter_keys {nodes : List (ClassId × List (NodeId × Node))} :
    ∀ (l : List (ClassId × List (NodeId × Node))) (m m2 : List (ClassId × List NodeId)),
      ppOuter nodes l m = .ok m2 →
      ∀ c, (omLookup c m2).isSome ↔
        ((omLookup c m).isSome ∨ ∃ kv ∈ l, ∃ p ∈ kv.2, c ∈ p.2.children) := by
  intro l
  induction l with
  | nil =>
    intro m m2 h c
    cases h
    simp
  | cons kv rest ih =>
    intro m m2 h c
    rw [ppOuter] at h
    split at h
    · cases h
    · rename_i m1 hin
      rw [ih _ _ h c, ppInner_keys _ _ _ hin c]
      constructor
      · rintro ((hs | hs) | hs)
        · exact Or.inl hs
        · exact Or.inr ⟨kv, List.mem_cons_self _ _, hs⟩
        · obtain ⟨kv2, hkv2, hs⟩ := hs
          exact Or.inr ⟨kv2, List.mem_cons_of_mem _ hkv2, hs⟩
      · rintro (hs | ⟨kv2, hkv2, hs⟩)
        · exact Or.inl (Or.inl hs)
        · rcases List.mem_cons.mp hkv2 with rfl | hkv2
          · exact Or.inl (Or.inr hs)
          · exact Or.inr ⟨kv2, hkv2, hs⟩

/-- The parents map records exactly the classes some node lists as child. -/
theorem partitionParents_keys {nodes : List (ClassId × List (NodeId × Node))}
    {parents : List (ClassId × List NodeId)}
    (hpp : partitionParents nodes = .ok parents) :
    ∀ c, (omLookup c parents).isSome ↔ ∃ kv ∈ nodes, ∃ p ∈ kv.2, c ∈ p.2.children := by
  intro c
  have := ppOuter_keys nodes [] parents hpp c
  rw [this]
  simp [omLookup]

theorem rootList_inner_mem (parents : List (ClassId × List NodeId)) :
    ∀ (l : List (NodeId × Node)) (acc : List ClassId) (c : ClassId),
      c ∈ l.foldl (fun acc2 p =>
        if (omLookup p.2.eclass parents).isSome then acc2 else acc2 ++ [p.2.eclass]) acc ↔
      (c ∈ acc ∨ ∃ p ∈ l, p.2.eclass = c ∧ omLookup c parents = none) := by
  intro l
  induction l with
  | nil =>
    intro acc c
    simp
  | cons p rest ih =>
    intro acc c
    rw [List.foldl_cons, ih]
    by_cases hs : (omLookup p.2.eclass parents).isSome
    · rw [if_pos hs]
      constructor
      · rintro (hc | hc)
        · exact Or.inl hc
        · obtain ⟨q, hq, hqc⟩ := hc
          exact Or.inr ⟨q, List.mem_cons_of_mem _ hq, hqc⟩
      · rintro (hc | ⟨q, hq, he, hn⟩)
        · exact Or.inl hc
        · rcases List.mem_cons.mp hq with rfl | hq
          · rw [he, hn] at hs
            cases hs
          · exact Or.inr ⟨q, hq, he, hn⟩
    · rw [if_neg hs]
      constructor
      · rintro (hc | hc)
        · rcases List.mem_append.mp hc with hc | hc
          · exact Or.inl hc
          · rcases List.mem_singleton.mp hc with rfl
            refine Or.inr ⟨p, List.mem_cons_self _ _, rfl, ?_⟩
            cases hl : omLookup p.2.eclass parents with
            | none => rfl
            | some v =>
              rw [hl] at hs
              exact absurd rfl hs
        · obtain ⟨q, hq, hqc⟩ := hc
          exact Or.inr ⟨q, List.mem_cons_of_mem _ hq, hqc⟩
      · rintro (hc | ⟨q, hq, he, hn⟩)
        · exact Or.inl (List.mem_append_left _ hc)
        · rcases List.mem_cons.mp hq with rfl | hq
          · exact Or.inl (List.mem_append_right _ (List.mem_singleton.mpr he.symm))
          · exact Or.inr ⟨q, hq, he, hn⟩

theorem rootList_mem (nodes : List (ClassId × List (NodeId × Node)))
    (parents : List (ClassId × List NodeId)) (c : ClassId) :
    c ∈ rootList nodes parents ↔
      ∃ kv ∈ nodes, ∃ p ∈ kv.2, p.2.eclass = c ∧ omLookup c parents = none := by
  unfold rootList
  have main : ∀ (l : List (ClassId × List (NodeId × Node))) (acc : List ClassId),
      c ∈ l.foldl (fun acc kv =>
        kv.2.foldl (fun acc2 p =>
          if (omLookup p.2.eclass parents).isSome then acc2 else acc2 ++ [p.2.eclass]) acc)
        acc ↔
      (c ∈ acc ∨ ∃ kv ∈ l, ∃ p ∈ kv.2, p.2.eclass = c ∧ omLookup c parents = none) := by
    intro l
    induction l with
    | nil =>
      intro acc
      simp
    | cons kv rest ih =>
      intro acc
      rw [List.foldl_cons, ih, rootList_inner_mem]
      constructor
      · rintro ((hc | hc) | hc)
        · exact Or.inl hc
        · exact Or.inr ⟨kv, List.mem_cons_self _ _, hc⟩
        · obtain ⟨kv2, hkv2, hc⟩ := hc
          exact Or.inr ⟨kv2, List.mem_cons_of_mem _ hkv2, hc⟩
      · rintro (hc | ⟨kv2, hkv2, hc⟩)
        · exact Or.inl (Or.inl hc)
        · rcases List.mem_cons.mp hkv2 with rfl | hkv2
          · exact Or.inl (Or.inr hc)
          · exact Or.inr ⟨kv2, hkv2, hc⟩
  rw [main nodes []]
  simp

/-- Claim C7 (amended): the root vector holds one entry per NODE of a
parentless class (so a multi-node parentless class contributes several
entries), and a pseudo root with the reserved class, cost zero and the
whole root vector (duplicates included) as children is synthesized exactly
when that vector, not the set of distinct root classes, has more than one
entry. -/
theorem claim_C7_root_pseudo (nodes : List (ClassId × List (NodeId × Node)))
    (parents : List (ClassId × List NodeId))
    (hpp : partitionParents nodes = .ok parents) :
    (∀ c, c ∈ rootList nodes parents ↔
      ((∃ kv ∈ nodes, ∃ p ∈ kv.2, p.2.eclass = c) ∧
        ¬ ∃ kv ∈ nodes, ∃ p ∈ kv.2, c ∈ p.2.children)) ∧
    (1 < (rootList nodes parents).length →
      addPseudo nodes (rootList nodes parents) =
        (omSet nodes PSEUDO_CLASS
          [((PSEUDO_CLASS, 0), pseudoRootNode (rootList nodes parents))],
          [PSEUDO_CLASS]) ∧
      (pseudoRootNode (rootList nodes parents)).eclass = PSEUDO_CLASS ∧
      (pseudoRootNode (rootList nodes parents)).cost = 0 ∧
      (pseudoRootNode (rootList nodes parents)).children = rootList nodes parents) ∧
    ((rootList nodes parents).length ≤ 1 →
      addPseudo nodes (rootList nodes parents) = (nodes, rootList nodes parents)) := by
  refine ⟨?_, ?_, ?_⟩
  · intro c
    rw [rootList_mem]
    constructor
    · rintro ⟨kv, hkv, p, hp, he, hn⟩
      refine ⟨⟨kv, hkv, p, hp, he⟩, ?_⟩
      intro hc
      have := (partitionParents_keys hpp c).mpr hc
      rw [hn] at this
      cases this
    · rintro ⟨⟨kv, hkv, p, hp, he⟩, hnc⟩
      refine ⟨kv, hkv, p, hp, he, ?_⟩
      cases hl : omLookup c parents with
      | none => rfl
      | some v =>
        exact absurd ((partitionParents_keys hpp c).mp (by rw [hl]; rfl)) hnc
  · intro hlen
    unfold addPseudo
    rw [if_pos hlen]
    exact ⟨rfl, rfl, rfl, rfl⟩
  · intro hlen
    unfold addPseudo
    rw [if_neg (by omega)]

/-- One parentless class holding two nodes, for the C7 counterexample. -/
def exG3 : EGraph :=
  { nodes := [(5, [((5, 0), mkLeaf 5 1), ((5, 1), mkLeaf 5 2)])], root_eclasses := [5] }

/-- Claim C7 counterexample: a single parentless class with two nodes gives
a root vector of two equal entries; the distinct root set has one element,
yet the pseudo root is created, and it carries two children for that one
class. -/
theorem claim_C7_counterexample :
    partitionParents exG3.nodes = .ok [] ∧
    rootList exG3.nodes [] = [5, 5] ∧
    (rootList exG3.nodes []).dedup.length = 1 ∧
    (addPseudo exG3.nodes (rootList exG3.nodes [])).2 = [PSEUDO_CLASS] ∧
    (pseudoRootNode (rootList exG3.nodes [])).children = [5, 5] := by
  refine ⟨?_, ?_, ?_, ?_, ?_⟩ <;> decide

/-- Witness for the amended C7 at a concrete instance. -/
theorem claim_C7_witness :
    partitionParents exG1.nodes = .ok [] ∧
      ((∀ c, c ∈ rootList exG1.nodes [] ↔
        ((∃ kv ∈ exG1.nodes, ∃ p ∈ kv.2, p.2.eclass = c) ∧
          ¬ ∃ kv ∈ exG1.nodes, ∃ p ∈ kv.2, c ∈ p.2.children)) ∧
      (1 < (rootList exG1.nodes []).length →
        addPseudo exG1.nodes (rootList exG1.nodes []) =
          (omSet exG1.nodes PSEUDO_CLASS
            [((PSEUDO_CLASS, 0), pseudoRootNode (rootList exG1.nodes []))],
            [PSEUDO_CLASS]) ∧
        (pseudoRootNode (rootList exG1.nodes [])).eclass = PSEUDO_CLASS ∧
        (pseudoRootNode (rootList exG1.nodes [])).cost = 0 ∧
        (pseudoRootNode (rootList exG1.nodes [])).children = rootList exG1.nodes []) ∧
      ((rootList exG1.nodes []).length ≤ 1 →
        addPseudo exG1.nodes (rootList exG1.nodes []) =
          (exG1.nodes, rootList exG1.nodes []))) :=
  ⟨by decide, claim_C7_root_pseudo exG1.nodes [] (by decide)⟩

theorem bfsClassNodes_err (mnodes : List (ClassId × List (NodeId × Node))) :
    ∀ (l : List NodeId) (count : ℕ) (queue visited : List ClassId),
      bfsClassNodes mnodes l count queue visited ≠ .error .partitionTooFew := by
  intro l
  induction l with
  | nil =>
    intro count queue visited hc
    cases hc
  | cons nid rest ih =>
    intro count queue visited
    rw [bfsClassNodes]
    split
    · intro hc
      injection hc with hc2
      cases hc2
    · split
      · intro hc
        injection hc with hc2
        cases hc2
      · exact ih _ _ _

theorem bfsLoop_err (ec : List (ClassId × List NodeId))
    (mnodes : List (ClassId × List (NodeId × Node))) (num : ℚ) (pnum : ℕ) :
    ∀ (fuel : Nat) (queue visited : List ClassId) (sgs : List (List ClassId))
      (cur : List ClassId) (count : ℕ),
      bfsLoop ec mnodes num pnum fuel queue visited sgs cur count ≠
        .error .partitionTooFew := by
  intro fuel
  induction fuel with
  | zero =>
    intro queue visited sgs cur count hc
    cases queue with
    | nil => cases hc
    | cons a q =>
      injection hc with hc2
      cases hc2
  | succ f ih =>
    intro queue visited sgs cur count
    cases queue with
    | nil =>
      intro hc
      cases hc
    | cons class_id q =>
      rw [bfsLoop]
      dsimp only []
      split
      · split
        · intro hc
          cases hc
        · split
          · intro hc
            injection hc with hc2
            cases hc2
          · split
            · rename_i e hcn
              intro hc
              injection hc with hc2
              rw [hc2] at hcn
              exact bfsClassNodes_err mnodes _ _ _ _ hcn
            · exact ih _ _ _ _ _
      · split
        · intro hc
          injection hc with hc2
          cases hc2
        · split
          · rename_i e hcn
            intro hc
            injection hc with hc2
            rw [hc2] at hcn
            exact bfsClassNodes_err mnodes _ _ _ _ hcn
          · exact ih _ _ _ _ _

/-- Claim C6 (amended): with the parents stage succeeding, egraph_partition
raises the partition-size error exactly when the class count of the
(pseudo-root augmented) node map is ≤ round(1/factor) - the boundary case
of equality also fails, unlike the spec's strict inequality. -/
theorem claim_C6_partition_threshold (g : EGraph) (factor : ℚ) (fuel : Nat)
    (parents : List (ClassId × List NodeId))
    (hpp : partitionParents g.nodes = .ok parents) :
    egraph_partition g factor fuel = .error .partitionTooFew ↔
      (addPseudo g.nodes (rootList g.nodes parents)).1.length ≤
        (round (1 / factor)).toNat := by
  unfold egraph_partition
  rw [hpp]
  dsimp only []
  by_cases hsz : (addPseudo g.nodes (rootList g.nodes parents)).1.length ≤
      (round (1 / factor)).toNat
  · rw [if_pos hsz]
    exact ⟨fun _ => hsz, fun _ => rfl⟩
  · rw [if_neg hsz]
    constructor
    · intro hc
      exfalso
      split at hc
      · cases hc
      · split at hc
        · rename_i e hbfs
          injection hc with hc2
          rw [hc2] at hbfs
          exact bfsLoop_err _ _ _ _ _ _ _ _ _ _ hbfs
        · split at hc
          · split at hc
            · cases hc
            · injection hc with hc2
              cases hc2
          · split at hc
            · cases hc
            · injection hc with hc2
              cases hc2
    · intro hc
      exact absurd hc hsz

/-- Claim C6 counterexample: one class and factor 1 give k = 1 = class
count; the spec says partitioning proceeds when the count is at least k,
but the code throws on the boundary. -/
theorem claim_C6_counterexample :
    exG1.nodes.length = 1 ∧ ((round ((1 : ℚ) / 1)).toNat = 1) ∧
      egraph_partition exG1 1 10 = .error .partitionTooFew := by
  refine ⟨rfl, by norm_num [round_eq], ?_⟩
  have hpp : partitionParents exG1.nodes = .ok [] := by decide
  unfold egraph_partition
  rw [hpp]
  dsimp only []
  rw [if_pos ?_]
  show (addPseudo exG1.nodes (rootList exG1.nodes [])).1.length ≤ (round ((1 : ℚ)/1)).toNat
  have h1 : (addPseudo exG1.nodes (rootList exG1.nodes [])).1.length = 1 := by decide
  have h2 : (round ((1 : ℚ) / 1)).toNat = 1 := by norm_num [round_eq]
  rw [h1, h2]

/-- Witness for the amended C6 at a concrete instance. -/
theorem claim_C6_witness :
    partitionParents exG1.nodes = .ok [] ∧
      (egraph_partition exG1 1 10 = .error .partitionTooFew ↔
        (addPseudo exG1.nodes (rootList exG1.nodes [])).1.length ≤
          (round ((1 : ℚ) / 1)).toNat) :=
  ⟨by decide, claim_C6_partition_threshold exG1 1 10 [] (by decide)⟩

theorem ppChildren_checks {nodes : List (ClassId × List (NodeId × Node))}
    {node_id : NodeId} :
    ∀ (cs : List ClassId) (m m2 : List (ClassId × List NodeId)),
      ppChildren nodes node_id cs m = .ok m2 →
      ∀ child ∈ cs, ∃ innerC, omLookup child nodes = some innerC ∧
        innerC.isEmpty = false := by
  intro cs
  induction cs with
  | nil =>
    intro m m2 _ child hch
    cases hch
  | cons c rest ih =>
    intro m m2 h child hch
    rw [ppChildren] at h
    split at h
    · cases h
    · rename_i innerC hl
      split at h
      · cases h
      · rename_i hne
        rcases List.mem_cons.mp hch with rfl | hch
        · exact ⟨innerC, hl, by simpa using hne⟩
        · exact ih _ _ h child hch

theorem ppInner_checks {nodes : List (ClassId × List (NodeId × Node))} :
    ∀ (l : List (NodeId × Node)) (m m2 : List (ClassId × List NodeId)),
      ppInner nodes l m = .ok m2 →
      ∀ p ∈ l, ∀ child ∈ p.2.children, ∃ innerC,
        omLookup child nodes = some innerC ∧ innerC.isEmpty = false := by
  intro l
  induction l with
  | nil =>
    intro m m2 _ p hp
    cases hp
  | cons q rest ih =>
    intro m m2 h p hp
    rw [ppInner] at h
    split at h
    · cases h
    · rename_i m1 hq
      rcases List.mem_cons.mp hp with rfl | hp
      · exact ppChildren_checks _ _ _ hq
      · exact ih _ _ h p hp

theorem partitionParents_checks {nodes : List (ClassId × List (NodeId × Node))}
    {parents : List (ClassId × List NodeId)}
    (hpp : partitionParents nodes = .ok parents) :
    ∀ kv ∈ nodes, ∀ p ∈ kv.2, ∀ child ∈ p.2.children, ∃ innerC,
      omLookup child nodes = some innerC ∧ innerC.isEmpty = false := by
  have main : ∀ (l : List (ClassId × List (NodeId × Node)))
      (m m2 : List (ClassId × List NodeId)), ppOuter nodes l m = .ok m2 →
      ∀ kv ∈ l, ∀ p ∈ kv.2, ∀ child ∈ p.2.children, ∃ innerC,
        omLookup child nodes = some innerC ∧ innerC.isEmpty = false := by
    intro l
    induction l with
    | nil =>
      intro m m2 _ kv hkv
      cases hkv
    | cons kv2 rest ih =>
      intro m m2 h kv hkv
      rw [ppOuter] at h
      split at h
      · cases h
      · rename_i m1 hin
        rcases List.mem_cons.mp hkv with rfl | hkv
        · exact ppInner_checks _ _ _ hin
        · exact ih _ _ h kv hkv
  exact main nodes [] parents hpp

/-- The entry class of the BFS is never a child of any node of the
(possibly pseudo-root augmented) node map. -/
theorem partition_root_not_child {g : EGraph} {parents : List (ClassId × List NodeId)}
    (hpp : partitionParents g.nodes = .ok parents)
    (hwfe : ∀ kv ∈ g.nodes, ∀ p ∈ kv.2, p.2.eclass = kv.1)
    (hnp : ∀ kv ∈ g.nodes, kv.1 ≠ PSEUDO_CLASS) :
    ∀ r rest2, (addPseudo g.nodes (rootList g.nodes parents)).2 = r :: rest2 →
      ∀ cid innerM, omLookup cid (addPseudo g.nodes (rootList g.nodes parents)).1
          = some innerM →
        ∀ q ∈ innerM, r ∉ q.2.children := by
  have hnochild : ∀ c, (∃ kv ∈ g.nodes, ∃ p ∈ kv.2, c ∈ p.2.children) →
      c ≠ PSEUDO_CLASS := by
    rintro c ⟨kv, hkv, p, hp, hc⟩ rfl
    obtain ⟨innerC, hl, _⟩ :=
      partitionParents_checks hpp kv hkv p hp PSEUDO_CLASS hc
    exact hnp (PSEUDO_CLASS, innerC) (omLookup_mem hl) rfl
  have hroot_ne : ∀ c ∈ rootList g.nodes parents, c ≠ PSEUDO_CLASS := by
    intro c hc
    obtain ⟨kv, hkv, p, hp, he, _⟩ := (rootList_mem g.nodes parents c).mp hc
    rw [← he, hwfe kv hkv p hp]
    exact hnp kv hkv
  intro r rest2 hr2 cid innerM hlm q hq hchild
  unfold addPseudo at hr2 hlm
  by_cases hlen : 1 < (rootList g.nodes parents).length
  · rw [if_pos hlen] at hr2 hlm
    dsimp only [] at hr2 hlm
    have hrP : r = PSEUDO_CLASS := by
      injection hr2 with h1 _
      exact h1.symm
    subst hrP
    rw [omLookup_omSet] at hlm
    by_cases hcp : cid = PSEUDO_CLASS
    · rw [if_pos hcp] at hlm
      cases hlm
      rcases List.mem_singleton.mp hq with rfl
      exact hroot_ne _ hchild rfl
    · rw [if_neg hcp] at hlm
      have hkv := omLookup_mem hlm
      exact hnochild PSEUDO_CLASS ⟨(cid, innerM), hkv, q, hq, hchild⟩ rfl
  · rw [if_neg hlen] at hr2 hlm
    dsimp only [] at hr2 hlm
    have hrmem : r ∈ rootList g.nodes parents := by
      rw [hr2]
      exact List.mem_cons_self _ _
    obtain ⟨_, _, _, _, _, hnone⟩ := (rootList_mem g.nodes parents r).mp hrmem
    have hkv := omLookup_mem hlm
    have := (partitionParents_keys hpp r).mpr ⟨(cid, innerM), hkv, q, hq, hchild⟩
    rw [hnone] at this
    cases this

theorem bfsEnqueue_inv (r : ClassId) (S : List ClassId) :
    ∀ (children : List ClassId) (queue visited : List ClassId),
      r ∉ children → queue.Nodup → (∀ c ∈ queue, c ∉ S) →
      (∀ c, (c ∈ queue ∨ c ∈ S) → (c ∈ visited ∨ c = r)) →
      (bfsEnqueue children (queue, visited)).1.Nodup ∧
        (∀ c ∈ (bfsEnqueue children (queue, visited)).1, c ∉ S) ∧
        (∀ c, (c ∈ (bfsEnqueue children (queue, visited)).1 ∨ c ∈ S) →
          (c ∈ (bfsEnqueue children (queue, visited)).2 ∨ c = r)) := by
  intro children
  induction children with
  | nil =>
    intro queue visited _ h2 h3 h4
    exact ⟨h2, h3, h4⟩
  | cons ch rest ih =>
    intro queue visited hr h2 h3 h4
    have hrr : r ∉ rest := fun hc => hr (List.mem_cons_of_mem _ hc)
    have hrch : r ≠ ch := fun hc => hr (hc ▸ List.mem_cons_self _ _)
    show (bfsEnqueue (ch :: rest) (queue, visited)).1.Nodup ∧ _
    unfold bfsEnqueue
    rw [List.foldl_cons]
    by_cases hv : ch ∈ visited
    · rw [if_pos hv]
      exact ih queue visited hrr h2 h3 h4
    · rw [if_neg hv]
      have hchq : ch ∉ queue := by
        intro hc
        rcases h4 ch (Or.inl hc) with hc2 | hc2
        · exact hv hc2
        · exact hrch hc2.symm
      have hchS : ch ∉ S := by
        intro hc
        rcases h4 ch (Or.inr hc) with hc2 | hc2
        · exact hv hc2
        · exact hrch hc2.symm
      refine ih (queue ++ [ch]) (visited ++ [ch]) hrr ?_ ?_ ?_
      · rw [List.nodup_append]
        exact ⟨h2, List.nodup_singleton ch, by
          intro x hx hx2
          rcases List.mem_singleton.mp hx2 with rfl
          exact hchq hx⟩
      · intro c hc
        rcases List.mem_append.mp hc with hc | hc
        · exact h3 c hc
        · rcases List.mem_singleton.mp hc with rfl
          exact hchS
      · intro c hc
        rcases hc with hc | hc
        · rcases List.mem_append.mp hc with hc | hc
          · rcases h4 c (Or.inl hc) with hc2 | hc2
            · exact Or.inl (List.mem_append_left _ hc2)
            · exact Or.inr hc2
          · rcases List.mem_singleton.mp hc with rfl
            exact Or.inl (List.mem_append_right _ (List.mem_singleton.mpr rfl))
        · rcases h4 c (Or.inr hc) with hc2 | hc2
          · exact Or.inl (List.mem_append_left _ hc2)
          · exact Or.inr hc2

theorem bfsClassNodes_inv {mnodes : List (ClassId × List (NodeId × Node))} {r : ClassId}
    (hr : ∀ cid innerM, omLookup cid mnodes = some innerM →
      ∀ q ∈ innerM, r ∉ q.2.children) (S : List ClassId) :
    ∀ (l : List NodeId) (count : ℕ) (queue visited : List ClassId)
      (out : ℕ × List ClassId × List ClassId),
      queue.Nodup → (∀ c ∈ queue, c ∉ S) →
      (∀ c, (c ∈ queue ∨ c ∈ S) → (c ∈ visited ∨ c = r)) →
      bfsClassNodes mnodes l count queue visited = .ok out →
      out.2.1.Nodup ∧ (∀ c ∈ out.2.1, c ∉ S) ∧
        (∀ c, (c ∈ out.2.1 ∨ c ∈ S) → (c ∈ out.2.2 ∨ c = r)) := by
  intro l
  induction l with
  | nil =>
    intro count queue visited out h2 h3 h4 h
    cases h
    exact ⟨h2, h3, h4⟩
  | cons nid rest ih =>
    intro count queue visited out h2 h3 h4 h
    rw [bfsClassNodes] at h
    split at h
    · cases h
    · rename_i innerM hlm
      split at h
      · cases h
      · rename_i node hln
        have hrch : r ∉ node.children := hr _ _ hlm (nid, node) (omLookup_mem hln)
        obtain ⟨g2, g3, g4⟩ := bfsEnqueue_inv r S node.children queue visited hrch h2 h3 h4
        exact ih _ _ _ _ g2 g3 g4 h

theorem bfsLoop_nodup (ec : List (ClassId × List NodeId))
    (mnodes : List (ClassId × List (NodeId × Node))) (num : ℚ) (pnum : ℕ) (r : ClassId)
    (hr : ∀ cid innerM, omLookup cid mnodes = some innerM →
      ∀ q ∈ innerM, r ∉ q.2.children) :
    ∀ (fuel : Nat) (queue visited : List ClassId) (sgs : List (List ClassId))
      (cur : List ClassId) (count : ℕ) (res : List (List ClassId) × List ClassId),
      queue.Nodup →
      (∀ c ∈ queue, c ∉ sgs.flatten ++ cur) →
      (∀ c, (c ∈ queue ∨ c ∈ sgs.flatten ++ cur) → (c ∈ visited ∨ c = r)) →
      (sgs.flatten ++ cur).Nodup →
      bfsLoop ec mnodes num pnum fuel queue visited sgs cur count = .ok res →
      (res.1.flatten ++ res.2).Nodup := by
  intro fuel
  induction fuel with
  | zero =>
    intro queue visited sgs cur count res _ _ _ h1 h
    cases queue with
    | nil =>
      cases h
      exact h1
    | cons a q => cases h
  | succ f ih =>
    intro queue visited sgs cur count res h2 h3 h4 h1 h
    cases queue with
    | nil =>
      cases h
      exact h1
    | cons class_id q =>
      have hhead : class_id ∉ sgs.flatten ++ cur := h3 class_id (List.mem_cons_self _ _)
      have hcurm : class_id ∉ cur := fun hc => hhead (List.mem_append_right _ hc)
      have hcur2 : osInsert cur class_id = cur ++ [class_id] := by
        unfold osInsert
        rw [if_neg hcurm]
      have hS2 : (sgs.flatten ++ (cur ++ [class_id])).Nodup := by
        rw [← List.append_assoc, List.nodup_append]
        exact ⟨h1, List.nodup_singleton _, by
          intro x hx hx2
          rcases List.mem_singleton.mp hx2 with rfl
          exact hhead hx⟩
      have hq2 : q.Nodup := (List.nodup_cons.mp h2).2
      have hq3 : ∀ c ∈ q, c ∉ sgs.flatten ++ (cur ++ [class_id]) := by
        intro c hc hc2
        rw [← List.append_assoc] at hc2
        rcases List.mem_append.mp hc2 with hc2 | hc2
        · exact h3 c (List.mem_cons_of_mem _ hc) hc2
        · rcases List.mem_singleton.mp hc2 with rfl
          exact (List.nodup_cons.mp h2).1 hc
      have hq4 : ∀ c, (c ∈ q ∨ c ∈ sgs.flatten ++ (cur ++ [class_id])) →
          (c ∈ visited ∨ c = r) := by
        intro c hc
        rcases hc with hc | hc
        · exact h4 c (Or.inl (List.mem_cons_of_mem _ hc))
        · rw [← List.append_assoc] at hc
          rcases List.mem_append.mp hc with hc | hc
          · exact h4 c (Or.inr hc)
          · rcases List.mem_singleton.mp hc with rfl
            exact h4 c (Or.inl (List.mem_cons_self _ _))
      rw [bfsLoop] at h
      dsimp only [] at h
      rw [hcur2] at h
      split at h
      · split at h
        · cases h
          show ((sgs ++ [cur ++ [class_id]]).flatten ++ []).Nodup
          rw [List.flatten_append, List.append_nil]
          simpa using hS2
        · split at h
          · cases h
          · rename_i class_nodes hec
            split at h
            · cases h
            · rename_i count4 queue4 visited4 hcn
              obtain ⟨g2, g3, g4⟩ := bfsClassNodes_inv hr (sgs.flatten ++ (cur ++ [class_id]))
                class_nodes 0 q visited (count4, queue4, visited4) hq2 hq3 hq4 hcn
              refine ih queue4 visited4 (sgs ++ [cur ++ [class_id]]) [] count4 res g2 ?_ ?_ ?_ ?_
              · intro c hc
                rw [List.flatten_append, List.append_nil]
                intro hc2
                exact g3 c hc (by simpa using hc2)
              · intro c hc
                rw [List.flatten_append, List.append_nil] at hc
                refine g4 c ?_
                rcases hc with hc | hc
                · exact Or.inl hc
                · exact Or.inr (by simpa using hc)
              · rw [List.flatten_append, List.append_nil]
                simpa using hS2
              · exact h
      · split at h
        · cases h
        · rename_i class_nodes hec
          split at h
          · cases h
          · rename_i count4 queue4 visited4 hcn
            obtain ⟨g2, g3, g4⟩ := bfsClassNodes_inv hr (sgs.flatten ++ (cur ++ [class_id]))
              class_nodes count q visited (count4, queue4, visited4) hq2 hq3 hq4 hcn
            exact ih queue4 visited4 sgs (cur ++ [class_id]) count4 res g2 g3 g4 hS2 h

theorem pairwise_disjoint_of_flatten_nodup {L : List (List ClassId)}
    (h : L.flatten.Nodup) : List.Pairwise List.Disjoint L := by
  induction L with
  | nil => exact List.Pairwise.nil
  | cons l rest ih =>
    rw [List.flatten_cons, List.nodup_append] at h
    obtain ⟨h1, h2, h3⟩ := h
    refine List.Pairwise.cons ?_ (ih h2)
    intro l2 hl2 x hx hx2
    exact h3 hx (List.mem_flatten.mpr ⟨l2, hl2, hx2⟩)

/-- Claim C5: when egraph_partition returns buckets, every class lands in
exactly one bucket (the flattened bucket list has no duplicates, buckets
are pairwise disjoint) and the union of the buckets is exactly the class
set of the description. -/
theorem claim_C5_disjoint_cover (g : EGraph) (factor : ℚ) (fuel : Nat)
    (hwfe : ∀ kv ∈ g.nodes, ∀ p ∈ kv.2, p.2.eclass = kv.1)
    (hnp : ∀ kv ∈ g.nodes, kv.1 ≠ PSEUDO_CLASS)
    (sgs : List (List ClassId)) (h : egraph_partition g factor fuel = .ok sgs) :
    sgs.flatten.Nodup ∧ List.Pairwise List.Disjoint sgs ∧
      (∀ c, c ∈ sgs.flatten ↔ c ∈ omKeys (eclassCollect g.nodes)) := by
  unfold egraph_partition at h
  split at h
  · cases h
  · rename_i parents hpp
    dsimp only [] at h
    split at h
    · cases h
    · rename_i hsz
      split at h
      · cases h
      · rename_i r rest2 hr2
        split at h
        · cases h
        · rename_i sgsL cur hbfs
          have hrnc := partition_root_not_child hpp hwfe hnp r rest2 hr2
          have hmain := bfsLoop_nodup _ _ _ _ r hrnc fuel [r] [] [] [] 0 (sgsL, cur)
            (List.nodup_singleton r)
            (by intro c _ hc2; simp at hc2)
            (by
              intro c hc
              rcases hc with hc | hc
              · exact Or.inr (List.mem_singleton.mp hc)
              · simp at hc)
            (by simp)
            hbfs
    
          by_cases hce : cur.isEmpty = true
          · rw [if_pos hce] at h
            have hndL : sgsL.flatten.Nodup := (List.nodup_append.mp hmain).1
            split at h
            · rename_i hassert
              cases h
              rw [Bool.and_eq_true, List.all_eq_true, List.all_eq_true] at hassert
              refine ⟨hndL, pairwise_disjoint_of_flatten_nodup hndL, ?_⟩
              intro c
              exact ⟨fun hc => of_decide_eq_true (hassert.1 c hc),
                fun hc => of_decide_eq_true (hassert.2 c hc)⟩
            · cases h
          · rw [if_neg hce] at h
            have hndL : (sgsL ++ [cur]).flatten.Nodup := by
              rw [List.flatten_append]
              simpa using hmain
            split at h
            · rename_i hassert
              cases h
              rw [Bool.and_eq_true, List.all_eq_true, List.all_eq_true] at hassert
              refine ⟨hndL, pairwise_disjoint_of_flatten_nodup hndL, ?_⟩
              intro c
              exact ⟨fun hc => of_decide_eq_true (hassert.1 c hc),
                fun hc => of_decide_eq_true (hassert.2 c hc)⟩
            · cases h

/-- A three-class chain whose partition with factor 1/2 succeeds. -/
def exG4 : EGraph :=
  { nodes := [(0, [((0, 0), { op := 0, children := [1], eclass := 0, cost := 1 })]),
              (1, [((1, 0), { op := 0, children := [2], eclass := 1, cost := 1 })]),
              (2, [((2, 0), mkLeaf 2 1)])],
    root_eclasses := [0] }

/-- Witness for C5 at a concrete instance. -/
theorem claim_C5_witness :
    (∀ kv ∈ exG4.nodes, ∀ p ∈ kv.2, p.2.eclass = kv.1) ∧
    (∀ kv ∈ exG4.nodes, kv.1 ≠ PSEUDO_CLASS) ∧
    egraph_partition exG4 (1 / 2) 10 = .ok [[0, 1, 2]] ∧
    ([[0, 1, 2]] : List (List ClassId)).flatten.Nodup ∧
      List.Pairwise List.Disjoint ([[0, 1, 2]] : List (List ClassId)) ∧
      (∀ c, c ∈ ([[0, 1, 2]] : List (List ClassId)).flatten ↔
        c ∈ omKeys (eclassCollect exG4.nodes)) := by
  have hwfe : ∀ kv ∈ exG4.nodes, ∀ p ∈ kv.2, p.2.eclass = kv.1 := by decide
  have hnp : ∀ kv ∈ exG4.nodes, kv.1 ≠ PSEUDO_CLASS := by decide
  have hok : egraph_partition exG4 (1 / 2) 10 = .ok [[0, 1, 2]] := by
    norm_num [egraph_partition, partitionParents, ppOuter, ppInner, ppChildren,
      rootList, addPseudo, pseudoRootNode, eclassCollect, bfsLoop, bfsClassNodes,
      bfsEnqueue, osInsert, omLookup, omSet, omKeys, bucketAdd, exG4, mkLeaf,
      round_eq, PSEUDO_CLASS, show Int.toNat 2 = 2 from rfl]
  obtain ⟨h1, h2, h3⟩ := claim_C5_disjoint_cover exG4 (1 / 2) 10 hwfe hnp [[0, 1, 2]] hok
  exact ⟨hwfe, hnp, hok, h1, h2, h3⟩

/-! remove_redundant_nodes (main.cpp): group each class's nodes by the
ordered (child, multiplicity) frequency vector of their children and delete
every non-first member of each group. -/

/-- The ordered frequency vector of a children list (std::map iteration
gives ascending keys). -/
def freqVec (children : List ClassId) : List (ClassId × Nat) :=
  (dedupAdj (sortNat children)).map (fun c => (c, children.count c))

/-- Group the node ids of one class by their frequency vector, with the
node lookups of the source (and their throws). -/
def groupNodes (nodes : List (ClassId × List (NodeId × Node))) :
    List NodeId → List (List (ClassId × Nat) × List NodeId) →
      Except CheckErr (List (List (ClassId × Nat) × List NodeId))
  | [], acc => .ok acc
  | nid :: rest, acc =>
    match omLookup nid.1 nodes with
    | none => .error (.missingNode nid)
    | some inner =>
      match omLookup nid inner with
      | none => .error (.missingNode nid)
      | some node => groupNodes nodes rest (bucketAdd acc (freqVec node.children) nid)

/-- Erase each listed node id from its class's inner map. -/
def deleteIds :
    List (ClassId × List (NodeId × Node)) → List NodeId →
      Except CheckErr (List (ClassId × List (NodeId × Node)))
  | nodes, [] => .ok nodes
  | nodes, nid :: rest =>
    match omLookup nid.1 nodes with
    | none => .error (.missingNode nid)
    | some inner =>
      match omLookup nid inner with
      | none => .error (.missingNode nid)
      | some _ => deleteIds (omSet nodes nid.1 (omErase inner nid)) rest

/-- Delete every non-first member of every group. -/
def deleteGroups :
    List (ClassId × List (NodeId × Node)) → List (List (ClassId × Nat) × List NodeId) →
      Except CheckErr (List (ClassId × List (NodeId × Node)))
  | nodes, [] => .ok nodes
  | nodes, grp :: rest =>
    match deleteIds nodes (grp.2.drop 1) with
    | .error e => .error e
    | .ok nodes2 => deleteGroups nodes2 rest

/-- Process one class of eclass_collect. -/
def removeClass (nodes : List (ClassId × List (NodeId × Node))) (ids : List NodeId) :
    Except CheckErr (List (ClassId × List (NodeId × Node))) :=
  match groupNodes nodes ids [] with
  | .error e => .error e
  | .ok grouped => deleteGroups nodes grouped

def removeFold :
    List (ClassId × List (NodeId × Node)) → List (ClassId × List NodeId) →
      Except CheckErr (List (ClassId × List (NodeId × Node)))
  | nodes, [] => .ok nodes
  | nodes, cls :: rest =>
    match removeClass nodes cls.2 with
    | .error e => .error e
    | .ok nodes2 => removeFold nodes2 rest

/-- remove_redundant_nodes: the cost_func argument of the source is unused
and omitted. -/
def remove_redundant_nodes (g : EGraph) : Except CheckErr EGraph :=
  match removeFold g.nodes (eclassCollect g.nodes) with
  | .error e => .error e
  | .ok nodes2 => .ok { nodes := nodes2, root_eclasses := g.root_eclasses }

/-- The specified behaviour: keep an entry exactly when no earlier entry of
the class shares its frequency vector. -/
def keepFirstBySig (seen : List (List (ClassId × Nat))) :
    List (NodeId × Node) → List (NodeId × Node)
  | [] => []
  | p :: rest =>
    if freqVec p.2.children ∈ seen then keepFirstBySig seen rest
    else p :: keepFirstBySig (freqVec p.2.children :: seen) rest

theorem omLookup_of_mem_nodup {α β : Type} [DecidableEq α] {m : List (α × β)}
    (hnd : (omKeys m).Nodup) {k : α} {v : β} (hm : (k, v) ∈ m) :
    omLookup k m = some v := by
  induction m with
  | nil => cases hm
  | cons q rest ih =>
    obtain ⟨a, b⟩ := q
    rcases List.mem_cons.mp hm with hq | hq
    · cases hq
      simp [omLookup]
    · have ha : a ∉ omKeys rest := (List.nodup_cons.mp hnd).1
      have hka : k ≠ a := by
        rintro rfl
        exact ha (List.mem_map.mpr ⟨(k, v), hq, rfl⟩)
      rw [omLookup, if_neg hka]
      exact ih (List.nodup_cons.mp hnd).2 hq

theorem mem_value_unique {α β : Type} [DecidableEq α] {m : List (α × β)}
    (hnd : (omKeys m).Nodup) {k : α} {v1 v2 : β} (h1 : (k, v1) ∈ m) (h2 : (k, v2) ∈ m) :
    v1 = v2 := by
  have e1 := omLookup_of_mem_nodup hnd h1
  have e2 := omLookup_of_mem_nodup hnd h2
  rw [e1] at e2
  exact Option.some.inj e2

theorem omSet_self {α β : Type} [DecidableEq α] :
    ∀ {m : List (α × β)} {k : α} {v : β}, omLookup k m = some v → omSet m k v = m := by
  intro m
  induction m with
  | nil =>
    intro k v h
    cases h
  | cons q rest ih =>
    intro k v h
    obtain ⟨a, b⟩ := q
    rw [omLookup] at h
    unfold omSet
    by_cases hk : k = a
    · rw [if_pos hk] at h ⊢
      rw [Option.some.inj h]
    · rw [if_neg hk] at h ⊢
      rw [ih h]

theorem omSet_omSet {α β : Type} [DecidableEq α] :
    ∀ (m : List (α × β)) (k : α) (a b : β), omSet (omSet m k a) k b = omSet m k b := by
  intro m
  induction m with
  | nil =>
    intro k a b
    simp [omSet]
  | cons q rest ih =>
    intro k a b
    obtain ⟨c, d⟩ := q
    by_cases hk : k = c
    · have h1 : omSet ((c, d) :: rest) k a = (c, a) :: rest := by
        rw [omSet, if_pos hk]
      have h2 : omSet ((c, d) :: rest) k b = (c, b) :: rest := by
        rw [omSet, if_pos hk]
      have h3 : omSet ((c, a) :: rest) k b = (c, b) :: rest := by
        rw [omSet, if_pos hk]
      rw [h1, h3, h2]
    · have h1 : omSet ((c, d) :: rest) k a = (c, d) :: omSet rest k a := by
        rw [omSet, if_neg hk]
      have h2 : omSet ((c, d) :: rest) k b = (c, d) :: omSet rest k b := by
        rw [omSet, if_neg hk]
      have h3 : omSet ((c, d) :: omSet rest k a) k b =
          (c, d) :: omSet (omSet rest k a) k b := by
        rw [omSet, if_neg hk]
      rw [h1, h3, ih, h2]

theorem omKeys_omErase_mem {α β : Type} [DecidableEq α] {m : List (α × β)} {e k : α}
    (he : e ∈ omKeys m) (hne : e ≠ k) : e ∈ omKeys (omErase m k) := by
  obtain ⟨p, hp, rfl⟩ := List.mem_map.mp he
  refine List.mem_map.mpr ⟨p, ?_, rfl⟩
  unfold omErase
  rw [List.mem_filter]
  exact ⟨hp, by simpa using hne⟩

theorem bucketAdd_lookup {α β : Type} [DecidableEq α] :
    ∀ (m : List (α × List β)) (k : α) (x : β) (s : α),
      omLookup s (bucketAdd m k x) =
        if s = k then some ((omLookup k m).getD [] ++ [x]) else omLookup s m := by
  intro m
  induction m with
  | nil =>
    intro k x s
    by_cases hs : s = k <;> simp [bucketAdd, omLookup, hs]
  | cons q rest ih =>
    intro k x s
    obtain ⟨a, l⟩ := q
    by_cases hk : k = a
    · subst hk
      by_cases hs : s = k <;> simp [bucketAdd, omLookup, hs]
    · by_cases hs : s = a
      · subst hs
        simp [bucketAdd, omLookup, hk, show ¬ (s = k) from fun h => hk h.symm]
      · by_cases hsk : s = k <;>
          simp [bucketAdd, omLookup, hk, hs, hsk, ih,
            show ¬ (k = a) from hk]

theorem omKeys_bucketAdd {α β : Type} [DecidableEq α] :
    ∀ (m : List (α × List β)) (k : α) (x : β),
      omKeys (bucketAdd m k x) = if k ∈ omKeys m then omKeys m else omKeys m ++ [k] := by
  intro m
  induction m with
  | nil =>
    intro k x
    simp [bucketAdd, omKeys]
  | cons q rest ih =>
    intro k x
    obtain ⟨a, l⟩ := q
    unfold bucketAdd
    by_cases hk : k = a
    · subst hk
      rw [if_pos rfl, if_pos (by exact List.mem_cons_self _ _)]
      rfl
    · rw [if_neg hk]
      show omKeys ((a, l) :: bucketAdd rest k x) = _
      have h1 : omKeys ((a, l) :: bucketAdd rest k x) = a :: omKeys (bucketAdd rest k x) := rfl
      have h2 : omKeys ((a, l) :: rest) = a :: omKeys rest := rfl
      rw [h1, h2, ih]
      by_cases hm : k ∈ omKeys rest
      · rw [if_pos hm, if_pos (List.mem_cons_of_mem _ hm)]
      · rw [if_neg hm, if_neg ?_]
        · rfl
        · intro hc
          rcases List.mem_cons.mp hc with hc | hc
          · exact hk hc
          · exact hm hc

theorem bucketAdd_nonempty {α β : Type} [DecidableEq α] {m : List (α × List β)}
    (h : ∀ g ∈ m, g.2 ≠ []) (k : α) (x : β) : ∀ g ∈ bucketAdd m k x, g.2 ≠ [] := by
  induction m with
  | nil =>
    intro g hg
    rcases List.mem_singleton.mp hg with rfl
    simp
  | cons q rest ih =>
    intro g hg
    obtain ⟨a, l⟩ := q
    unfold bucketAdd at hg
    by_cases hk : k = a
    · rw [if_pos hk] at hg
      rcases List.mem_cons.mp hg with rfl | hg
      · simp
      · exact h g (List.mem_cons_of_mem _ hg)
    · rw [if_neg hk] at hg
      rcases List.mem_cons.mp hg with rfl | hg
      · exact h (a, l) (List.mem_cons_self _ _)
      · exact ih (fun g2 hg2 => h g2 (List.mem_cons_of_mem _ hg2)) g hg

theorem flatten_nodup_of {L : List (List NodeId)} (h1 : ∀ x ∈ L, x.Nodup)
    (h2 : List.Pairwise List.Disjoint L) : L.flatten.Nodup := by
  induction L with
  | nil => simp
  | cons l rest ih =>
    rw [List.flatten_cons, List.nodup_append]
    obtain ⟨hd, hp⟩ := List.pairwise_cons.mp h2
    refine ⟨h1 l (List.mem_cons_self _ _), ih (fun x hx => h1 x (List.mem_cons_of_mem _ hx)) hp, ?_⟩
    intro x hx hx2
    obtain ⟨l2, hl2, hxl2⟩ := List.mem_flatten.mp hx2
    exact hd l2 hl2 hx hxl2

/-- The pure grouping fold underlying groupNodes. -/
def groupFold (acc : List (List (ClassId × Nat) × List NodeId))
    (l : List (NodeId × Node)) : List (List (ClassId × Nat) × List NodeId) :=
  l.foldl (fun acc p => bucketAdd acc (freqVec p.2.children) p.1) acc

theorem groupNodes_eq {nodes : List (ClassId × List (NodeId × Node))}
    {inner0 : List (NodeId × Node)} :
    ∀ (l : List (NodeId × Node)) (acc : List (List (ClassId × Nat) × List NodeId)),
      (∀ p ∈ l, omLookup p.1.1 nodes = some inner0 ∧ omLookup p.1 inner0 = some p.2) →
      groupNodes nodes (l.map Prod.fst) acc = .ok (groupFold acc l) := by
  intro l
  induction l with
  | nil =>
    intro acc _
    rfl
  | cons p rest ih =>
    intro acc hl
    have h1 := (hl p (List.mem_cons_self _ _)).1
    have h2 := (hl p (List.mem_cons_self _ _)).2
    rw [List.map_cons]
    show groupNodes nodes (p.1 :: rest.map Prod.fst) acc = _
    rw [groupNodes]
    simp only [h1, h2]
    exact ih _ (fun q hq => hl q (List.mem_cons_of_mem _ hq))

theorem groupFold_cons (acc : List (List (ClassId × Nat) × List NodeId))
    (p : NodeId × Node) (rest : List (NodeId × Node)) :
    groupFold acc (p :: rest) =
      groupFold (bucketAdd acc (freqVec p.2.children) p.1) rest := rfl

theorem groupFold_get :
    ∀ (l : List (NodeId × Node)) (acc : List (List (ClassId × Nat) × List NodeId))
      (s : List (ClassId × Nat)),
      (omLookup s (groupFold acc l)).getD [] =
        (omLookup s acc).getD [] ++
          (l.filter (fun p => decide (freqVec p.2.children = s))).map (fun p => p.1) := by
  intro l
  induction l with
  | nil =>
    intro acc s
    simp [groupFold]
  | cons p rest ih =>
    intro acc s
    rw [groupFold_cons, ih, bucketAdd_lookup, List.filter_cons]
    by_cases hs : freqVec p.2.children = s
    · rw [if_pos hs.symm, if_pos (by simpa using hs), hs, List.map_cons,
        Option.getD_some, List.append_assoc]
      rfl
    · rw [if_neg (fun hc => hs hc.symm), if_neg (by simpa using hs)]

theorem groupFold_keys_mem :
    ∀ (l : List (NodeId × Node)) (acc : List (List (ClassId × Nat) × List NodeId))
      (s : List (ClassId × Nat)),
      s ∈ omKeys (groupFold acc l) ↔
        (s ∈ omKeys acc ∨ ∃ p ∈ l, freqVec p.2.children = s) := by
  intro l
  induction l with
  | nil =>
    intro acc s
    simp [groupFold]
  | cons p rest ih =>
    intro acc s
    rw [groupFold_cons, ih]
    have hk : s ∈ omKeys (bucketAdd acc (freqVec p.2.children) p.1) ↔
        (s ∈ omKeys acc ∨ s = freqVec p.2.children) := by
      rw [omKeys_bucketAdd]
      by_cases hm : freqVec p.2.children ∈ omKeys acc
      · rw [if_pos hm]
        constructor
        · exact Or.inl
        · rintro (h | rfl)
          · exact h
          · exact hm
      · rw [if_neg hm]
        constructor
        · intro h
          rcases List.mem_append.mp h with h | h
          · exact Or.inl h
          · exact Or.inr (List.mem_singleton.mp h)
        · rintro (h | rfl)
          · exact List.mem_append_left _ h
          · exact List.mem_append_right _ (List.mem_singleton.mpr rfl)
    rw [hk]
    constructor
    · rintro ((h | h) | ⟨q, hq, hqs⟩)
      · exact Or.inl h
      · exact Or.inr ⟨p, List.mem_cons_self _ _, h.symm⟩
      · exact Or.inr ⟨q, List.mem_cons_of_mem _ hq, hqs⟩
    · rintro (h | ⟨q, hq, hqs⟩)
      · exact Or.inl (Or.inl h)
      · rcases List.mem_cons.mp hq with rfl | hq
        · exact Or.inl (Or.inr hqs.symm)
        · exact Or.inr ⟨q, hq, hqs⟩

theorem groupFold_keys_nodup :
    ∀ (l : List (NodeId × Node)) (acc : List (List (ClassId × Nat) × List NodeId)),
      (omKeys acc).Nodup → (omKeys (groupFold acc l)).Nodup := by
  intro l
  induction l with
  | nil =>
    intro acc h
    exact h
  | cons p rest ih =>
    intro acc h
    rw [groupFold_cons]
    refine ih _ ?_
    rw [omKeys_bucketAdd]
    by_cases hm : freqVec p.2.children ∈ omKeys acc
    · rw [if_pos hm]
      exact h
    · rw [if_neg hm, List.nodup_append]
      exact ⟨h, List.nodup_singleton _, by
        intro x hx hx2
        rcases List.mem_singleton.mp hx2 with rfl
        exact hm hx⟩

theorem groupFold_nonempty :
    ∀ (l : List (NodeId × Node)) (acc : List (List (ClassId × Nat) × List NodeId)),
      (∀ g ∈ acc, g.2 ≠ []) → ∀ g ∈ groupFold acc l, g.2 ≠ [] := by
  intro l
  induction l with
  | nil =>
    intro acc h
    exact h
  | cons p rest ih =>
    intro acc h
    rw [groupFold_cons]
    exact ih _ (bucketAdd_nonempty h _ _)

theorem deleteIds_ok :
    ∀ (ds : List NodeId) (nodes : List (ClassId × List (NodeId × Node))) (cid : ClassId)
      (inner : List (NodeId × Node)),
      omLookup cid nodes = some inner →
      (∀ d ∈ ds, d.1 = cid ∧ d ∈ omKeys inner) → ds.Nodup →
      deleteIds nodes ds = .ok (omSet nodes cid
        (inner.filter (fun p => decide (p.1 ∉ ds)))) := by
  intro ds
  induction ds with
  | nil =>
    intro nodes cid inner hl _ _
    show Except.ok nodes = _
    rw [show inner.filter (fun p => decide (p.1 ∉ ([] : List NodeId))) = inner from
      List.filter_eq_self.mpr (by intro p _; simp), omSet_self hl]
  | cons d rest ih =>
    intro nodes cid inner hl hds hnd
    obtain ⟨hd1, hd2⟩ := hds d (List.mem_cons_self _ _)
    have hsome : (omLookup d inner).isSome := omLookup_isSome_of_mem_keys hd2
    obtain ⟨v, hv⟩ : ∃ v, omLookup d inner = some v := by
      cases hx : omLookup d inner with
      | none =>
        rw [hx] at hsome
        cases hsome
      | some v => exact ⟨v, rfl⟩
    rw [deleteIds]
    simp only [hd1, hl, hv]
    have hlook2 : omLookup cid (omSet nodes cid (omErase inner d)) =
        some (omErase inner d) := by
      rw [omLookup_omSet, if_pos rfl]
    rw [ih _ cid (omErase inner d) hlook2 ?_ (List.nodup_cons.mp hnd).2]
    · rw [omSet_omSet]
      refine congrArg (fun x => Except.ok (omSet nodes cid x)) ?_
      unfold omErase
      rw [List.filter_filter]
      refine List.filter_congr ?_
      intro p _
      simp [List.mem_cons, not_or, Bool.and_comm]
    · intro e he
      obtain ⟨he1, he2⟩ := hds e (List.mem_cons_of_mem _ he)
      refine ⟨he1, omKeys_omErase_mem he2 ?_⟩
      rintro rfl
      exact (List.nodup_cons.mp hnd).1 he

theorem deleteGroups_ok :
    ∀ (grps : List (List (ClassId × Nat) × List NodeId))
      (nodes : List (ClassId × List (NodeId × Node))) (cid : ClassId)
      (inner : List (NodeId × Node)),
      omLookup cid nodes = some inner →
      (∀ grp ∈ grps, ∀ d ∈ grp.2.drop 1, d.1 = cid ∧ d ∈ omKeys inner) →
      ((grps.map (fun grp => grp.2.drop 1)).flatten).Nodup →
      deleteGroups nodes grps = .ok (omSet nodes cid
        (inner.filter (fun p =>
          decide (p.1 ∉ (grps.map (fun grp => grp.2.drop 1)).flatten)))) := by
  intro grps
  induction grps with
  | nil =>
    intro nodes cid inner hl _ _
    show Except.ok nodes = _
    rw [show inner.filter (fun p =>
        decide (p.1 ∉ (([] : List (List (ClassId × Nat) × List NodeId)).map
          (fun grp => grp.2.drop 1)).flatten)) = inner from
      List.filter_eq_self.mpr (by intro p _; simp), omSet_self hl]
  | cons grp rest ih =>
    intro nodes cid inner hl hgrps hnd
    rw [List.map_cons, List.flatten_cons] at hnd
    obtain ⟨hnd1, hnd2, hdisj⟩ := List.nodup_append.mp hnd
    have hts := deleteIds_ok (grp.2.drop 1) nodes cid inner hl
      (hgrps grp (List.mem_cons_self _ _)) hnd1
    rw [deleteGroups]
    simp only [hts]
    have hlook2 : omLookup cid (omSet nodes cid
        (inner.filter (fun p => decide (p.1 ∉ grp.2.drop 1)))) =
        some (inner.filter (fun p => decide (p.1 ∉ grp.2.drop 1))) := by
      rw [omLookup_omSet, if_pos rfl]
    rw [ih _ cid _ hlook2 ?_ hnd2]
    · rw [omSet_omSet]
      refine congrArg (fun x => Except.ok (omSet nodes cid x)) ?_
      rw [List.filter_filter]
      refine List.filter_congr ?_
      intro p _
      by_cases h1 : p.1 ∈ grp.2.tail <;>
        by_cases h2 : p.1 ∈ (rest.map (fun grp => List.drop 1 grp.2)).flatten <;>
        simp [h1, h2, List.mem_append, List.drop_one]
    · intro grp2 hgrp2 e he
      obtain ⟨he1, he2⟩ := hgrps grp2 (List.mem_cons_of_mem _ hgrp2) e he
      refine ⟨he1, ?_⟩
      obtain ⟨q, hq, rfl⟩ := List.mem_map.mp he2
      refine List.mem_map.mpr ⟨q, ?_, rfl⟩
      rw [List.mem_filter]
      refine ⟨hq, ?_⟩
      simp only [decide_eq_true_eq]
      intro hc
      exact hdisj hc (List.mem_flatten.mpr ⟨grp2.2.drop 1,
        List.mem_map.mpr ⟨grp2, hgrp2, rfl⟩, he⟩)

theorem filter_del_eq_keepFirst :
    ∀ (l : List (NodeId × Node)) (acc : List (List (ClassId × Nat) × List NodeId))
      (seen : List (List (ClassId × Nat))),
      (omKeys acc).Nodup →
      (∀ grp ∈ acc, grp.2 ≠ []) →
      (∀ s, s ∈ omKeys acc ↔ s ∈ seen) →
      (∀ p ∈ l, ∀ grp ∈ acc, p.1 ∉ grp.2) →
      (l.map Prod.fst).Nodup →
      l.filter (fun p => decide (p.1 ∉
          ((groupFold acc l).map (fun grp => grp.2.drop 1)).flatten))
        = keepFirstBySig seen l := by
  intro l
  induction l with
  | nil =>
    intro acc seen _ _ _ _ _
    rfl
  | cons q rest ih =>
    intro acc seen hknd hne hseen hfresh hnd
    have hG := groupFold_cons acc q rest
    have hkeysnd : (omKeys (groupFold acc (q :: rest))).Nodup :=
      groupFold_keys_nodup _ _ hknd
    have hval : ∀ grp ∈ groupFold acc (q :: rest),
        grp.2 = (omLookup grp.1 acc).getD [] ++
          ((q :: rest).filter
            (fun p => decide (freqVec p.2.children = grp.1))).map (fun p => p.1) := by
      intro grp hg
      have hlk : omLookup grp.1 (groupFold acc (q :: rest)) = some grp.2 :=
        omLookup_of_mem_nodup hkeysnd (by exact hg)
      have hgd := groupFold_get (q :: rest) acc grp.1
      rw [hlk] at hgd
      simpa using hgd
    have hq_fresh_acc : ∀ grp ∈ acc, q.1 ∉ grp.2 := hfresh q (List.mem_cons_self _ _)
    have hnd' : (q.1 :: rest.map Prod.fst).Nodup := by
      rw [List.map_cons] at hnd
      exact hnd
    have hq_rest : q.1 ∉ rest.map Prod.fst := (List.nodup_cons.mp hnd').1
    have hnd_rest : (rest.map Prod.fst).Nodup := (List.nodup_cons.mp hnd').2
    have K1 : q.1 ∈ ((groupFold acc (q :: rest)).map (fun grp => grp.2.drop 1)).flatten
        ↔ freqVec q.2.children ∈ omKeys acc := by
      constructor
      · intro hm
        obtain ⟨tl, htl, hqtl⟩ := List.mem_flatten.mp hm
        obtain ⟨grp, hgrp, rfl⟩ := List.mem_map.mp htl
        have hv := hval grp hgrp
        have hq2 : q.1 ∈ grp.2 := List.mem_of_mem_drop hqtl
        have hb : q.1 ∉ (omLookup grp.1 acc).getD [] := by
          cases hx : omLookup grp.1 acc with
          | none => simp
          | some b =>
            intro hc
            exact hq_fresh_acc (grp.1, b) (omLookup_mem hx) (by simpa using hc)
        have hgs : grp.1 = freqVec q.2.children := by
          rw [hv] at hq2
          rcases List.mem_append.mp hq2 with hc | hc
          · exact absurd hc hb
          · obtain ⟨p, hp, hpq⟩ := List.mem_map.mp hc
            have hpf := List.mem_filter.mp hp
            rcases List.mem_cons.mp hpf.1 with rfl | hp2
            · exact (of_decide_eq_true hpf.2).symm
            · exact absurd (hpq ▸ List.mem_map.mpr ⟨p, hp2, rfl⟩) hq_rest
        by_cases hbe : (omLookup (freqVec q.2.children) acc).isSome
        · exact omLookup_isSome_mem_keys hbe
        · exfalso
          have hbnil : (omLookup (freqVec q.2.children) acc).getD [] = [] := by
            cases hx : omLookup (freqVec q.2.children) acc with
            | none => rfl
            | some b =>
              rw [hx] at hbe
              exact absurd rfl hbe
          rw [hv, hgs, hbnil, List.nil_append, List.filter_cons,
            if_pos (by simp), List.map_cons, List.drop_one] at hqtl
          obtain ⟨p, hp, hpq⟩ := List.mem_map.mp hqtl
          exact hq_rest (hpq ▸ List.mem_map.mpr ⟨p, (List.mem_filter.mp hp).1, rfl⟩)
      · intro hm
        have hsome := omLookup_isSome_of_mem_keys hm
        obtain ⟨b, hb⟩ : ∃ b, omLookup (freqVec q.2.children) acc = some b := by
          cases hx : omLookup (freqVec q.2.children) acc with
          | none =>
            rw [hx] at hsome
            cases hsome
          | some b => exact ⟨b, rfl⟩
        have hbne : b ≠ [] := hne (freqVec q.2.children, b) (omLookup_mem hb)
        have hskey : freqVec q.2.children ∈ omKeys (groupFold acc (q :: rest)) :=
          (groupFold_keys_mem _ _ _).mpr (Or.inl hm)
        have hsome2 := omLookup_isSome_of_mem_keys hskey
        obtain ⟨X, hX⟩ : ∃ X, omLookup (freqVec q.2.children) (groupFold acc (q :: rest))
            = some X := by
          cases hx : omLookup (freqVec q.2.children) (groupFold acc (q :: rest)) with
          | none =>
            rw [hx] at hsome2
            cases hsome2
          | some X => exact ⟨X, rfl⟩
        have hXv : X = b ++ ((q :: rest).filter
            (fun p => decide (freqVec p.2.children = freqVec q.2.children))).map
              (fun p => p.1) := by
          have := groupFold_get (q :: rest) acc (freqVec q.2.children)
          rw [hX, hb] at this
          simpa using this
        refine List.mem_flatten.mpr ⟨X.drop 1,
          List.mem_map.mpr ⟨(freqVec q.2.children, X), omLookup_mem hX, rfl⟩, ?_⟩
        cases b with
        | nil => exact absurd rfl hbne
        | cons b0 btail =>
          rw [hXv, List.filter_cons, if_pos (by simp), List.cons_append, List.drop_one]
          simp
    rw [List.filter_cons]
    by_cases hmem : freqVec q.2.children ∈ seen
    · have hins : freqVec q.2.children ∈ omKeys acc := (hseen _).mpr hmem
      have hdel : q.1 ∈ ((groupFold acc (q :: rest)).map
          (fun grp => grp.2.drop 1)).flatten := K1.mpr hins
      rw [if_neg (by rw [decide_eq_true_eq]; exact fun hc => hc hdel)]
      show List.filter _ rest = keepFirstBySig seen (q :: rest)
      rw [keepFirstBySig, if_pos hmem, hG]
      have hfresh2 : ∀ p ∈ rest, ∀ grp ∈ bucketAdd acc (freqVec q.2.children) q.1,
          p.1 ∉ grp.2 := by
        intro p hp grp hgrp hmem2
        rcases bucketAdd_val_mem grp.1 grp.2 (by exact hgrp) p.1 hmem2 with
          ⟨l2, hl2, hml⟩ | heq
        · exact hfresh p (List.mem_cons_of_mem _ hp) (grp.1, l2) hl2 hml
        · exact hq_rest (heq ▸ List.mem_map.mpr ⟨p, hp, rfl⟩)
      refine ih (bucketAdd acc (freqVec q.2.children) q.1) seen ?_ ?_ ?_ hfresh2 hnd_rest
      · rw [omKeys_bucketAdd, if_pos hins]
        exact hknd
      · exact bucketAdd_nonempty hne _ _
      · intro s
        rw [omKeys_bucketAdd, if_pos hins]
        exact hseen s
    · have hnotk : freqVec q.2.children ∉ omKeys acc := fun hc => hmem ((hseen _).mp hc)
      have hdel : q.1 ∉ ((groupFold acc (q :: rest)).map
          (fun grp => grp.2.drop 1)).flatten := fun hc => hnotk (K1.mp hc)
      rw [if_pos (by rw [decide_eq_true_eq]; exact hdel)]
      rw [keepFirstBySig, if_neg hmem]
      refine congrArg (fun t => q :: t) ?_
      rw [hG]
      have hfresh2 : ∀ p ∈ rest, ∀ grp ∈ bucketAdd acc (freqVec q.2.children) q.1,
          p.1 ∉ grp.2 := by
        intro p hp grp hgrp hmem2
        rcases bucketAdd_val_mem grp.1 grp.2 (by exact hgrp) p.1 hmem2 with
          ⟨l2, hl2, hml⟩ | heq
        · exact hfresh p (List.mem_cons_of_mem _ hp) (grp.1, l2) hl2 hml
        · exact hq_rest (heq ▸ List.mem_map.mpr ⟨p, hp, rfl⟩)
      refine ih (bucketAdd acc (freqVec q.2.children) q.1)
        (freqVec q.2.children :: seen) ?_ ?_ ?_ hfresh2 hnd_rest
      · rw [omKeys_bucketAdd, if_neg hnotk, List.nodup_append]
        exact ⟨hknd, List.nodup_singleton _, by
          intro x hx hx2
          rcases List.mem_singleton.mp hx2 with rfl
          exact hnotk hx⟩
      · exact bucketAdd_nonempty hne _ _
      · intro s
        rw [omKeys_bucketAdd, if_neg hnotk]
        constructor
        · intro hs
          rcases List.mem_append.mp hs with hs | hs
          · exact List.mem_cons_of_mem _ ((hseen s).mp hs)
          · rcases List.mem_singleton.mp hs with rfl
            exact List.mem_cons_self _ _
        · intro hs
          rcases List.mem_cons.mp hs with rfl | hs
          · exact List.mem_append_right _ (List.mem_singleton.mpr rfl)
          · exact List.mem_append_left _ ((hseen s).mpr hs)

theorem groupFold_val {inner : List (NodeId × Node)} :
    ∀ grp ∈ groupFold [] inner,
      grp.2 = (inner.filter
        (fun p => decide (freqVec p.2.children = grp.1))).map (fun p => p.1) := by
  intro grp hg
  have hknd : (omKeys (groupFold [] inner)).Nodup :=
    groupFold_keys_nodup _ [] List.nodup_nil
  have hlk : omLookup grp.1 (groupFold [] inner) = some grp.2 :=
    omLookup_of_mem_nodup hknd (by exact hg)
  have hgd := groupFold_get inner [] grp.1
  rw [hlk] at hgd
  simpa [omLookup] using hgd

theorem del_nodup {inner : List (NodeId × Node)} (hnd : (inner.map Prod.fst).Nodup) :
    (((groupFold [] inner).map (fun grp => grp.2.drop 1)).flatten).Nodup := by
  refine flatten_nodup_of ?_ ?_
  · intro x hx
    obtain ⟨grp, hgrp, rfl⟩ := List.mem_map.mp hx
    have hv := groupFold_val grp hgrp
    refine List.Sublist.nodup (List.drop_sublist 1 _) ?_
    rw [hv]
    exact List.Sublist.nodup (List.Sublist.map _ (List.filter_sublist _)) hnd
  · rw [List.pairwise_map]
    have hknd : (omKeys (groupFold [] inner)).Nodup :=
      groupFold_keys_nodup _ [] List.nodup_nil
    have hkp : List.Pairwise (fun g1 g2 :
        List (ClassId × Nat) × List NodeId => g1.1 ≠ g2.1) (groupFold [] inner) :=
      (List.pairwise_map.mp hknd)
    refine List.Pairwise.imp_of_mem ?_ hkp
    intro g1 g2 hg1 hg2 hne12 d hd1 hd2
    have hv1 := groupFold_val g1 hg1
    have hv2 := groupFold_val g2 hg2
    have hm1 : d ∈ g1.2 := List.mem_of_mem_drop hd1
    have hm2 : d ∈ g2.2 := List.mem_of_mem_drop hd2
    rw [hv1] at hm1
    rw [hv2] at hm2
    obtain ⟨p1, hp1, hdp1⟩ := List.mem_map.mp hm1
    obtain ⟨p2, hp2, hdp2⟩ := List.mem_map.mp hm2
    have hf1 := List.mem_filter.mp hp1
    have hf2 := List.mem_filter.mp hp2
    have hkey : p1.1 = p2.1 := by rw [hdp1, hdp2]
    have hpv : p1.2 = p2.2 :=
      @mem_value_unique NodeId Node _ inner hnd p1.1 p1.2 p2.2
        (by simpa using hf1.1) (by rw [hkey]; simpa using hf2.1)
    have hs1 := of_decide_eq_true hf1.2
    have hs2 := of_decide_eq_true hf2.2
    rw [← hs1, hpv, hs2] at hne12
    exact hne12 rfl

theorem removeClass_ok {nodes : List (ClassId × List (NodeId × Node))} {cid : ClassId}
    {inner : List (NodeId × Node)}
    (hl : omLookup cid nodes = some inner)
    (hinner_nd : (inner.map Prod.fst).Nodup)
    (hin_cls : ∀ p ∈ inner, p.1.1 = cid) :
    removeClass nodes (inner.map Prod.fst) =
      .ok (omSet nodes cid (keepFirstBySig [] inner)) := by
  have hlookups : ∀ p ∈ inner, omLookup p.1.1 nodes = some inner ∧
      omLookup p.1 inner = some p.2 := by
    intro p hp
    constructor
    · rw [hin_cls p hp]
      exact hl
    · exact omLookup_of_mem_nodup hinner_nd (by exact hp)
  unfold removeClass
  rw [groupNodes_eq inner [] hlookups]
  show deleteGroups nodes (groupFold [] inner) = _
  rw [deleteGroups_ok (groupFold [] inner) nodes cid inner hl ?_ (del_nodup hinner_nd)]
  · refine congrArg (fun x => Except.ok (omSet nodes cid x)) ?_
    exact filter_del_eq_keepFirst inner [] [] List.nodup_nil
      (by intro grp hg; cases hg) (by intro s; simp [omKeys])
      (by intro p _ grp hg; cases hg) hinner_nd
  · intro grp hgrp d hd
    have hv := groupFold_val grp hgrp
    have hm : d ∈ grp.2 := List.mem_of_mem_drop hd
    rw [hv] at hm
    obtain ⟨p, hp, rfl⟩ := List.mem_map.mp hm
    have hpm := (List.mem_filter.mp hp).1
    exact ⟨hin_cls p hpm, List.mem_map.mpr ⟨p, hpm, rfl⟩⟩

theorem bucketAdd_fresh {α β : Type} [DecidableEq α] :
    ∀ {m : List (α × List β)} {k : α}, k ∉ omKeys m →
      ∀ (x : β), bucketAdd m k x = m ++ [(k, [x])] := by
  intro m
  induction m with
  | nil =>
    intro k _ x
    rfl
  | cons q rest ih =>
    intro k hk x
    obtain ⟨a, l⟩ := q
    have hka : ¬ k = a := by
      rintro rfl
      exact hk (List.mem_cons_self _ _)
    show bucketAdd ((a, l) :: rest) k x = _
    rw [bucketAdd, if_neg hka, ih (fun hc => hk (List.mem_cons_of_mem _ hc)) x]
    rfl

theorem bucketAdd_app {α β : Type} [DecidableEq α] :
    ∀ {m : List (α × List β)} {k : α}, k ∉ omKeys m →
      ∀ (lk : List β) (x : β),
        bucketAdd (m ++ [(k, lk)]) k x = m ++ [(k, lk ++ [x])] := by
  intro m
  induction m with
  | nil =>
    intro k _ lk x
    show bucketAdd [(k, lk)] k x = _
    rw [bucketAdd, if_pos rfl]
    rfl
  | cons q rest ih =>
    intro k hk lk x
    obtain ⟨a, l⟩ := q
    have hka : ¬ k = a := by
      rintro rfl
      exact hk (List.mem_cons_self _ _)
    show bucketAdd ((a, l) :: (rest ++ [(k, lk)])) k x = _
    rw [bucketAdd, if_neg hka, ih (fun hc => hk (List.mem_cons_of_mem _ hc)) lk x]
    rfl

theorem innerBucket {k : ClassId} :
    ∀ (l : List (NodeId × Node)) (m : List (ClassId × List NodeId)) (lk : List NodeId),
      k ∉ omKeys m →
      l.foldl (fun m2 p => bucketAdd m2 k p.1) (m ++ [(k, lk)])
        = m ++ [(k, lk ++ l.map Prod.fst)] := by
  intro l
  induction l with
  | nil =>
    intro m lk _
    simp
  | cons p rest ih =>
    intro m lk hk
    rw [List.foldl_cons, bucketAdd_app hk, ih m _ hk, List.append_assoc]
    rfl

theorem eclassCollect_eq {nodes : List (ClassId × List (NodeId × Node))}
    (hnd : (omKeys nodes).Nodup) (hne : ∀ kv ∈ nodes, kv.2 ≠ []) :
    eclassCollect nodes = nodes.map (fun kv => (kv.1, omKeys kv.2)) := by
  have main : ∀ (l : List (ClassId × List (NodeId × Node)))
      (m : List (ClassId × List NodeId)),
      (∀ kv ∈ l, kv.1 ∉ omKeys m) → (omKeys l).Nodup → (∀ kv ∈ l, kv.2 ≠ []) →
      l.foldl (fun m kv => kv.2.foldl (fun m2 p => bucketAdd m2 kv.1 p.1) m) m
        = m ++ l.map (fun kv => (kv.1, omKeys kv.2)) := by
    intro l
    induction l with
    | nil =>
      intro m _ _ _
      simp
    | cons kv rest ih =>
      intro m hfr hlnd hlne
      rw [List.foldl_cons]
      have hkvm : kv.1 ∉ omKeys m := hfr kv (List.mem_cons_self _ _)
      have hinner : kv.2.foldl (fun m2 p => bucketAdd m2 kv.1 p.1) m
          = m ++ [(kv.1, omKeys kv.2)] := by
        cases hkv2 : kv.2 with
        | nil => exact absurd hkv2 (hlne kv (List.mem_cons_self _ _))
        | cons p0 prest =>
          rw [List.foldl_cons, bucketAdd_fresh hkvm, innerBucket prest m [p0.1] hkvm]
          rfl
      rw [hinner, ih (m ++ [(kv.1, omKeys kv.2)]) ?_ (List.nodup_cons.mp hlnd).2
        (fun kv2 hkv2 => hlne kv2 (List.mem_cons_of_mem _ hkv2)), List.append_assoc]
      · rfl
      · intro kv2 hkv2 hc
        have hkeys : omKeys (m ++ [(kv.1, omKeys kv.2)]) = omKeys m ++ [kv.1] := by
          unfold omKeys
          rw [List.map_append]
          rfl
        rw [hkeys] at hc
        rcases List.mem_append.mp hc with hc | hc
        · exact hfr kv2 (List.mem_cons_of_mem _ hkv2) hc
        · rcases List.mem_singleton.mp hc with hc
          exact (List.nodup_cons.mp hlnd).1
            (hc ▸ List.mem_map.mpr ⟨kv2, hkv2, rfl⟩)
  have := main nodes [] (by intro kv _ hc; simp [omKeys] at hc) hnd hne
  simpa [eclassCollect] using this

theorem removeFold_ok :
    ∀ (todo : List (ClassId × List (NodeId × Node)))
      (nodes : List (ClassId × List (NodeId × Node))),
      (∀ kv ∈ todo, omLookup kv.1 nodes = some kv.2 ∧ (kv.2.map Prod.fst).Nodup ∧
        (∀ p ∈ kv.2, p.1.1 = kv.1)) →
      (omKeys todo).Nodup →
      ∃ nodes2, removeFold nodes (todo.map (fun kv => (kv.1, omKeys kv.2))) = .ok nodes2 ∧
        omKeys nodes2 = omKeys nodes ∧
        (∀ kv ∈ todo, omLookup kv.1 nodes2 = some (keepFirstBySig [] kv.2)) ∧
        (∀ c, c ∉ omKeys todo → omLookup c nodes2 = omLookup c nodes) := by
  intro todo
  induction todo with
  | nil =>
    intro nodes _ _
    refine ⟨nodes, rfl, rfl, ?_, ?_⟩
    · intro kv hkv
      cases hkv
    · intro c _
      rfl
  | cons kv rest ih =>
    intro nodes hconds hknd
    obtain ⟨hl, hind, hcls⟩ := hconds kv (List.mem_cons_self _ _)
    rw [List.map_cons, removeFold]
    have hrc : removeClass nodes (omKeys kv.2) =
        .ok (omSet nodes kv.1 (keepFirstBySig [] kv.2)) :=
      removeClass_ok hl hind hcls
    simp only [hrc]
    have hkv_not_rest : kv.1 ∉ omKeys rest := (List.nodup_cons.mp hknd).1
    have hconds2 : ∀ kv2 ∈ rest,
        omLookup kv2.1 (omSet nodes kv.1 (keepFirstBySig [] kv.2)) = some kv2.2 ∧
          (kv2.2.map Prod.fst).Nodup ∧ (∀ p ∈ kv2.2, p.1.1 = kv2.1) := by
      intro kv2 hkv2
      obtain ⟨hl2, hind2, hcls2⟩ := hconds kv2 (List.mem_cons_of_mem _ hkv2)
      have hne2 : kv2.1 ≠ kv.1 := by
        intro hce
        exact hkv_not_rest (hce ▸ List.mem_map.mpr ⟨kv2, hkv2, rfl⟩)
      refine ⟨?_, hind2, hcls2⟩
      rw [omLookup_omSet, if_neg hne2]
      exact hl2
    obtain ⟨nodes2, hrf, hkeys2, hproc, hother⟩ :=
      ih (omSet nodes kv.1 (keepFirstBySig [] kv.2)) hconds2 (List.nodup_cons.mp hknd).2
    refine ⟨nodes2, hrf, ?_, ?_, ?_⟩
    · rw [hkeys2, omKeys_omSet,
        if_pos (omLookup_isSome_mem_keys (by rw [hl]; rfl))]
    · intro kv2 hkv2
      rcases List.mem_cons.mp hkv2 with rfl | hkv2
      · rw [hother kv2.1 hkv_not_rest, omLookup_omSet, if_pos rfl]
      · exact hproc kv2 hkv2
    · intro c hc
      have hc1 : c ≠ kv.1 := by
        intro hce
        exact hc (hce ▸ List.mem_cons_self _ _)
      have hc2 : c ∉ omKeys rest := fun hce => hc (List.mem_cons_of_mem _ hce)
      rw [hother c hc2, omLookup_omSet, if_neg hc1]

/-- Claim C8: on a well-formed description (distinct class keys, distinct
node ids declared under their own class, no empty class), the nodes of each
class are grouped by the ordered (child, multiplicity) frequency vector;
the first member of each group is kept in stable insertion order and every
other member is deleted, leaving singleton groups untouched. -/
theorem claim_C8_remove_redundant (g : EGraph)
    (hout : (omKeys g.nodes).Nodup)
    (hwf : ∀ kv ∈ g.nodes, (kv.2.map Prod.fst).Nodup ∧
      (∀ p ∈ kv.2, p.1.1 = kv.1) ∧ kv.2 ≠ []) :
    ∃ g2, remove_redundant_nodes g = .ok g2 ∧ g2.root_eclasses = g.root_eclasses ∧
      omKeys g2.nodes = omKeys g.nodes ∧
      ∀ kv ∈ g.nodes, omLookup kv.1 g2.nodes = some (keepFirstBySig [] kv.2) := by
  have hec : eclassCollect g.nodes = g.nodes.map (fun kv => (kv.1, omKeys kv.2)) :=
    eclassCollect_eq hout (fun kv hkv => (hwf kv hkv).2.2)
  obtain ⟨nodes2, hrf, hkeys2, hproc, _⟩ := removeFold_ok g.nodes g.nodes
    (fun kv hkv => ⟨omLookup_of_mem_nodup hout (by exact hkv),
      (hwf kv hkv).1, (hwf kv hkv).2.1⟩) hout
  refine ⟨{ nodes := nodes2, root_eclasses := g.root_eclasses }, ?_, rfl, hkeys2, hproc⟩
  unfold remove_redundant_nodes
  rw [hec, hrf]

/-- One class with two leaves of identical child signature: the second is
deleted. -/
def exG5 : EGraph :=
  { nodes := [(0, [((0, 0), mkLeaf 0 1), ((0, 1), mkLeaf 0 2)])], root_eclasses := [0] }

/-- Witness for C8 at a concrete instance. -/
theorem claim_C8_witness :
    ((omKeys exG5.nodes).Nodup ∧
      ∀ kv ∈ exG5.nodes, (kv.2.map Prod.fst).Nodup ∧
        (∀ p ∈ kv.2, p.1.1 = kv.1) ∧ kv.2 ≠ []) ∧
    (∃ g2, remove_redundant_nodes exG5 = .ok g2 ∧
      g2.root_eclasses = exG5.root_eclasses ∧
      omKeys g2.nodes = omKeys exG5.nodes ∧
      ∀ kv ∈ exG5.nodes, omLookup kv.1 g2.nodes = some (keepFirstBySig [] kv.2)) :=
  ⟨⟨by decide, by decide⟩,
    claim_C8_remove_redundant exG5 (by decide) (by decide)⟩

end EBoost